import Mathlib

/-!
# Verification of the order-matching engine core

A shallow embedding of the matching subsystem of the order-matching engine
(`internal/models/order.go`, `internal/matching/engine.go`) together with
proofs of the specified properties.

Modelling conventions:

* Go pointers to `models.Order` are modelled by order ids together with an
  explicit heap: the engine's global registry (`sync.Map` `AllOrders`) is an
  association list `Registry`, and every mutation of an order that the Go
  code performs through a shared pointer is modelled as a store into the
  registry at that order's id.  Price levels hold order ids; the order book's
  `Orders` index (`by_id`) holds the order value captured when the order was
  added (only its immutable fields `ID`, `Side`, `Price` are ever read
  through that index, exactly as in the source).
* The `redblacktree.Tree` values (price → price level) are modelled by their
  in-order traversals: lists of `(price, level)` pairs ordered by the tree's
  comparator (bids descending, asks ascending).  `Put`, `Get`, `Remove`,
  `Left` and iteration become list operations that follow the comparator.
* Wall-clock data (`Timestamp` fields, latency metrics) carries no
  information used by the matching logic (time priority is insertion order,
  not the timestamp field) and is omitted.
* Trade ids come from an external unique-string source (`uuid.New`); no
  verified property constrains them, and they are modelled as `""`.
-/

namespace Matching

/-- `models.Side`. -/
inductive Side where
  | Buy
  | Sell
  deriving DecidableEq, Repr

/-- `models.OrderType`. -/
inductive OrderType where
  | Limit
  | Market
  deriving DecidableEq, Repr

/-- `models.OrderStatus`. -/
inductive OrderStatus where
  | Accepted
  | PartialFill
  | Filled
  | Cancelled
  deriving DecidableEq, Repr

/-- `models.Order` (the `Timestamp` field is wall-clock and omitted). -/
structure Order where
  id : String
  symbol : String
  side : Side
  otype : OrderType
  price : Int
  originalQuantity : Int
  remainingQuantity : Int
  filledQuantity : Int
  status : OrderStatus
  deriving DecidableEq, Repr

/-- `models.NewOrder`. -/
def NewOrder (id symbol : String) (side : Side) (orderType : OrderType)
    (price quantity : Int) : Order :=
  { id := id
    symbol := symbol
    side := side
    otype := orderType
    price := price
    originalQuantity := quantity
    remainingQuantity := quantity
    filledQuantity := 0
    status := .Accepted }

/-- The error values returned by the engine (`fmt.Errorf` in the source,
classified as in the specification's error kinds). -/
inductive EngineError where
  | InvalidPrice
  | InvalidQuantity
  | InsufficientLiquidity (available requested : Int)
  | NotFound
  | AlreadyFilled
  deriving DecidableEq, Repr

/-- `(*models.Order).Validate`: `some err` models a non-nil error return. -/
def Order.Validate (o : Order) : Option EngineError :=
  if o.otype = .Limit ∧ o.price ≤ 0 then some .InvalidPrice
  else if o.originalQuantity ≤ 0 then some .InvalidQuantity
  else none

/-- `models.Trade` (wall-clock `Timestamp` omitted; `id` is the externally
generated uuid, modelled as an uninterpreted string). -/
structure Trade where
  id : String
  buyerOrderID : String
  sellerOrderID : String
  price : Int
  quantity : Int
  deriving DecidableEq, Repr

/-- `models.NewTrade`. -/
def NewTrade (id buyerOrderID sellerOrderID : String) (price quantity : Int) : Trade :=
  { id := id
    buyerOrderID := buyerOrderID
    sellerOrderID := sellerOrderID
    price := price
    quantity := quantity }

/-! ## Association-list maps

Go's `map[string]*T` / `sync.Map`, modelled as association lists with
store / load / delete following Go map semantics (store overwrites, delete
removes the key). -/

/-- Map store: overwrite the existing binding or append a new one. -/
def assocStore {α : Type} : List (String × α) → String → α → List (String × α)
  | [], k, v => [(k, v)]
  | e :: rest, k, v => if e.1 = k then (k, v) :: rest else e :: assocStore rest k v

/-- Map lookup. -/
def assocLoad {α : Type} : List (String × α) → String → Option α
  | [], _ => none
  | e :: rest, k => if e.1 = k then some e.2 else assocLoad rest k

/-- Map delete. -/
def assocDelete {α : Type} : List (String × α) → String → List (String × α)
  | [], _ => []
  | e :: rest, k => if e.1 = k then rest else e :: assocDelete rest k

/-- The engine's global order registry (`Engine.AllOrders`), which doubles as
the heap through which shared `*models.Order` pointers are dereferenced. -/
abbrev Registry := List (String × Order)

/-! ## The price trees

`redblacktree.Tree` keyed by price with a side-specific comparator, modelled
by its ordered traversal.  A price level (`matching.PriceLevel`) is the FIFO
list of the ids of the orders resting at that price. -/

/-- `matching.PriceLevel`: FIFO queue of resting-order ids at one price. -/
abbrev PriceLevel := List String

/-- A price tree: `(price, level)` pairs in comparator order. -/
abbrev PriceTree := List (Int × PriceLevel)

/-- Comparator of the bids tree: descending by price
(`utils.Int64Comparator(b, a)` in `NewOrderBook`). -/
def cmpBids (a b : Int) : Ordering := compare b a

/-- Comparator of the asks tree: ascending by price (`utils.Int64Comparator`). -/
def cmpAsks (a b : Int) : Ordering := compare a b

/-- `tree.Put`: replace the value at an existing key, otherwise insert the
key at its comparator position. -/
def treePut (cmp : Int → Int → Ordering) : PriceTree → Int → PriceLevel → PriceTree
  | [], k, v => [(k, v)]
  | (k', v') :: rest, k, v =>
    match cmp k k' with
    | .lt => (k, v) :: (k', v') :: rest
    | .eq => (k, v) :: rest
    | .gt => (k', v') :: treePut cmp rest k v

/-- `tree.Get`: comparator-guided search. -/
def treeGet (cmp : Int → Int → Ordering) : PriceTree → Int → Option PriceLevel
  | [], _ => none
  | (k', v') :: rest, k =>
    match cmp k k' with
    | .lt => none
    | .eq => some v'
    | .gt => treeGet cmp rest k

/-- `tree.Remove`: comparator-guided removal of a key. -/
def treeRemove (cmp : Int → Int → Ordering) : PriceTree → Int → PriceTree
  | [], _ => []
  | (k', v') :: rest, k =>
    match cmp k k' with
    | .lt => (k', v') :: rest
    | .eq => rest
    | .gt => (k', v') :: treeRemove cmp rest k

/-! ## The order book -/

/-- `matching.OrderBook`.  `orders` is the `Orders` (`by_id`) index; its
values are the orders as captured by `AddOrder` (through this index the
source only ever reads the immutable fields `ID`, `Side`, `Price`, and
returns the pointer — modelled by re-reading the registry at the id). -/
structure OrderBook where
  symbol : String
  bids : PriceTree
  asks : PriceTree
  orders : List (String × Order)
  deriving DecidableEq, Repr

/-- `matching.NewOrderBook`. -/
def NewOrderBook (symbol : String) : OrderBook :=
  { symbol := symbol, bids := [], asks := [], orders := [] }

/-- `(*OrderBook).AddOrder`. -/
def OrderBook.AddOrder (ob : OrderBook) (order : Order) : OrderBook :=
  if (assocLoad ob.orders order.id).isSome then ob
  else
    let withIdx := { ob with orders := ob.orders ++ [(order.id, order)] }
    if order.side = .Buy then
      match treeGet cmpBids withIdx.bids order.price with
      | none =>
        { withIdx with bids := treePut cmpBids withIdx.bids order.price [order.id] }
      | some lvl =>
        { withIdx with bids := treePut cmpBids withIdx.bids order.price (lvl ++ [order.id]) }
    else
      match treeGet cmpAsks withIdx.asks order.price with
      | none =>
        { withIdx with asks := treePut cmpAsks withIdx.asks order.price [order.id] }
      | some lvl =>
        { withIdx with asks := treePut cmpAsks withIdx.asks order.price (lvl ++ [order.id]) }

/-- `(*OrderBook).RemoveOrder`: returns the removed order (`none` models the
nil pointer) together with the updated book.  The Go loop removes the first
occurrence of the id within the level and breaks. -/
def OrderBook.RemoveOrder (ob : OrderBook) (orderID : String) : Option Order × OrderBook :=
  match assocLoad ob.orders orderID with
  | none => (none, ob)
  | some order =>
    let orders := assocDelete ob.orders orderID
    if order.side = .Buy then
      match treeGet cmpBids ob.bids order.price with
      | none => (some order, { ob with orders := orders })
      | some lvl =>
        let lvl := lvl.eraseP (fun i => i == orderID)
        if lvl.isEmpty then
          (some order, { ob with orders := orders
                                 bids := treeRemove cmpBids ob.bids order.price })
        else
          (some order, { ob with orders := orders
                                 bids := treePut cmpBids ob.bids order.price lvl })
    else
      match treeGet cmpAsks ob.asks order.price with
      | none => (some order, { ob with orders := orders })
      | some lvl =>
        let lvl := lvl.eraseP (fun i => i == orderID)
        if lvl.isEmpty then
          (some order, { ob with orders := orders
                                 asks := treeRemove cmpAsks ob.asks order.price })
        else
          (some order, { ob with orders := orders
                                 asks := treePut cmpAsks ob.asks order.price lvl })

/-- `(*OrderBook).GetBestBid`: head order of the first (highest-price) bid
level, dereferenced through the registry. -/
def OrderBook.GetBestBid (ob : OrderBook) (reg : Registry) : Option Order :=
  match ob.bids.head? with
  | none => none
  | some (_, lvl) =>
    match lvl.head? with
    | none => none
    | some id0 => assocLoad reg id0

/-- `(*OrderBook).GetBestAsk`: head order of the first (lowest-price) ask
level, dereferenced through the registry. -/
def OrderBook.GetBestAsk (ob : OrderBook) (reg : Registry) : Option Order :=
  match ob.asks.head? with
  | none => none
  | some (_, lvl) =>
    match lvl.head? with
    | none => none
    | some id0 => assocLoad reg id0

/-- Remaining quantity of a resting order read through its pointer; in every
well-formed state the id is present in the registry. -/
def restingRemaining (reg : Registry) (id0 : String) : Int :=
  ((assocLoad reg id0).map Order.remainingQuantity).getD 0

/-- The inner summation of `CalculateLiquidity`: walk the resting orders in
tree order accumulating `RemainingQuantity`, returning early once the
accumulated amount reaches `maxNeeded`. -/
def liquidityScan (reg : Registry) (maxNeeded : Int) : List String → Int → Int
  | [], available => available
  | id0 :: rest, available =>
    let available := available + restingRemaining reg id0
    if available ≥ maxNeeded then available else liquidityScan reg maxNeeded rest available

/-- `(*OrderBook).CalculateLiquidity`: a Buy consumes asks, a Sell consumes
bids.  The nested level/order loops of the source are the single walk over
the in-order flattening of the tree. -/
def OrderBook.CalculateLiquidity (ob : OrderBook) (reg : Registry) (side : Side)
    (maxNeeded : Int) : Int :=
  let tree := if side = .Buy then ob.asks else ob.bids
  liquidityScan reg maxNeeded (tree.map Prod.snd).flatten 0

/-- `matching.PriceLevelData`. -/
structure PriceLevelData where
  price : Int
  quantity : Int
  deriving DecidableEq, Repr

/-- `matching.OrderBookDepth` (wall-clock `Timestamp` omitted). -/
structure OrderBookDepth where
  symbol : String
  bids : List PriceLevelData
  asks : List PriceLevelData
  deriving DecidableEq, Repr

/-- One side of `(*OrderBook).GetDepth`: aggregate each level in tree order,
stopping once `count` reaches a positive `depthLimit`. -/
def depthSide (reg : Registry) (depthLimit : Int) : PriceTree → Int → List PriceLevelData
  | [], _ => []
  | (price, lvl) :: rest, count =>
    if depthLimit > 0 ∧ count ≥ depthLimit then []
    else
      { price := price, quantity := (lvl.map (restingRemaining reg)).sum } ::
        depthSide reg depthLimit rest (count + 1)

/-- `(*OrderBook).GetDepth`. -/
def OrderBook.GetDepth (ob : OrderBook) (reg : Registry) (depthLimit : Int) :
    OrderBookDepth :=
  { symbol := ob.symbol
    bids := depthSide reg depthLimit ob.bids 0
    asks := depthSide reg depthLimit ob.asks 0 }

/-! ## The engine -/

/-- `metrics.Metrics` (the latency histogram is wall-clock and omitted). -/
structure Metrics where
  ordersReceived : Int
  ordersMatched : Int
  ordersCancelled : Int
  ordersInBook : Int
  tradesExecuted : Int
  deriving DecidableEq, Repr

/-- `metrics.NewMetrics`: all counters zero. -/
def NewMetrics : Metrics :=
  { ordersReceived := 0, ordersMatched := 0, ordersCancelled := 0
    ordersInBook := 0, tradesExecuted := 0 }

/-- `matching.MatchResult`. -/
structure MatchResult where
  order : Order
  trades : List Trade
  deriving DecidableEq, Repr

/-- `matching.Engine`. -/
structure Engine where
  orderBooks : List (String × OrderBook)
  allOrders : Registry
  metrics : Metrics
  deriving DecidableEq, Repr

/-- `matching.NewEngine`. -/
def NewEngine : Engine :=
  { orderBooks := [], allOrders := [], metrics := NewMetrics }

/-- `(*Engine).getOrderBook`: look up the symbol's book, lazily creating it.
Returns the book together with the (possibly extended) engine. -/
def Engine.getOrderBook (e : Engine) (symbol : String) : OrderBook × Engine :=
  match assocLoad e.orderBooks symbol with
  | some ob => (ob, e)
  | none =>
    let ob := NewOrderBook symbol
    (ob, { e with orderBooks := e.orderBooks ++ [(symbol, ob)] })

/-- Write the mutated book back into the engine's symbol map (in the source
this happens implicitly: the map holds a pointer to the mutated book). -/
def Engine.setOrderBook (e : Engine) (symbol : String) (ob : OrderBook) : Engine :=
  { e with orderBooks := assocStore e.orderBooks symbol ob }

/-- `matching.getBuyerOrderID`. -/
def getBuyerOrderID (o1 o2 : Order) : String :=
  if o1.side = .Buy then o1.id else o2.id

/-- `matching.getSellerOrderID`. -/
def getSellerOrderID (o1 o2 : Order) : String :=
  if o1.side = .Sell then o1.id else o2.id

/-- `(*Engine).executeTrade`.  `incomingOrder` is the taker (a local value in
`ProcessOrder`), `bookOrder` the resting maker as read through the best-price
pointer; the in-place pointer mutation of the maker is modelled by storing
the updated maker back into the registry at its id. -/
def executeTrade (incomingOrder bookOrder : Order) (reg : Registry) (ob : OrderBook)
    (m : Metrics) : Order × Registry × OrderBook × Metrics × Trade :=
  let tradeQuantity :=
    if bookOrder.remainingQuantity < incomingOrder.remainingQuantity then
      bookOrder.remainingQuantity
    else incomingOrder.remainingQuantity
  let tradePrice := bookOrder.price
  let trade := NewTrade "" (getBuyerOrderID incomingOrder bookOrder)
    (getSellerOrderID incomingOrder bookOrder) tradePrice tradeQuantity
  let incomingOrder := { incomingOrder with
    remainingQuantity := incomingOrder.remainingQuantity - tradeQuantity
    filledQuantity := incomingOrder.filledQuantity + tradeQuantity }
  let bookOrder := { bookOrder with
    remainingQuantity := bookOrder.remainingQuantity - tradeQuantity
    filledQuantity := bookOrder.filledQuantity + tradeQuantity }
  if bookOrder.remainingQuantity = 0 then
    let bookOrder := { bookOrder with status := .Filled }
    let reg := assocStore reg bookOrder.id bookOrder
    let ob := (ob.RemoveOrder bookOrder.id).2
    let m := { m with ordersInBook := m.ordersInBook - 1 }
    (incomingOrder, reg, ob, m, trade)
  else
    let bookOrder := { bookOrder with status := .PartialFill }
    let reg := assocStore reg bookOrder.id bookOrder
    (incomingOrder, reg, ob, m, trade)

/-- The tree the incoming order consumes: a Buy consumes asks, a Sell bids. -/
def oppTree (ob : OrderBook) (side : Side) : PriceTree :=
  if side = .Buy then ob.asks else ob.bids

/-- The opposing best order (`GetBestAsk` for an incoming Buy, `GetBestBid`
for an incoming Sell). -/
def getBestOpp (ob : OrderBook) (reg : Registry) (side : Side) : Option Order :=
  if side = .Buy then ob.GetBestAsk reg else ob.GetBestBid reg

/-- The continue-matching price test of the loops in `processLimitOrder`
(break when `BUY ∧ price < best.Price` or `SELL ∧ price > best.Price`) and
`processMarketOrder` (no price test). -/
def priceCrosses (otype : OrderType) (side : Side) (orderPrice bestPrice : Int) : Bool :=
  match otype with
  | .Market => true
  | .Limit => if side = .Buy then orderPrice ≥ bestPrice else orderPrice ≤ bestPrice

/-- The matching loop shared by `processLimitOrder` and `processMarketOrder`:
while the incoming order has remaining quantity and the opposite side is
non-empty (and, for LIMIT, the prices cross), trade against the opposing best
order.  The source loops terminate because every trade consumes at least one
unit of the incoming remaining quantity (resting orders have positive
remaining); `fuel` bounds the iteration count and is never exhausted on
well-formed books. -/
def matchLoop (fuel : Nat) (otype : OrderType) (order : Order) (reg : Registry)
    (ob : OrderBook) (m : Metrics) (trades : List Trade) :
    Order × Registry × OrderBook × Metrics × List Trade :=
  match fuel with
  | 0 => (order, reg, ob, m, trades)
  | fuel + 1 =>
    if order.remainingQuantity > 0 ∧ oppTree ob order.side ≠ [] then
      match getBestOpp ob reg order.side with
      | none => (order, reg, ob, m, trades)
      | some best =>
        if priceCrosses otype order.side order.price best.price then
          match executeTrade order best reg ob m with
          | (order, reg, ob, m, trade) =>
            matchLoop fuel otype order reg ob m (trades ++ [trade])
        else (order, reg, ob, m, trades)
    else (order, reg, ob, m, trades)

/-- `(*Engine).processLimitOrder`. -/
def processLimitOrder (order : Order) (reg : Registry) (ob : OrderBook) (m : Metrics) :
    Order × Registry × OrderBook × Metrics × List Trade :=
  matchLoop order.remainingQuantity.toNat .Limit order reg ob m []

/-- `(*Engine).processMarketOrder`. -/
def processMarketOrder (order : Order) (reg : Registry) (ob : OrderBook) (m : Metrics) :
    Order × Registry × OrderBook × Metrics × List Trade :=
  matchLoop order.remainingQuantity.toNat .Market order reg ob m []

/-- Replace the engine's metrics record. -/
def Engine.withMetrics (e : Engine) (m : Metrics) : Engine :=
  { e with metrics := m }

/-- Replace the engine's global registry. -/
def Engine.withRegistry (e : Engine) (reg : Registry) : Engine :=
  { e with allOrders := reg }

/-- The body of `(*Engine).ProcessOrder` after validation, registry insertion
and the market liquidity check: matching, counter updates, status
finalization and resting. -/
def Engine.processOrderRest (e : Engine) (order : Order) (ob : OrderBook) :
    Except EngineError MatchResult × Engine :=
  let step :=
    if order.otype = .Limit then processLimitOrder order e.allOrders ob e.metrics
    else processMarketOrder order e.allOrders ob e.metrics
  match step with
  | (order, reg, ob, m, trades) =>
    let tradeCount : Int := trades.length
    let m := { m with tradesExecuted := m.tradesExecuted + tradeCount }
    let m := if tradeCount > 0 then { m with ordersMatched := m.ordersMatched + tradeCount + 1 }
             else m
    let order :=
      if order.filledQuantity > 0 then
        if order.remainingQuantity = 0 then { order with status := .Filled }
        else { order with status := .PartialFill }
      else { order with status := .Accepted }
    if order.remainingQuantity > 0 then
      if order.otype = .Market then
        -- theoretically unreachable after the liquidity pre-check; the source
        -- leaves a MARKET residue un-rested
        (.ok { order := order, trades := trades },
         ((e.setOrderBook ob.symbol ob).withMetrics m).withRegistry (assocStore reg order.id order))
      else
        let ob := ob.AddOrder order
        let m := { m with ordersInBook := m.ordersInBook + 1 }
        (.ok { order := order, trades := trades },
         ((e.setOrderBook ob.symbol ob).withMetrics m).withRegistry (assocStore reg order.id order))
    else
      let order := { order with status := .Filled }
      (.ok { order := order, trades := trades },
       ((e.setOrderBook ob.symbol ob).withMetrics m).withRegistry (assocStore reg order.id order))

/-- `(*Engine).ProcessOrder`: count the submission, validate, insert into the
global registry, resolve the book, run the market liquidity pre-check
(rolling the registry insertion back on failure), then match and rest. -/
def Engine.ProcessOrder (e : Engine) (order : Order) : Except EngineError MatchResult × Engine :=
  let e := e.withMetrics { e.metrics with ordersReceived := e.metrics.ordersReceived + 1 }
  match order.Validate with
  | some err => (.error err, e)
  | none =>
    let e := e.withRegistry (assocStore e.allOrders order.id order)
    match e.getOrderBook order.symbol with
    | (ob, e) =>
      if order.otype = .Market then
        let available := ob.CalculateLiquidity e.allOrders order.side order.originalQuantity
        if available < order.originalQuantity then
          (.error (.InsufficientLiquidity available order.originalQuantity),
           e.withRegistry (assocDelete e.allOrders order.id))
        else
          e.processOrderRest order ob
      else
        e.processOrderRest order ob

/-- `(*Engine).CancelOrder`.  Setting the status through the returned pointer
is modelled by updating the registry entry at the id (the book's index and
the registry hold the same order object). -/
def Engine.CancelOrder (e : Engine) (orderID : String) : Except EngineError Order × Engine :=
  match assocLoad e.allOrders orderID with
  | none => (.error .NotFound, e)
  | some order =>
    if order.status = .Filled then (.error .AlreadyFilled, e)
    else if order.status = .Cancelled then (.ok order, e)
    else
      match e.getOrderBook order.symbol with
      | (ob, e) =>
        -- double check of the status under the book lock (no interleaving in
        -- the sequential model, so the re-read sees the same status)
        if order.status = .Filled then (.error .AlreadyFilled, e)
        else
          match ob.RemoveOrder orderID with
          | (some _, ob) =>
            let order := { order with status := .Cancelled }
            let m := { e.metrics with
              ordersCancelled := e.metrics.ordersCancelled + 1
              ordersInBook := e.metrics.ordersInBook - 1 }
            (.ok order,
             ((e.setOrderBook ob.symbol ob).withMetrics m).withRegistry
               (assocStore e.allOrders orderID order))
          | (none, ob) =>
            let order := { order with status := .Cancelled }
            let m := { e.metrics with
              ordersCancelled := e.metrics.ordersCancelled + 1 }
            (.ok order,
             ((e.setOrderBook ob.symbol ob).withMetrics m).withRegistry
               (assocStore e.allOrders orderID order))

/-- `(*Engine).GetOrder`. -/
def Engine.GetOrder (e : Engine) (orderID : String) : Except EngineError Order :=
  match assocLoad e.allOrders orderID with
  | none => .error .NotFound
  | some o => .ok o

/-- `(*Engine).GetOrderBookDepth` (lazily creates the book, like the source). -/
def Engine.GetOrderBookDepth (e : Engine) (symbol : String) (depthLimit : Int) :
    OrderBookDepth × Engine :=
  match e.getOrderBook symbol with
  | (ob, e) => (ob.GetDepth e.allOrders depthLimit, e)

/-! ## Operation sequences

The sequential client-visible interface: a sequence of submissions and
cancellations applied to a fresh engine. -/

/-- One engine operation. -/
inductive Op where
  | submit (o : Order)
  | cancel (id : String)
  deriving DecidableEq, Repr

/-- Apply one operation, discarding the returned value. -/
def applyOp (e : Engine) : Op → Engine
  | .submit o => (e.ProcessOrder o).2
  | .cancel id => (e.CancelOrder id).2

/-- Run a sequence of operations on a fresh engine. -/
def runOps (ops : List Op) : Engine :=
  ops.foldl applyOp NewEngine

/-! ## Well-formedness

The structural invariants of reachable engine states (numbered invariants of
the specification's data model).  All predicates are decidable so that
concrete witnesses can be checked by evaluation. -/

/-- The ids resting on one side, in priority order (best price first, FIFO
within a level). -/
def bookSideIds (tree : PriceTree) : List String :=
  (tree.map Prod.snd).flatten

/-- All ids resting in a book. -/
def bookIds (ob : OrderBook) : List String :=
  bookSideIds ob.bids ++ bookSideIds ob.asks

/-- The tree's keys are strictly increasing in comparator order. -/
def treeKeysSorted (cmp : Int → Int → Ordering) (tree : PriceTree) : Prop :=
  tree.Pairwise (fun a b => cmp a.1 b.1 = .lt)

instance (x : Option α) (P : α → Prop) [DecidablePred P] :
    Decidable (∃ o, x = some o ∧ P o) :=
  match x with
  | none => isFalse (by simp)
  | some a => decidable_of_iff (P a) (by simp)

/-- A resting id is consistently recorded: the book's `Orders` index holds a
snapshot agreeing on the immutable fields, and the registry (the heap) holds
the live order with matching side, price and symbol and positive remaining
quantity. -/
def entryWF (reg : Registry) (ob : OrderBook) (s : Side) (p : Int) (id0 : String) : Prop :=
  (∃ osnap, assocLoad ob.orders id0 = some osnap ∧
    osnap.id = id0 ∧ osnap.side = s ∧ osnap.price = p) ∧
  (∃ o, assocLoad reg id0 = some o ∧ o.id = id0 ∧ o.side = s ∧ o.price = p ∧
    o.symbol = ob.symbol ∧ 1 ≤ o.remainingQuantity)

instance (reg : Registry) (ob : OrderBook) (s : Side) (p : Int) (id0 : String) :
    Decidable (entryWF reg ob s p id0) := by
  unfold entryWF; infer_instance

/-- Every level of the tree is non-empty and all its entries are
well-formed. -/
def sideWF (reg : Registry) (ob : OrderBook) (s : Side) (tree : PriceTree) : Prop :=
  ∀ pl ∈ tree, pl.2 ≠ [] ∧ ∀ id0 ∈ pl.2, entryWF reg ob s pl.1 id0

instance (reg : Registry) (ob : OrderBook) (s : Side) (tree : PriceTree) :
    Decidable (sideWF reg ob s tree) := by
  unfold sideWF; infer_instance

/-- Well-formedness of one order book relative to the registry. -/
def BookWF (reg : Registry) (ob : OrderBook) : Prop :=
  treeKeysSorted cmpBids ob.bids ∧ treeKeysSorted cmpAsks ob.asks ∧
  sideWF reg ob .Buy ob.bids ∧ sideWF reg ob .Sell ob.asks ∧
  (bookIds ob).Nodup ∧ (ob.orders.map Prod.fst).Nodup ∧
  (∀ id0 ∈ ob.orders.map Prod.fst, id0 ∈ bookIds ob)

instance (reg : Registry) (ob : OrderBook) : Decidable (BookWF reg ob) := by
  unfold BookWF treeKeysSorted; infer_instance

/-- Price of the best (first, highest) bid level. -/
def bestBidPrice (ob : OrderBook) : Option Int :=
  ob.bids.head?.map Prod.fst

/-- Price of the best (first, lowest) ask level. -/
def bestAskPrice (ob : OrderBook) : Option Int :=
  ob.asks.head?.map Prod.fst

/-- The book is not crossed: best bid strictly below best ask whenever both
exist. -/
def NotCrossed (ob : OrderBook) : Prop :=
  ∀ bb ba, bestBidPrice ob = some bb → bestAskPrice ob = some ba → bb < ba

instance (ob : OrderBook) : Decidable (NotCrossed ob) :=
  match h1 : bestBidPrice ob, h2 : bestAskPrice ob with
  | some bb, some ba =>
    decidable_of_iff (bb < ba) (by
      constructor
      · intro h bb' ba' hb' ha'
        rw [h1] at hb'; rw [h2] at ha'
        cases hb'; cases ha'; exact h
      · intro h; exact h bb ba h1 h2)
  | some bb, none => isTrue (by intro bb' ba' _ ha'; rw [h2] at ha'; cases ha')
  | none, _ => isTrue (by intro bb' ba' hb' _; rw [h1] at hb'; cases hb')

/-- Registry coherence: every entry is keyed by its order's id, with no
duplicate keys. -/
def RegWF (reg : Registry) : Prop :=
  (∀ e ∈ reg, e.2.id = e.1) ∧ (reg.map Prod.fst).Nodup

instance (reg : Registry) : Decidable (RegWF reg) := by
  unfold RegWF; infer_instance

/-- The quantity accounting invariant over the registry. -/
def QuantWF (reg : Registry) : Prop :=
  ∀ e ∈ reg, e.2.filledQuantity + e.2.remainingQuantity = e.2.originalQuantity ∧
    0 ≤ e.2.remainingQuantity ∧ 0 ≤ e.2.filledQuantity

instance (reg : Registry) : Decidable (QuantWF reg) := by
  unfold QuantWF; infer_instance

/-- Total number of orders resting across all the engine's books. -/
def totalResting (e : Engine) : Int :=
  (e.orderBooks.map (fun b => ((bookIds b.2).length : Int))).sum

/-- Structural well-formedness of the engine: distinct symbols, each book
keyed by its own symbol and well-formed, coherent registry. -/
def StructWF (e : Engine) : Prop :=
  (e.orderBooks.map Prod.fst).Nodup ∧
  (∀ b ∈ e.orderBooks, b.2.symbol = b.1 ∧ BookWF e.allOrders b.2) ∧
  RegWF e.allOrders

instance (e : Engine) : Decidable (StructWF e) := by
  unfold StructWF; infer_instance

/-! ## Derived quantities and proof-side helpers -/

/-- The side-tree transformation performed by `AddOrder`: append the id to
the `(side, price)` level, creating the level if needed. -/
def levelAppend (cmp : Int → Int → Ordering) (tree : PriceTree) (p : Int)
    (id0 : String) : PriceTree :=
  match treeGet cmp tree p with
  | none => treePut cmp tree p [id0]
  | some lvl => treePut cmp tree p (lvl ++ [id0])

/-- The side-tree transformation performed by `RemoveOrder`: erase the first
occurrence of the id from the level at the price, dropping the level when it
empties (the tree is untouched when the level is missing, as in the
source's early return). -/
def levelErase (cmp : Int → Int → Ordering) (tree : PriceTree) (p : Int)
    (id0 : String) : PriceTree :=
  match treeGet cmp tree p with
  | none => tree
  | some lvl =>
    let lvl' := lvl.eraseP (fun i => i == id0)
    if lvl'.isEmpty then treeRemove cmp tree p else treePut cmp tree p lvl'

/-- Total remaining quantity resting on one side tree. -/
def sideRemaining (reg : Registry) (tree : PriceTree) : Int :=
  ((bookSideIds tree).map (restingRemaining reg)).sum

/-- The liquidity resting opposite an order in the engine: the summed
remaining quantity of the orders on the side its submission would consume. -/
def availableLiquidity (e : Engine) (o : Order) : Int :=
  sideRemaining e.allOrders (oppTree (e.getOrderBook o.symbol).1 o.side)

/-- The maker (resting-side) order id recorded in a trade, given the
taker's side. -/
def tradeMakerId (side : Side) (t : Trade) : String :=
  if side = .Buy then t.sellerOrderID else t.buyerOrderID

/-- One side of the depth snapshot as the specification words it: one
`(price, total remaining)` entry per level in tree (best-first) order,
truncated to the first `limit` levels when `limit > 0`.  Stated separately
from `GetDepth` so that the depth claim can compare the two. -/
def depthSideSpec (reg : Registry) (tree : PriceTree) (limit : Int) :
    List PriceLevelData :=
  (if limit > 0 then tree.take limit.toNat else tree).map
    fun pl => { price := pl.1, quantity := ((pl.2.map (restingRemaining reg)).sum) }

/-- Submissions carry the fill state `NewOrder` produces. -/
def opShapeOK : Op → Prop
  | .submit o => o.remainingQuantity = o.originalQuantity ∧ o.filledQuantity = 0
  | .cancel _ => True

instance : DecidablePred opShapeOK := fun op =>
  match op with
  | .submit _ => inferInstanceAs (Decidable (_ ∧ _))
  | .cancel _ => isTrue trivial

/-- The id a trace element submits, if any. -/
def opSubmitId : Op → Option String
  | .submit o => some o.id
  | .cancel _ => none

/-- The submitted ids of a trace, in order. -/
def submittedIds (ops : List Op) : List String :=
  ops.filterMap opSubmitId

/-- Shape well-formedness of a book in isolation: sorted keys, no empty
levels. -/
def BookShapeWF (ob : OrderBook) : Prop :=
  treeKeysSorted cmpBids ob.bids ∧ treeKeysSorted cmpAsks ob.asks ∧
  (∀ pl ∈ ob.bids, pl.2 ≠ []) ∧ (∀ pl ∈ ob.asks, pl.2 ≠ [])

instance (ob : OrderBook) : Decidable (BookShapeWF ob) := by
  unfold BookShapeWF treeKeysSorted; infer_instance

/-- Every book of the engine is uncrossed. -/
def NotCrossedAll (e : Engine) : Prop :=
  ∀ b ∈ e.orderBooks, NotCrossed b.2

instance (e : Engine) : Decidable (NotCrossedAll e) := by
  unfold NotCrossedAll; infer_instance

/-- How an order's registry entry can change across (part of) an operation:
unchanged, or partially filled — identity and immutable fields kept, the
remaining quantity strictly decreased but still non-negative, the filled
quantity grown by the same amount. -/
def OrderEvolves (o₁ o₂ : Order) : Prop :=
  o₂ = o₁ ∨ (o₂.id = o₁.id ∧ o₂.symbol = o₁.symbol ∧ o₂.side = o₁.side ∧
    o₂.otype = o₁.otype ∧ o₂.price = o₁.price ∧
    o₂.originalQuantity = o₁.originalQuantity ∧
    0 ≤ o₂.remainingQuantity ∧ o₂.remainingQuantity < o₁.remainingQuantity ∧
    o₁.filledQuantity ≤ o₂.filledQuantity ∧
    o₂.filledQuantity + o₂.remainingQuantity =
      o₁.filledQuantity + o₁.remainingQuantity)

/-- The opposite side. -/
def oppSide : Side → Side
  | .Buy => .Sell
  | .Sell => .Buy

/-- The tree of the incoming order's own side. -/
def sameTree (ob : OrderBook) (side : Side) : PriceTree :=
  if side = .Buy then ob.bids else ob.asks

/-- The comparator of the tree an incoming order consumes. -/
def oppCmp (side : Side) : Int → Int → Ordering :=
  if side = .Buy then cmpAsks else cmpBids

/-! ## Lemmas: association-list maps -/

theorem assocLoad_store_self {α : Type} (l : List (String × α)) (k : String) (v : α) :
    assocLoad (assocStore l k v) k = some v := by
  induction l with
  | nil => simp [assocStore, assocLoad]
  | cons e rest ih =>
    by_cases h : e.1 = k
    · simp [assocStore, h, assocLoad]
    · simp [assocStore, h, assocLoad, ih]

theorem assocLoad_store_ne {α : Type} (l : List (String × α)) (k k' : String) (v : α)
    (h : k' ≠ k) : assocLoad (assocStore l k v) k' = assocLoad l k' := by
  induction l with
  | nil => simp [assocStore, assocLoad, Ne.symm h]
  | cons e rest ih =>
    by_cases he : e.1 = k
    · simp [assocStore, he, assocLoad, h, Ne.symm h]
    · by_cases he' : e.1 = k'
      · simp [assocStore, he, assocLoad, he', h]
      · simp [assocStore, he, assocLoad, he', ih]

theorem assocLoad_eq_none {α : Type} (l : List (String × α)) (k : String) :
    assocLoad l k = none ↔ k ∉ l.map Prod.fst := by
  induction l with
  | nil => simp [assocLoad]
  | cons e rest ih =>
    by_cases h : e.1 = k
    · simp [assocLoad, h]
    · simp [assocLoad, h, ih, Ne.symm h]

theorem assocLoad_isSome {α : Type} (l : List (String × α)) (k : String) :
    (assocLoad l k).isSome ↔ k ∈ l.map Prod.fst := by
  have h1 := assocLoad_eq_none l k
  cases hl : assocLoad l k with
  | none =>
    rw [hl] at h1
    simp only [Option.isSome_none, Bool.false_eq_true, false_iff]
    exact h1.1 rfl
  | some v =>
    rw [hl] at h1
    simp only [Option.isSome_some, true_iff]
    by_contra hc
    exact absurd (h1.2 hc) (by simp)

theorem assocLoad_mem {α : Type} {l : List (String × α)} {k : String} {v : α}
    (h : assocLoad l k = some v) : (k, v) ∈ l := by
  induction l with
  | nil => simp [assocLoad] at h
  | cons e rest ih =>
    by_cases he : e.1 = k
    · simp [assocLoad, he] at h
      cases e
      simp_all
    · simp [assocLoad, he] at h
      exact List.mem_cons_of_mem _ (ih h)

theorem mem_assocStore {α : Type} {l : List (String × α)} {k : String} {v : α} {e : String × α}
    (h : e ∈ assocStore l k v) : e ∈ l ∨ e = (k, v) := by
  induction l with
  | nil => simp [assocStore] at h; simp [h]
  | cons e' rest ih =>
    by_cases he : e'.1 = k
    · simp [assocStore, he] at h
      rcases h with h | h
      · simp [h]
      · simp [h]
    · simp [assocStore, he] at h
      rcases h with h | h
      · simp [h]
      · rcases ih h with h' | h' <;> simp [h']

theorem assocStore_map_fst_mem {α : Type} (l : List (String × α)) (k : String) (v : α)
    (h : k ∈ l.map Prod.fst) : (assocStore l k v).map Prod.fst = l.map Prod.fst := by
  induction l with
  | nil => simp at h
  | cons e rest ih =>
    by_cases he : e.1 = k
    · simp [assocStore, he]
    · simp at h
      rcases h with h | h
      · exact absurd h.symm he
      · simp [assocStore, he, ih (by simpa using h)]

theorem assocStore_map_fst_not_mem {α : Type} (l : List (String × α)) (k : String) (v : α)
    (h : k ∉ l.map Prod.fst) : (assocStore l k v).map Prod.fst = l.map Prod.fst ++ [k] := by
  induction l with
  | nil => simp [assocStore]
  | cons e rest ih =>
    simp at h
    have he : e.1 ≠ k := fun hc => h.1 hc.symm
    simp [assocStore, he, ih (by simpa using h.2)]

theorem assocLoad_delete_ne {α : Type} (l : List (String × α)) (k k' : String)
    (h : k' ≠ k) : assocLoad (assocDelete l k) k' = assocLoad l k' := by
  induction l with
  | nil => simp [assocDelete]
  | cons e rest ih =>
    by_cases he : e.1 = k
    · have he' : e.1 ≠ k' := by rw [he]; exact fun hc => h hc.symm
      simp [assocDelete, he, assocLoad, he', h, Ne.symm h]
    · by_cases he' : e.1 = k'
      · simp [assocDelete, he, assocLoad, he', h]
      · simp [assocDelete, he, assocLoad, he', ih]

theorem assocDelete_map_fst {α : Type} (l : List (String × α)) (k : String) :
    (assocDelete l k).map Prod.fst = (l.map Prod.fst).erase k := by
  induction l with
  | nil => simp [assocDelete]
  | cons e rest ih =>
    by_cases he : e.1 = k
    · simp [assocDelete, he, List.erase_cons_head]
    · rw [show (e :: rest).map Prod.fst = e.1 :: rest.map Prod.fst from rfl,
        List.erase_cons_tail]
      · simp [assocDelete, he, ih]
      · simp [he]

theorem assocLoad_delete_self {α : Type} (l : List (String × α)) (k : String)
    (h : (l.map Prod.fst).Nodup) : assocLoad (assocDelete l k) k = none := by
  rw [assocLoad_eq_none, assocDelete_map_fst]
  exact fun hc => ((List.Nodup.mem_erase_iff h).1 hc).1 rfl

theorem mem_assocDelete {α : Type} {l : List (String × α)} {k : String} {e : String × α}
    (h : e ∈ assocDelete l k) : e ∈ l := by
  induction l with
  | nil => simp [assocDelete] at h
  | cons e' rest ih =>
    by_cases he : e'.1 = k
    · simp [assocDelete, he] at h
      exact List.mem_cons_of_mem _ h
    · simp [assocDelete, he] at h
      rcases h with h | h
      · simp [h]
      · exact List.mem_cons_of_mem _ (ih h)

theorem assocStore_nodup {α : Type} (l : List (String × α)) (k : String) (v : α)
    (h : (l.map Prod.fst).Nodup) : ((assocStore l k v).map Prod.fst).Nodup := by
  by_cases hk : k ∈ l.map Prod.fst
  · rw [assocStore_map_fst_mem l k v hk]; exact h
  · rw [assocStore_map_fst_not_mem l k v hk]
    simp only [List.nodup_append, List.nodup_singleton, true_and]
    refine ⟨h, ?_⟩
    intro a ha hb
    simp at hb
    subst hb
    exact hk ha

theorem assocDelete_nodup {α : Type} (l : List (String × α)) (k : String)
    (h : (l.map Prod.fst).Nodup) : ((assocDelete l k).map Prod.fst).Nodup := by
  rw [assocDelete_map_fst]; exact h.erase k

theorem assocLoad_append {α : Type} (l₁ l₂ : List (String × α)) (k : String) :
    assocLoad (l₁ ++ l₂) k = ((assocLoad l₁ k).rec (assocLoad l₂ k) fun v => some v) := by
  induction l₁ with
  | nil => simp [assocLoad]
  | cons e rest ih =>
    by_cases he : e.1 = k
    · simp [assocLoad, he]
    · simp [assocLoad, he, ih]

/-! ## Lemmas: comparators -/

theorem cmpAsks_eq_iff (a b : Int) : cmpAsks a b = .eq ↔ a = b := by
  simp [cmpAsks, compare_eq_iff_eq]

theorem cmpAsks_lt_iff (a b : Int) : cmpAsks a b = .lt ↔ a < b := by
  simp [cmpAsks, compare_lt_iff_lt]

theorem cmpAsks_gt_iff (a b : Int) : cmpAsks a b = .gt ↔ b < a := by
  simp [cmpAsks, compare_gt_iff_gt]

theorem cmpBids_eq_iff (a b : Int) : cmpBids a b = .eq ↔ a = b := by
  simp [cmpBids, compare_eq_iff_eq]
  constructor <;> intro h <;> exact h.symm

theorem cmpBids_lt_iff (a b : Int) : cmpBids a b = .lt ↔ b < a := by
  simp [cmpBids, compare_lt_iff_lt]

theorem cmpBids_gt_iff (a b : Int) : cmpBids a b = .gt ↔ a < b := by
  simp [cmpBids, compare_gt_iff_gt]

theorem cmpAsks_gt_flip (a b : Int) : cmpAsks a b = .gt ↔ cmpAsks b a = .lt := by
  rw [cmpAsks_gt_iff, cmpAsks_lt_iff]

theorem cmpBids_gt_flip (a b : Int) : cmpBids a b = .gt ↔ cmpBids b a = .lt := by
  rw [cmpBids_gt_iff, cmpBids_lt_iff]

theorem cmpAsks_trans {a b c : Int} (h1 : cmpAsks a b = .lt) (h2 : cmpAsks b c = .lt) :
    cmpAsks a c = .lt := by
  rw [cmpAsks_lt_iff] at *
  exact h1.trans h2

theorem cmpBids_trans {a b c : Int} (h1 : cmpBids a b = .lt) (h2 : cmpBids b c = .lt) :
    cmpBids a c = .lt := by
  rw [cmpBids_lt_iff] at *
  exact h2.trans h1

/-! ## Lemmas: price trees -/

/-! ## Lemmas: price trees

The tree lemmas are parameterized by the comparator together with the three
facts (reflexivity-as-equality, flip, transitivity) that both side
comparators satisfy. -/

theorem treeKeysSorted_def (cmp : Int → Int → Ordering) (t : PriceTree) :
    treeKeysSorted cmp t ↔ t.Pairwise (fun a b => cmp a.1 b.1 = .lt) :=
  Iff.rfl

theorem treeKeysSorted_map (cmp : Int → Int → Ordering) (t : PriceTree) :
    treeKeysSorted cmp t ↔ (t.map Prod.fst).Pairwise (fun a b => cmp a b = .lt) := by
  unfold treeKeysSorted
  induction t with
  | nil => simp
  | cons e rest ih =>
    simp only [List.map_cons, List.pairwise_cons, ih]
    constructor
    · rintro ⟨h1, h2⟩
      refine ⟨?_, h2⟩
      intro b hb
      obtain ⟨a, ha, rfl⟩ := List.mem_map.1 hb
      exact h1 a ha
    · rintro ⟨h1, h2⟩
      exact ⟨fun a ha => h1 a.1 (List.mem_map_of_mem _ ha), h2⟩

theorem treeGet_put_self {cmp : Int → Int → Ordering}
    (heq : ∀ a b : Int, cmp a b = .eq ↔ a = b)
    (t : PriceTree) (k : Int) (v : PriceLevel) :
    treeGet cmp (treePut cmp t k v) k = some v := by
  have hrefl : cmp k k = .eq := (heq k k).2 rfl
  induction t with
  | nil => simp [treePut, treeGet, hrefl]
  | cons e rest ih =>
    rcases e with ⟨k', v'⟩
    rcases hc : cmp k k' with _ | _ | _
    · simp [treePut, hc, treeGet, hrefl]
    · simp [treePut, hc, treeGet, hrefl]
    · simp [treePut, hc, treeGet, ih]

theorem treePut_of_get_some {cmp : Int → Int → Ordering}
    (heq : ∀ a b : Int, cmp a b = .eq ↔ a = b)
    {t : PriceTree} {k : Int} {v : PriceLevel}
    (h : treeGet cmp t k = some v) : treePut cmp t k v = t := by
  induction t with
  | nil => simp [treeGet] at h
  | cons e rest ih =>
    rcases e with ⟨k', v'⟩
    rcases hc : cmp k k' with _ | _ | _
    · simp [treeGet, hc] at h
    · simp only [treeGet, hc] at h
      have hk : k = k' := (heq k k').1 hc
      have hr : cmp k' k' = .eq := (heq k' k').2 rfl
      simp only [Option.some.injEq] at h
      simp [treePut, hc, hk, h, hr]
    · simp only [treeGet, hc] at h
      simp [treePut, hc, ih h]

theorem treeRemove_put_of_get_none {cmp : Int → Int → Ordering}
    (heq : ∀ a b : Int, cmp a b = .eq ↔ a = b)
    {t : PriceTree} {k : Int} (v : PriceLevel)
    (h : treeGet cmp t k = none) : treeRemove cmp (treePut cmp t k v) k = t := by
  have hrefl : cmp k k = .eq := (heq k k).2 rfl
  induction t with
  | nil => simp [treePut, treeRemove, hrefl]
  | cons e rest ih =>
    rcases e with ⟨k', v'⟩
    rcases hc : cmp k k' with _ | _ | _
    · simp [treePut, hc, treeRemove, hrefl]
    · simp [treeGet, hc] at h
    · simp only [treeGet, hc] at h
      simp [treePut, hc, treeRemove, ih h]

theorem treePut_put {cmp : Int → Int → Ordering}
    (heq : ∀ a b : Int, cmp a b = .eq ↔ a = b)
    (t : PriceTree) (k : Int) (v w : PriceLevel) :
    treePut cmp (treePut cmp t k v) k w = treePut cmp t k w := by
  have hrefl : cmp k k = .eq := (heq k k).2 rfl
  induction t with
  | nil => simp [treePut, hrefl]
  | cons e rest ih =>
    rcases e with ⟨k', v'⟩
    rcases hc : cmp k k' with _ | _ | _ <;>
      simp [treePut, hc, hrefl, ih]

theorem treeGet_split {cmp : Int → Int → Ordering}
    (heq : ∀ a b : Int, cmp a b = .eq ↔ a = b)
    {t : PriceTree} {k : Int} {lvl : PriceLevel}
    (h : treeGet cmp t k = some lvl) :
    ∃ t₁ t₂, t = t₁ ++ (k, lvl) :: t₂ ∧ ∀ e ∈ t₁, cmp k e.1 = .gt := by
  induction t with
  | nil => simp [treeGet] at h
  | cons e rest ih =>
    rcases e with ⟨k', v'⟩
    rcases hc : cmp k k' with _ | _ | _
    · simp [treeGet, hc] at h
    · simp only [treeGet, hc, Option.some.injEq] at h
      have hk : k = k' := (heq k k').1 hc
      exact ⟨[], rest, by simp [hk, h], by simp⟩
    · simp only [treeGet, hc] at h
      obtain ⟨t₁, t₂, ht, hgt1⟩ := ih h
      refine ⟨(k', v') :: t₁, t₂, by simp [ht], ?_⟩
      intro e he
      rcases List.mem_cons.1 he with rfl | he
      · exact hc
      · exact hgt1 e he

theorem treePut_split {cmp : Int → Int → Ordering}
    (heq : ∀ a b : Int, cmp a b = .eq ↔ a = b)
    (t₁ t₂ : List (Int × PriceLevel)) (k : Int) (lvl w : PriceLevel)
    (h : ∀ e ∈ t₁, cmp k e.1 = .gt) :
    treePut cmp (t₁ ++ (k, lvl) :: t₂) k w = t₁ ++ (k, w) :: t₂ := by
  have hrefl : cmp k k = .eq := (heq k k).2 rfl
  induction t₁ with
  | nil => simp [treePut, hrefl]
  | cons e rest ih =>
    rcases e with ⟨k', v'⟩
    have he : cmp k k' = .gt := h (k', v') (by simp)
    simp only [List.cons_append, treePut, he, List.append_eq]
    rw [ih (fun e hm => h e (List.mem_cons_of_mem _ hm))]

theorem treeRemove_split {cmp : Int → Int → Ordering}
    (heq : ∀ a b : Int, cmp a b = .eq ↔ a = b)
    (t₁ t₂ : List (Int × PriceLevel)) (k : Int) (lvl : PriceLevel)
    (h : ∀ e ∈ t₁, cmp k e.1 = .gt) :
    treeRemove cmp (t₁ ++ (k, lvl) :: t₂) k = t₁ ++ t₂ := by
  have hrefl : cmp k k = .eq := (heq k k).2 rfl
  induction t₁ with
  | nil => simp [treeRemove, hrefl]
  | cons e rest ih =>
    rcases e with ⟨k', v'⟩
    have he : cmp k k' = .gt := h (k', v') (by simp)
    simp only [List.cons_append, treeRemove, he, List.append_eq]
    rw [ih (fun e hm => h e (List.mem_cons_of_mem _ hm))]

theorem treePut_fresh_split {cmp : Int → Int → Ordering}
    (t : PriceTree) (k : Int) (v : PriceLevel)
    (h : treeGet cmp t k = none) :
    ∃ t₁ t₂, t = t₁ ++ t₂ ∧ treePut cmp t k v = t₁ ++ (k, v) :: t₂ ∧
      (∀ e ∈ t₁, cmp k e.1 = .gt) ∧ (∀ e, t₂.head? = some e → cmp k e.1 = .lt) := by
  induction t with
  | nil =>
    refine ⟨[], [], by simp, by simp [treePut], by simp, ?_⟩
    intro e he
    simp at he
  | cons e rest ih =>
    rcases e with ⟨k', v'⟩
    rcases hc : cmp k k' with _ | _ | _
    · refine ⟨[], (k', v') :: rest, by simp, by simp [treePut, hc], by simp, ?_⟩
      intro e he
      simp at he
      subst he
      exact hc
    · simp [treeGet, hc] at h
    · simp only [treeGet, hc] at h
      obtain ⟨t₁, t₂, ht, hput, hgt1, hlt1⟩ := ih h
      refine ⟨(k', v') :: t₁, t₂, by simp [ht], ?_, ?_, hlt1⟩
      · simp only [treePut, hc, List.cons_append]
        rw [hput]
      · intro e he
        rcases List.mem_cons.1 he with rfl | he
        · exact hc
        · exact hgt1 e he

theorem treeRemove_sublist (cmp : Int → Int → Ordering) (t : PriceTree) (k : Int) :
    List.Sublist (treeRemove cmp t k) t := by
  induction t with
  | nil => simp only [treeRemove]; exact List.Sublist.refl _
  | cons e rest ih =>
    rcases e with ⟨k', v'⟩
    rcases hc : cmp k k' with _ | _ | _
    · simp only [treeRemove, hc]; exact List.Sublist.refl _
    · simp only [treeRemove, hc]; exact (List.Sublist.refl rest).cons _
    · simp only [treeRemove, hc]; exact ih.cons₂ _

theorem treeRemove_sorted {cmp : Int → Int → Ordering} {t : PriceTree} (k : Int)
    (hs : treeKeysSorted cmp t) : treeKeysSorted cmp (treeRemove cmp t k) :=
  List.Pairwise.sublist (treeRemove_sublist cmp t k) hs

theorem treePut_fresh_sorted {cmp : Int → Int → Ordering}
    (hgt : ∀ a b : Int, cmp a b = .gt ↔ cmp b a = .lt)
    (htr : ∀ a b c : Int, cmp a b = .lt → cmp b c = .lt → cmp a c = .lt)
    {t : PriceTree} {k : Int} (v : PriceLevel)
    (h : treeGet cmp t k = none) (hs : treeKeysSorted cmp t) :
    treeKeysSorted cmp (treePut cmp t k v) := by
  obtain ⟨t₁, t₂, ht, hput, hgt1, hlt1⟩ := treePut_fresh_split t k v h
  subst ht
  rw [hput]
  unfold treeKeysSorted at hs ⊢
  rw [List.pairwise_append] at hs ⊢
  obtain ⟨hs1, hs2, hs12⟩ := hs
  refine ⟨hs1, ?_, ?_⟩
  · rw [List.pairwise_cons]
    constructor
    · intro e he
      rcases t₂ with _ | ⟨e₂, t₂'⟩
      · simp at he
      · have hk2 : cmp k e₂.1 = .lt := hlt1 e₂ rfl
        rcases List.mem_cons.1 he with rfl | he'
        · exact hk2
        · exact htr _ _ _ hk2 ((List.pairwise_cons.1 hs2).1 e he')
    · exact hs2
  · intro a ha b hb
    rcases List.mem_cons.1 hb with rfl | hb'
    · exact (hgt k a.1).1 (hgt1 a ha)
    · exact hs12 a ha b hb'

theorem treePut_existing_sorted {cmp : Int → Int → Ordering}
    (heq : ∀ a b : Int, cmp a b = .eq ↔ a = b)
    {t : PriceTree} {k : Int} {lvl : PriceLevel} (w : PriceLevel)
    (h : treeGet cmp t k = some lvl) (hs : treeKeysSorted cmp t) :
    treeKeysSorted cmp (treePut cmp t k w) := by
  obtain ⟨t₁, t₂, ht, hgt1⟩ := treeGet_split heq h
  subst ht
  rw [treePut_split heq t₁ t₂ k lvl w hgt1]
  have h1 := (treeKeysSorted_map cmp _).1 hs
  rw [treeKeysSorted_map]
  simpa using h1

theorem treeGet_none_not_mem {cmp : Int → Int → Ordering}
    (heq : ∀ a b : Int, cmp a b = .eq ↔ a = b)
    (htr : ∀ a b c : Int, cmp a b = .lt → cmp b c = .lt → cmp a c = .lt)
    {t : PriceTree} {k : Int}
    (h : treeGet cmp t k = none) (hs : treeKeysSorted cmp t) :
    k ∉ t.map Prod.fst := by
  have hrefl : cmp k k = .eq := (heq k k).2 rfl
  induction t with
  | nil => simp
  | cons e rest ih =>
    rcases e with ⟨k', v'⟩
    intro hm
    simp only [List.map_cons, List.mem_cons] at hm
    rcases hc : cmp k k' with _ | _ | _
    · rcases hm with hm | hm
      · subst hm
        rw [hrefl] at hc
        cases hc
      · obtain ⟨⟨kk, vv⟩, hmem, hfst⟩ := List.mem_map.1 hm
        have hkk : kk = k := hfst
        subst hkk
        have hlt : cmp k' kk = .lt := (List.pairwise_cons.1 hs).1 (kk, vv) hmem
        have hKK := htr _ _ _ hc hlt
        rw [hrefl] at hKK
        cases hKK
    · simp [treeGet, hc] at h
    · simp only [treeGet, hc] at h
      rcases hm with hm | hm
      · subst hm
        rw [hrefl] at hc
        cases hc
      · exact ih h (List.pairwise_cons.1 hs).2 hm

theorem treePut_head_key {cmp : Int → Int → Ordering}
    (t : PriceTree) (k : Int) (v : PriceLevel) (k' : Int)
    (h : (treePut cmp t k v).head?.map Prod.fst = some k') :
    k' = k ∨ t.head?.map Prod.fst = some k' := by
  rcases t with _ | ⟨⟨k0, v0⟩, rest⟩
  · simp [treePut] at h
    simp [h]
  · rcases hc : cmp k k0 with _ | _ | _ <;> simp [treePut, hc] at h <;> simp [h]

/-! ## Lemmas: flattened sides and the book operations -/

theorem bookSideIds_nil : bookSideIds [] = [] := rfl

theorem bookSideIds_cons (e : Int × PriceLevel) (t : PriceTree) :
    bookSideIds (e :: t) = e.2 ++ bookSideIds t := by
  simp [bookSideIds]

theorem bookSideIds_append (t₁ t₂ : PriceTree) :
    bookSideIds (t₁ ++ t₂) = bookSideIds t₁ ++ bookSideIds t₂ := by
  simp [bookSideIds]

theorem mem_bookSideIds {t : PriceTree} {x : String} :
    x ∈ bookSideIds t ↔ ∃ pl ∈ t, x ∈ pl.2 := by
  unfold bookSideIds
  rw [List.mem_flatten]
  constructor
  · rintro ⟨l, hl, hx⟩
    obtain ⟨pl, hpl, rfl⟩ := List.mem_map.1 hl
    exact ⟨pl, hpl, hx⟩
  · rintro ⟨pl, hpl, hx⟩
    exact ⟨pl.2, List.mem_map_of_mem _ hpl, hx⟩

theorem eraseP_append_no_match (p : String → Bool) (l₁ l₂ : List String)
    (h : ∀ b ∈ l₁, ¬p b) : (l₁ ++ l₂).eraseP p = l₁ ++ l₂.eraseP p := by
  induction l₁ with
  | nil => simp
  | cons a rest ih =>
    have ha := h a (by simp)
    simp only [List.cons_append, List.eraseP_cons, Bool.not_eq_true] at *
    simp [ha, ih (fun b hb => h b (by simp [hb]))]

theorem treeGet_of_mem_sorted {cmp : Int → Int → Ordering}
    (heq : ∀ a b : Int, cmp a b = .eq ↔ a = b)
    (hgt : ∀ a b : Int, cmp a b = .gt ↔ cmp b a = .lt)
    {t : PriceTree} {k : Int} {lvl : PriceLevel}
    (hmem : (k, lvl) ∈ t) (hs : treeKeysSorted cmp t) :
    treeGet cmp t k = some lvl := by
  induction t with
  | nil => cases hmem
  | cons e rest ih =>
    rcases e with ⟨k0, v0⟩
    rcases List.mem_cons.1 hmem with he | he
    · cases he
      simp [treeGet, (heq k k).2 rfl]
    · have hlt : cmp k0 k = .lt := (List.pairwise_cons.1 hs).1 (k, lvl) he
      have hgt' : cmp k k0 = .gt := (hgt k k0).2 hlt
      simp [treeGet, hgt', ih he (List.pairwise_cons.1 hs).2]

theorem levelAppend_sorted {cmp : Int → Int → Ordering}
    (heq : ∀ a b : Int, cmp a b = .eq ↔ a = b)
    (hgt : ∀ a b : Int, cmp a b = .gt ↔ cmp b a = .lt)
    (htr : ∀ a b c : Int, cmp a b = .lt → cmp b c = .lt → cmp a c = .lt)
    {t : PriceTree} (p : Int) (id0 : String) (hs : treeKeysSorted cmp t) :
    treeKeysSorted cmp (levelAppend cmp t p id0) := by
  unfold levelAppend
  cases hg : treeGet cmp t p with
  | none => exact treePut_fresh_sorted hgt htr _ hg hs
  | some lvl => exact treePut_existing_sorted heq _ hg hs

theorem levelAppend_flatten {cmp : Int → Int → Ordering}
    (heq : ∀ a b : Int, cmp a b = .eq ↔ a = b)
    (t : PriceTree) (p : Int) (id0 : String) :
    ∃ pre post, bookSideIds t = pre ++ post ∧
      bookSideIds (levelAppend cmp t p id0) = pre ++ id0 :: post := by
  cases hg : treeGet cmp t p with
  | none =>
    have hla : levelAppend cmp t p id0 = treePut cmp t p [id0] := by
      unfold levelAppend; rw [hg]
    obtain ⟨t₁, t₂, ht, hput, _, _⟩ := treePut_fresh_split t p [id0] hg
    refine ⟨bookSideIds t₁, bookSideIds t₂, ?_, ?_⟩
    · rw [ht, bookSideIds_append]
    · rw [hla, hput, bookSideIds_append, bookSideIds_cons]
      simp
  | some lvl =>
    have hla : levelAppend cmp t p id0 = treePut cmp t p (lvl ++ [id0]) := by
      unfold levelAppend; rw [hg]
    obtain ⟨t₁, t₂, ht, hgt1⟩ := treeGet_split heq hg
    rw [hla, ht, treePut_split heq t₁ t₂ p lvl (lvl ++ [id0]) hgt1]
    refine ⟨bookSideIds t₁ ++ lvl, bookSideIds t₂, ?_, ?_⟩
    · rw [bookSideIds_append, bookSideIds_cons]
      simp
    · rw [bookSideIds_append, bookSideIds_cons]
      simp

theorem levelAppend_entries {cmp : Int → Int → Ordering}
    (heq : ∀ a b : Int, cmp a b = .eq ↔ a = b)
    (t : PriceTree) (p : Int) (id0 : String) :
    ∀ pl ∈ levelAppend cmp t p id0, ∀ id1 ∈ pl.2,
      (id1 = id0 ∧ pl.1 = p) ∨ ∃ pl' ∈ t, pl'.1 = pl.1 ∧ id1 ∈ pl'.2 := by
  cases hg : treeGet cmp t p with
  | none =>
    have hla : levelAppend cmp t p id0 = treePut cmp t p [id0] := by
      unfold levelAppend; rw [hg]
    obtain ⟨t₁, t₂, ht, hput, _, _⟩ := treePut_fresh_split t p [id0] hg
    rw [hla, hput]
    intro pl hpl id1 hid1
    rcases List.mem_append.1 hpl with h1 | h1
    · exact Or.inr ⟨pl, by rw [ht]; exact List.mem_append_left _ h1, rfl, hid1⟩
    · rcases List.mem_cons.1 h1 with rfl | h1
      · simp at hid1
        exact Or.inl ⟨hid1, rfl⟩
      · exact Or.inr ⟨pl, by rw [ht]; exact List.mem_append_right _ h1, rfl, hid1⟩
  | some lvl =>
    have hla : levelAppend cmp t p id0 = treePut cmp t p (lvl ++ [id0]) := by
      unfold levelAppend; rw [hg]
    obtain ⟨t₁, t₂, ht, hgt1⟩ := treeGet_split heq hg
    rw [hla, ht, treePut_split heq t₁ t₂ p lvl (lvl ++ [id0]) hgt1]
    intro pl hpl id1 hid1
    rcases List.mem_append.1 hpl with h1 | h1
    · exact Or.inr ⟨pl, List.mem_append_left _ h1, rfl, hid1⟩
    · rcases List.mem_cons.1 h1 with rfl | h1
      · simp only at hid1
        rcases List.mem_append.1 hid1 with h2 | h2
        · exact Or.inr ⟨(p, lvl), by simp, rfl, h2⟩
        · simp at h2
          exact Or.inl ⟨h2, rfl⟩
      · exact Or.inr ⟨pl, by simp [h1], rfl, hid1⟩

theorem levelAppend_nonempty {cmp : Int → Int → Ordering}
    (heq : ∀ a b : Int, cmp a b = .eq ↔ a = b)
    (t : PriceTree) (p : Int) (id0 : String) (hne : ∀ pl ∈ t, pl.2 ≠ []) :
    ∀ pl ∈ levelAppend cmp t p id0, pl.2 ≠ [] := by
  cases hg : treeGet cmp t p with
  | none =>
    have hla : levelAppend cmp t p id0 = treePut cmp t p [id0] := by
      unfold levelAppend; rw [hg]
    obtain ⟨t₁, t₂, ht, hput, _, _⟩ := treePut_fresh_split t p [id0] hg
    rw [hla, hput]
    intro pl hpl
    rcases List.mem_append.1 hpl with h1 | h1
    · exact hne pl (by rw [ht]; exact List.mem_append_left _ h1)
    · rcases List.mem_cons.1 h1 with rfl | h1
      · simp
      · exact hne pl (by rw [ht]; exact List.mem_append_right _ h1)
  | some lvl =>
    have hla : levelAppend cmp t p id0 = treePut cmp t p (lvl ++ [id0]) := by
      unfold levelAppend; rw [hg]
    obtain ⟨t₁, t₂, ht, hgt1⟩ := treeGet_split heq hg
    rw [hla, ht, treePut_split heq t₁ t₂ p lvl (lvl ++ [id0]) hgt1]
    intro pl hpl
    rcases List.mem_append.1 hpl with h1 | h1
    · exact hne pl (by rw [ht]; exact List.mem_append_left _ h1)
    · rcases List.mem_cons.1 h1 with rfl | h1
      · simp
      · exact hne pl (by rw [ht]; simp [h1])

theorem levelAppend_head_key {cmp : Int → Int → Ordering}
    (t : PriceTree) (p : Int) (id0 : String) (k' : Int)
    (h : (levelAppend cmp t p id0).head?.map Prod.fst = some k') :
    k' = p ∨ t.head?.map Prod.fst = some k' := by
  unfold levelAppend at h
  cases hg : treeGet cmp t p with
  | none =>
    rw [hg] at h
    exact treePut_head_key t p [id0] k' h
  | some lvl =>
    rw [hg] at h
    exact treePut_head_key t p (lvl ++ [id0]) k' h

theorem AddOrder_eq {ob : OrderBook} {o : Order}
    (hfresh : assocLoad ob.orders o.id = none) :
    ob.AddOrder o = { ob with
      orders := ob.orders ++ [(o.id, o)],
      bids := if o.side = .Buy then levelAppend cmpBids ob.bids o.price o.id else ob.bids,
      asks := if o.side = .Buy then ob.asks
              else levelAppend cmpAsks ob.asks o.price o.id } := by
  unfold OrderBook.AddOrder levelAppend
  rw [hfresh]
  by_cases hside : o.side = .Buy
  · cases hg : treeGet cmpBids ob.bids o.price <;> simp [hside, hg]
  · cases hg : treeGet cmpAsks ob.asks o.price <;> simp [hside, hg]

theorem RemoveOrder_eq {ob : OrderBook} {id0 : String} {osnap : Order}
    (hin : assocLoad ob.orders id0 = some osnap) :
    ob.RemoveOrder id0 = (some osnap, { ob with
      orders := assocDelete ob.orders id0,
      bids := if osnap.side = .Buy then levelErase cmpBids ob.bids osnap.price id0
              else ob.bids,
      asks := if osnap.side = .Buy then ob.asks
              else levelErase cmpAsks ob.asks osnap.price id0 }) := by
  unfold OrderBook.RemoveOrder levelErase
  rw [hin]
  by_cases hside : osnap.side = .Buy
  · cases hg : treeGet cmpBids ob.bids osnap.price with
    | none => simp [hside, hg]
    | some lvl =>
      by_cases hemp : (lvl.eraseP (fun i => i == id0)).isEmpty <;>
        simp [hside, hg, hemp]
  · cases hg : treeGet cmpAsks ob.asks osnap.price with
    | none => simp [hside, hg]
    | some lvl =>
      by_cases hemp : (lvl.eraseP (fun i => i == id0)).isEmpty <;>
        simp [hside, hg, hemp]

theorem levelErase_spec {cmp : Int → Int → Ordering}
    (heq : ∀ a b : Int, cmp a b = .eq ↔ a = b)
    {t : PriceTree} {p : Int} {lvl : PriceLevel} {id0 : String}
    (hg : treeGet cmp t p = some lvl) (hmem : id0 ∈ lvl)
    (hs : treeKeysSorted cmp t) (hnd : (bookSideIds t).Nodup)
    (hne : ∀ pl ∈ t, pl.2 ≠ []) :
    treeKeysSorted cmp (levelErase cmp t p id0) ∧
    (∃ pre post, bookSideIds t = pre ++ id0 :: post ∧
       bookSideIds (levelErase cmp t p id0) = pre ++ post) ∧
    (∀ pl ∈ levelErase cmp t p id0, pl.2 ≠ []) ∧
    (∀ pl ∈ levelErase cmp t p id0, ∀ id1 ∈ pl.2,
       ∃ pl' ∈ t, pl'.1 = pl.1 ∧ id1 ∈ pl'.2) ∧
    (∀ k ∈ (levelErase cmp t p id0).map Prod.fst, k ∈ t.map Prod.fst) := by
  obtain ⟨t₁, t₂, ht, hgt1⟩ := treeGet_split heq hg
  have hlvl_nd : lvl.Nodup := by
    rw [ht, bookSideIds_append, bookSideIds_cons] at hnd
    exact (hnd.of_append_right).of_append_left
  obtain ⟨l₁, l₂, hlvl⟩ := List.append_of_mem hmem
  have hid0l₁ : id0 ∉ l₁ := by
    rw [hlvl] at hlvl_nd
    intro hc
    exact (List.disjoint_of_nodup_append hlvl_nd) hc (by simp)
  have hep : lvl.eraseP (fun i => i == id0) = l₁ ++ l₂ := by
    rw [hlvl, eraseP_append_no_match _ l₁ _ ?_]
    · rw [List.eraseP_cons_of_pos (by simp)]
    · intro b hb
      simp only [Bool.not_eq_true, beq_eq_false_iff_ne, ne_eq]
      intro hbeq
      exact hid0l₁ (hbeq ▸ hb)
  have hle : levelErase cmp t p id0 =
      if (l₁ ++ l₂).isEmpty then treeRemove cmp t p else treePut cmp t p (l₁ ++ l₂) := by
    unfold levelErase
    rw [hg]
    show (if (lvl.eraseP (fun i => i == id0)).isEmpty then treeRemove cmp t p
          else treePut cmp t p (lvl.eraseP (fun i => i == id0))) = _
    rw [hep]
  by_cases hcase : (l₁ ++ l₂).isEmpty
  · obtain ⟨hl₁, hl₂⟩ : l₁ = [] ∧ l₂ = [] := by
      rcases l₁ with _ | _ <;> rcases l₂ with _ | _ <;> simp_all
    subst hl₁
    subst hl₂
    simp only [List.nil_append] at hlvl
    have hres : levelErase cmp t p id0 = t₁ ++ t₂ := by
      rw [hle, if_pos hcase, ht, treeRemove_split heq t₁ t₂ p lvl hgt1]
    refine ⟨?_, ?_, ?_, ?_, ?_⟩
    · rw [hres]
      refine List.Pairwise.sublist ?_ (ht ▸ hs)
      exact List.Sublist.append (List.Sublist.refl t₁) ((List.Sublist.refl t₂).cons _)
    · refine ⟨bookSideIds t₁, bookSideIds t₂, ?_, ?_⟩
      · rw [ht, bookSideIds_append, bookSideIds_cons, hlvl]
        simp
      · rw [hres, bookSideIds_append]
    · intro pl hpl
      rcases List.mem_append.1 (hres ▸ hpl) with h1 | h1
      · exact hne pl (by rw [ht]; exact List.mem_append_left _ h1)
      · exact hne pl (by rw [ht]; simp [h1])
    · intro pl hpl id1 hid1
      rcases List.mem_append.1 (hres ▸ hpl) with h1 | h1
      · exact ⟨pl, by rw [ht]; exact List.mem_append_left _ h1, rfl, hid1⟩
      · exact ⟨pl, by rw [ht]; simp [h1], rfl, hid1⟩
    · intro k hk
      rw [hres] at hk
      rw [ht]
      simp only [List.map_append, List.mem_append] at hk ⊢
      rcases hk with h1 | h1
      · exact Or.inl h1
      · exact Or.inr (by simp [h1])
  · have hres : levelErase cmp t p id0 = t₁ ++ (p, l₁ ++ l₂) :: t₂ := by
      rw [hle, if_neg hcase, ht, treePut_split heq t₁ t₂ p lvl (l₁ ++ l₂) hgt1]
    refine ⟨?_, ?_, ?_, ?_, ?_⟩
    · rw [hres]
      rw [treeKeysSorted_map]
      have h1 := (treeKeysSorted_map cmp _).1 (ht ▸ hs)
      simpa using h1
    · refine ⟨bookSideIds t₁ ++ l₁, l₂ ++ bookSideIds t₂, ?_, ?_⟩
      · rw [ht, bookSideIds_append, bookSideIds_cons, hlvl]
        simp
      · rw [hres, bookSideIds_append, bookSideIds_cons]
        simp
    · intro pl hpl
      rcases List.mem_append.1 (hres ▸ hpl) with h1 | h1
      · exact hne pl (by rw [ht]; exact List.mem_append_left _ h1)
      · rcases List.mem_cons.1 h1 with rfl | h1
        · intro hc
          have hc2 : l₁ ++ l₂ = [] := hc
          rw [hc2] at hcase
          simp at hcase
        · exact hne pl (by rw [ht]; simp [h1])
    · intro pl hpl id1 hid1
      rcases List.mem_append.1 (hres ▸ hpl) with h1 | h1
      · exact ⟨pl, by rw [ht]; exact List.mem_append_left _ h1, rfl, hid1⟩
      · rcases List.mem_cons.1 h1 with rfl | h1
        · refine ⟨(p, lvl), by rw [ht]; simp, rfl, ?_⟩
          rw [hlvl]
          simp only at hid1
          rcases List.mem_append.1 hid1 with h2 | h2
          · simp [h2]
          · simp [h2]
        · exact ⟨pl, by rw [ht]; simp [h1], rfl, hid1⟩
    · intro k hk
      rw [hres] at hk
      rw [ht]
      simp only [List.map_append, List.map_cons, List.mem_append, List.mem_cons] at hk ⊢
      exact hk

/-! ## Lemmas: the opposite side and the best opposing order -/

theorem oppCmp_eq_iff (side : Side) (a b : Int) : oppCmp side a b = .eq ↔ a = b := by
  cases side with
  | Buy => simpa [oppCmp] using cmpAsks_eq_iff a b
  | Sell => simpa [oppCmp] using cmpBids_eq_iff a b

theorem oppCmp_gt_flip (side : Side) (a b : Int) :
    oppCmp side a b = .gt ↔ oppCmp side b a = .lt := by
  cases side with
  | Buy => simpa [oppCmp] using cmpAsks_gt_flip a b
  | Sell => simpa [oppCmp] using cmpBids_gt_flip a b

theorem oppCmp_trans (side : Side) (a b c : Int) (h1 : oppCmp side a b = .lt)
    (h2 : oppCmp side b c = .lt) : oppCmp side a c = .lt := by
  cases side with
  | Buy =>
    simp only [oppCmp, if_pos rfl] at *
    exact cmpAsks_trans h1 h2
  | Sell =>
    simp only [oppCmp] at *
    exact cmpBids_trans h1 h2

theorem oppTree_eq (ob : OrderBook) (side : Side) :
    oppTree ob side = if side = .Buy then ob.asks else ob.bids := rfl

theorem BookWF_oppSideWF {reg : Registry} {ob : OrderBook} (hwf : BookWF reg ob)
    (side : Side) : sideWF reg ob (oppSide side) (oppTree ob side) := by
  cases side with
  | Buy => simpa [oppSide, oppTree] using hwf.2.2.2.1
  | Sell => simpa [oppSide, oppTree] using hwf.2.2.1

theorem BookWF_oppSorted {reg : Registry} {ob : OrderBook} (hwf : BookWF reg ob)
    (side : Side) : treeKeysSorted (oppCmp side) (oppTree ob side) := by
  cases side with
  | Buy => simpa [oppCmp, oppTree] using hwf.2.1
  | Sell => simpa [oppCmp, oppTree] using hwf.1

theorem getBestOpp_eq_head {ob : OrderBook} {reg : Registry} {side : Side}
    {p₀ : Int} {id₀ : String} {lrest : PriceLevel} {trest : PriceTree}
    (hshape : oppTree ob side = (p₀, id₀ :: lrest) :: trest) :
    getBestOpp ob reg side = assocLoad reg id₀ := by
  cases side with
  | Buy =>
    have h : ob.asks = (p₀, id₀ :: lrest) :: trest := by simpa [oppTree] using hshape
    simp [getBestOpp, OrderBook.GetBestAsk, h]
  | Sell =>
    have h : ob.bids = (p₀, id₀ :: lrest) :: trest := by simpa [oppTree] using hshape
    simp [getBestOpp, OrderBook.GetBestBid, h]

theorem bestOpp_fields {reg : Registry} {ob : OrderBook} {side : Side}
    {p₀ : Int} {id₀ : String} {lrest : PriceLevel} {trest : PriceTree}
    (hwf : BookWF reg ob) (hshape : oppTree ob side = (p₀, id₀ :: lrest) :: trest) :
    entryWF reg ob (oppSide side) p₀ id₀ := by
  have hsw := BookWF_oppSideWF hwf side
  have hmem : (p₀, id₀ :: lrest) ∈ oppTree ob side := by rw [hshape]; simp
  exact (hsw _ hmem).2 id₀ (by simp)

/-! ## The single-trade step -/

theorem executeTrade_spec {o best : Order} {reg : Registry} {ob : OrderBook} {m : Metrics}
    {p₀ : Int} {id₀ : String} {lrest : PriceLevel} {trest : PriceTree}
    (hwf : BookWF reg ob) (hreg : RegWF reg)
    (hshape : oppTree ob o.side = (p₀, id₀ :: lrest) :: trest)
    (hbest : assocLoad reg id₀ = some best)
    (ho : 0 < o.remainingQuantity) :
    ∀ o' reg' ob' m' tr, executeTrade o best reg ob m = (o', reg', ob', m', tr) →
    1 ≤ min o.remainingQuantity best.remainingQuantity ∧
    tr = { id := "", buyerOrderID := getBuyerOrderID o best,
           sellerOrderID := getSellerOrderID o best, price := best.price,
           quantity := min o.remainingQuantity best.remainingQuantity } ∧
    o' = { o with
      remainingQuantity := o.remainingQuantity - min o.remainingQuantity best.remainingQuantity,
      filledQuantity := o.filledQuantity + min o.remainingQuantity best.remainingQuantity } ∧
    best.id = id₀ ∧ best.side = oppSide o.side ∧ best.price = p₀ ∧
    best.symbol = ob.symbol ∧ 1 ≤ best.remainingQuantity ∧
    (∀ id1, id1 ≠ id₀ → assocLoad reg' id1 = assocLoad reg id1) ∧
    assocLoad reg' id₀ = some { best with
      remainingQuantity :=
        best.remainingQuantity - min o.remainingQuantity best.remainingQuantity,
      filledQuantity :=
        best.filledQuantity + min o.remainingQuantity best.remainingQuantity,
      status :=
        if best.remainingQuantity - min o.remainingQuantity best.remainingQuantity = 0
        then .Filled else .PartialFill } ∧
    RegWF reg' ∧
    (∀ id1, (assocLoad reg' id1).isSome ↔ (assocLoad reg id1).isSome) ∧
    ((best.remainingQuantity ≤ o.remainingQuantity ∧
        m' = { m with ordersInBook := m.ordersInBook - 1 } ∧
        ob'.symbol = ob.symbol ∧
        ob'.orders = assocDelete ob.orders id₀ ∧
        sameTree ob' o.side = sameTree ob o.side ∧
        oppTree ob' o.side = levelErase (oppCmp o.side) (oppTree ob o.side) p₀ id₀) ∨
     (o.remainingQuantity < best.remainingQuantity ∧ ob' = ob ∧ m' = m)) := by
  intro o' reg' ob' m' tr hexec
  obtain ⟨⟨osnap, hosnap, hosid, hosside, hosprice⟩, ⟨best2, hbest2, hbid, hbside, hbprice,
    hbsym, hbrem⟩⟩ := bestOpp_fields hwf hshape
  rw [hbest] at hbest2
  obtain rfl : best = best2 := by injection hbest2
  have hq : (if best.remainingQuantity < o.remainingQuantity then best.remainingQuantity
      else o.remainingQuantity) = min o.remainingQuantity best.remainingQuantity := by
    rcases lt_or_le best.remainingQuantity o.remainingQuantity with h | h
    · simp [h, min_eq_right h.le]
    · simp [not_lt.2 h, min_eq_left h]
  have hq1 : 1 ≤ min o.remainingQuantity best.remainingQuantity :=
    le_min ho hbrem
  set q := min o.remainingQuantity best.remainingQuantity with hqdef
  simp only [executeTrade, NewTrade, hq] at hexec
  by_cases hdone : best.remainingQuantity - q = 0
  · rw [if_pos (by simpa using hdone)] at hexec
    have hin : assocLoad ob.orders best.id = some osnap := by rw [hbid]; exact hosnap
    rw [RemoveOrder_eq hin] at hexec
    simp only [Prod.mk.injEq] at hexec
    obtain ⟨rfl, rfl, rfl, rfl, rfl⟩ := hexec
    refine ⟨hq1, rfl, rfl, hbid, hbside, hbprice, hbsym, hbrem, ?_, ?_, ?_, ?_, ?_⟩
    · intro id1 hne
      exact assocLoad_store_ne _ _ _ _ (by rw [hbid]; exact hne)
    · rw [hbid, assocLoad_store_self]
      try rw [if_pos hdone]
    · constructor
      · intro e he
        rcases mem_assocStore he with h1 | h1
        · exact hreg.1 e h1
        · rw [h1]
      · exact assocStore_nodup _ _ _ hreg.2
    · intro id1
      by_cases h1 : id1 = best.id
      · subst h1
        rw [assocLoad_store_self]
        rw [hbid, hbest]
        simp
      · rw [assocLoad_store_ne _ _ _ _ h1]
    · left
      have hle : best.remainingQuantity ≤ o.remainingQuantity := by
        by_contra hc
        push_neg at hc
        have : q = o.remainingQuantity := min_eq_left hc.le
        omega
      refine ⟨hle, rfl, rfl, by rw [hbid], ?_, ?_⟩
      · cases hs : o.side with
        | Buy =>
          have : osnap.side = .Sell := by rw [hosside, hs]; rfl
          simp [sameTree, this, hs]
        | Sell =>
          have : osnap.side = .Buy := by rw [hosside, hs]; rfl
          simp [sameTree, this, hs]
      · cases hs : o.side with
        | Buy =>
          have hsnap : osnap.side = .Sell := by rw [hosside, hs]; rfl
          simp [oppTree, oppCmp, hsnap, hs, hosprice, hbid]
        | Sell =>
          have hsnap : osnap.side = .Buy := by rw [hosside, hs]; rfl
          simp [oppTree, oppCmp, hsnap, hs, hosprice, hbid]
  · rw [if_neg (by simpa using hdone)] at hexec
    simp only [Prod.mk.injEq] at hexec
    obtain ⟨rfl, rfl, rfl, rfl, rfl⟩ := hexec
    refine ⟨hq1, rfl, rfl, hbid, hbside, hbprice, hbsym, hbrem, ?_, ?_, ?_, ?_, ?_⟩
    · intro id1 hne
      exact assocLoad_store_ne _ _ _ _ (by rw [hbid]; exact hne)
    · rw [hbid, assocLoad_store_self]
      try rw [if_neg hdone]
    · constructor
      · intro e he
        rcases mem_assocStore he with h1 | h1
        · exact hreg.1 e h1
        · rw [h1]
      · exact assocStore_nodup _ _ _ hreg.2
    · intro id1
      by_cases h1 : id1 = best.id
      · subst h1
        rw [assocLoad_store_self]
        rw [hbid, hbest]
        simp
      · rw [assocLoad_store_ne _ _ _ _ h1]
    · right
      refine ⟨?_, rfl, rfl⟩
      by_contra hc
      push_neg at hc
      have : q = best.remainingQuantity := min_eq_right hc
      omega

/-! ## Side algebra and `BookWF` preservation under one trade step -/

theorem oppSide_invol (s : Side) : oppSide (oppSide s) = s := by
  cases s <;> rfl

theorem oppTree_oppSide (ob : OrderBook) (s : Side) :
    oppTree ob (oppSide s) = sameTree ob s := by
  cases s <;> rfl

theorem sameTree_oppSide (ob : OrderBook) (s : Side) :
    sameTree ob (oppSide s) = oppTree ob s := by
  cases s <;> rfl

theorem side_eq_or_opp (σ s : Side) : σ = s ∨ σ = oppSide s := by
  cases σ <;> cases s <;> simp [oppSide]

theorem bookIds_perm (ob : OrderBook) (s : Side) :
    (bookIds ob).Perm (bookSideIds (oppTree ob s) ++ bookSideIds (sameTree ob s)) := by
  cases s with
  | Buy =>
    show (bookIds ob).Perm (bookSideIds ob.asks ++ bookSideIds ob.bids)
    exact List.perm_append_comm
  | Sell => exact List.Perm.refl _

theorem BookWF_of_sides {reg : Registry} {ob : OrderBook}
    (h1 : ∀ side, treeKeysSorted (oppCmp side) (oppTree ob side))
    (h2 : ∀ side, sideWF reg ob (oppSide side) (oppTree ob side))
    (h3 : (bookIds ob).Nodup)
    (h4 : (ob.orders.map Prod.fst).Nodup)
    (h5 : ∀ id0 ∈ ob.orders.map Prod.fst, id0 ∈ bookIds ob) : BookWF reg ob := by
  refine ⟨?_, ?_, ?_, ?_, h3, h4, h5⟩
  · simpa [oppCmp, oppTree] using h1 .Sell
  · simpa [oppCmp, oppTree] using h1 .Buy
  · simpa [oppSide, oppTree] using h2 .Sell
  · simpa [oppSide, oppTree] using h2 .Buy

theorem nodup_head_split {pre post rest : List String} {id₀ : String}
    (h : pre ++ id₀ :: post = id₀ :: rest) (hnd : (id₀ :: rest).Nodup) :
    pre = [] ∧ post = rest := by
  rcases pre with _ | ⟨a, pre'⟩
  · simpa using h
  · exfalso
    simp only [List.cons_append, List.cons.injEq] at h
    obtain ⟨rfl, h2⟩ := h
    have : a ∈ rest := by
      rw [← h2]
      simp
    exact (List.nodup_cons.1 hnd).1 this

theorem BookWF_update_resting {reg reg' : Registry} {ob : OrderBook} {id₀ : String}
    (hwf : BookWF reg ob)
    (hload : ∀ id1, id1 ≠ id₀ → assocLoad reg' id1 = assocLoad reg id1)
    (hat : ∀ o₁, assocLoad reg id₀ = some o₁ →
      ∃ o₂, assocLoad reg' id₀ = some o₂ ∧ o₂.id = o₁.id ∧ o₂.side = o₁.side ∧
        o₂.price = o₁.price ∧ o₂.symbol = o₁.symbol ∧ 1 ≤ o₂.remainingQuantity) :
    BookWF reg' ob := by
  obtain ⟨w1, w2, w3, w4, w5, w6, w7⟩ := hwf
  have hside : ∀ (s : Side) (tree : PriceTree), sideWF reg ob s tree → sideWF reg' ob s tree := by
    intro s tree hsw pl hpl
    refine ⟨(hsw pl hpl).1, ?_⟩
    intro id1 hid1
    obtain ⟨hsnap, ⟨o₁, ho₁, ho₁id, ho₁side, ho₁price, ho₁sym, ho₁rem⟩⟩ :=
      (hsw pl hpl).2 id1 hid1
    refine ⟨hsnap, ?_⟩
    by_cases hne : id1 = id₀
    · subst hne
      obtain ⟨o₂, ho₂, e1, e2, e3, e4, e5⟩ := hat o₁ ho₁
      exact ⟨o₂, ho₂, e1.trans ho₁id, e2.trans ho₁side, e3.trans ho₁price,
        e4.trans ho₁sym, e5⟩
    · exact ⟨o₁, (hload id1 hne).trans ho₁, ho₁id, ho₁side, ho₁price, ho₁sym, ho₁rem⟩
  exact ⟨w1, w2, hside _ _ w3, hside _ _ w4, w5, w6, w7⟩

theorem BookWF_remove_resting {reg reg' : Registry} {ob ob' : OrderBook} {side : Side}
    {p₀ : Int} {id₀ : String} {lrest : PriceLevel} {trest : PriceTree}
    (hwf : BookWF reg ob)
    (hshape : oppTree ob side = (p₀, id₀ :: lrest) :: trest)
    (hsym : ob'.symbol = ob.symbol)
    (hord : ob'.orders = assocDelete ob.orders id₀)
    (hsame : sameTree ob' side = sameTree ob side)
    (hopp : oppTree ob' side = levelErase (oppCmp side) (oppTree ob side) p₀ id₀)
    (hload : ∀ id1, id1 ≠ id₀ → assocLoad reg' id1 = assocLoad reg id1) :
    BookWF reg' ob' ∧
    bookSideIds (oppTree ob' side) = lrest ++ bookSideIds trest ∧
    (∀ k ∈ (oppTree ob' side).map Prod.fst, k ∈ (oppTree ob side).map Prod.fst) := by
  have heq := oppCmp_eq_iff side
  have hsorted := BookWF_oppSorted hwf side
  have hflat : bookSideIds (oppTree ob side) = id₀ :: (lrest ++ bookSideIds trest) := by
    rw [hshape, bookSideIds_cons]
    simp
  have hoppnodup : (bookSideIds (oppTree ob side)).Nodup := by
    have hperm := bookIds_perm ob side
    exact (hperm.nodup_iff.1 hwf.2.2.2.2.1).of_append_left
  have hbookdisj :
      List.Disjoint (bookSideIds (oppTree ob side)) (bookSideIds (sameTree ob side)) := by
    have hperm := bookIds_perm ob side
    exact List.disjoint_of_nodup_append (hperm.nodup_iff.1 hwf.2.2.2.2.1)
  have hg : treeGet (oppCmp side) (oppTree ob side) p₀ = some (id₀ :: lrest) := by
    rw [hshape]
    simp [treeGet, (heq p₀ p₀).2 rfl]
  have hmem0 : id₀ ∈ id₀ :: lrest := by simp
  have hne : ∀ pl ∈ oppTree ob side, pl.2 ≠ [] := by
    intro pl hpl
    exact (BookWF_oppSideWF hwf side pl hpl).1
  obtain ⟨hes, ⟨pre, post, hdecomp, hres⟩, hene, hentries, hkeys⟩ :=
    levelErase_spec heq hg hmem0 hsorted hoppnodup hne
  obtain ⟨hpre, hpost⟩ := nodup_head_split (hdecomp.symm.trans hflat) (hflat ▸ hoppnodup)
  subst hpre
  have hflat' : bookSideIds (oppTree ob' side) = lrest ++ bookSideIds trest := by
    rw [hopp, hres, hpost]
    simp
  have hid₀flat' : id₀ ∉ bookSideIds (oppTree ob' side) := by
    rw [hflat']
    have := hflat ▸ hoppnodup
    simpa using (List.nodup_cons.1 this).1
  refine ⟨?_, hflat', by rw [hopp]; exact hkeys⟩
  have hmemframe : ∀ x, x ∈ bookIds ob' ↔
      x ∈ bookSideIds (oppTree ob' side) ++ bookSideIds (sameTree ob side) := by
    intro x
    have hperm := bookIds_perm ob' side
    rw [hperm.mem_iff, hsame]
  have hmemold : ∀ x, x ∈ bookIds ob ↔
      x ∈ bookSideIds (oppTree ob side) ++ bookSideIds (sameTree ob side) := by
    intro x
    have hperm := bookIds_perm ob side
    rw [hperm.mem_iff]
  have hid₀same : id₀ ∉ bookSideIds (sameTree ob side) := by
    intro hc
    exact hbookdisj (by rw [hflat]; simp) hc
  refine BookWF_of_sides ?_ ?_ ?_ ?_ ?_
  · intro σ
    rcases side_eq_or_opp σ side with h | h
    all_goals rw [h]
    · rw [hopp]
      exact hes
    · rw [oppTree_oppSide, hsame, ← oppTree_oppSide ob]
      exact BookWF_oppSorted hwf _
  · intro σ
    have htransfer : ∀ (s : Side) (p : Int) (id1 : String), id1 ≠ id₀ →
        entryWF reg ob s p id1 → entryWF reg' ob' s p id1 := by
      intro s p id1 hne1 hent
      obtain ⟨⟨osnap, h1, h2, h3, h4⟩, ⟨o₁, g1, g2, g3, g4, g5, g6⟩⟩ := hent
      refine ⟨⟨osnap, ?_, h2, h3, h4⟩, ⟨o₁, ?_, g2, g3, g4, by rw [hsym]; exact g5, g6⟩⟩
      · rw [hord, assocLoad_delete_ne _ _ _ hne1]
        exact h1
      · rw [hload id1 hne1]
        exact g1
    rcases side_eq_or_opp σ side with h | h
    all_goals rw [h]
    · intro pl hpl
      rw [hopp] at hpl
      refine ⟨hene pl hpl, ?_⟩
      intro id1 hid1
      obtain ⟨pl', hpl', hpl'1, hid1'⟩ := hentries pl hpl id1 hid1
      have hid1ne : id1 ≠ id₀ := by
        intro hc
        subst hc
        exact hid₀flat' (by rw [hopp]; exact mem_bookSideIds.2 ⟨pl, hpl, hid1⟩)
      have hold := (BookWF_oppSideWF hwf side pl' hpl').2 id1 hid1'
      rw [hpl'1] at hold
      exact htransfer _ _ _ hid1ne hold
    · intro pl hpl
      rw [oppTree_oppSide, hsame, ← oppTree_oppSide ob] at hpl
      have hold := BookWF_oppSideWF hwf (oppSide side) pl hpl
      refine ⟨hold.1, ?_⟩
      intro id1 hid1
      have hid1ne : id1 ≠ id₀ := by
        intro hc
        subst hc
        apply hid₀same
        rw [← oppTree_oppSide ob]
        exact mem_bookSideIds.2 ⟨pl, hpl, hid1⟩
      exact htransfer _ _ _ hid1ne (hold.2 id1 hid1)
  · have hnew : (bookSideIds (oppTree ob' side) ++ bookSideIds (sameTree ob side)).Nodup := by
      have hold : (bookSideIds (oppTree ob side) ++ bookSideIds (sameTree ob side)).Nodup :=
        (bookIds_perm ob side).nodup_iff.1 hwf.2.2.2.2.1
      rw [hflat']
      rw [hflat] at hold
      have hsub : ((lrest ++ bookSideIds trest) ++ bookSideIds (sameTree ob side)).Sublist
          ((id₀ :: (lrest ++ bookSideIds trest)) ++ bookSideIds (sameTree ob side)) :=
        List.Sublist.append ((List.Sublist.refl _).cons _) (List.Sublist.refl _)
      exact List.Nodup.sublist hsub hold
    exact ((bookIds_perm ob' side).trans (by rw [hsame])).nodup_iff.2 hnew
  · rw [hord, assocDelete_map_fst]
    exact hwf.2.2.2.2.2.1.erase _
  · intro id1 hid1
    rw [hord, assocDelete_map_fst] at hid1
    have hid1ne : id1 ≠ id₀ := by
      intro hc
      subst hc
      exact (List.Nodup.mem_erase_iff hwf.2.2.2.2.2.1).1 hid1 |>.1 rfl
    have hid1old : id1 ∈ bookIds ob :=
      hwf.2.2.2.2.2.2 id1 (List.mem_of_mem_erase hid1)
    rw [hmemframe]
    rw [hmemold] at hid1old
    rcases List.mem_append.1 hid1old with h1 | h1
    · apply List.mem_append_left
      rw [hflat']
      rw [hflat] at h1
      rcases List.mem_cons.1 h1 with rfl | h1
      · exact absurd rfl hid1ne
      · exact h1
    · exact List.mem_append_right _ h1

/-! ## Small helpers for the matching-loop analysis -/

theorem sumRem_congr {reg reg' : Registry} (l : List String)
    (h : ∀ x ∈ l, assocLoad reg' x = assocLoad reg x) :
    (l.map (restingRemaining reg')).sum = (l.map (restingRemaining reg)).sum := by
  have : l.map (restingRemaining reg') = l.map (restingRemaining reg) := by
    apply List.map_congr_left
    intro x hx
    unfold restingRemaining
    rw [h x hx]
  rw [this]

theorem length_le_sumQuantity (l : List Trade)
    (h : ∀ x ∈ l, 1 ≤ x.quantity) : (l.length : Int) ≤ (l.map Trade.quantity).sum := by
  induction l with
  | nil => simp
  | cons a rest ih =>
    simp only [List.map_cons, List.sum_cons, List.length_cons]
    have h1 := h a (by simp)
    have h2 := ih (fun x hx => h x (by simp [hx]))
    push_cast
    omega

theorem isPrefix_cons₂ {a : String} {l l' : List String} (h : l <+: l') :
    (a :: l) <+: (a :: l') := by
  obtain ⟨t, ht⟩ := h
  exact ⟨t, by simp [← ht]⟩

theorem tradeMakerId_eq (o best : Order) (p q : Int) :
    tradeMakerId o.side
      { id := "", buyerOrderID := getBuyerOrderID o best,
        sellerOrderID := getSellerOrderID o best, price := p, quantity := q } = best.id := by
  cases hs : o.side <;>
    simp [tradeMakerId, getBuyerOrderID, getSellerOrderID, hs]

theorem OrderEvolves_refl (o : Order) : OrderEvolves o o := Or.inl rfl

theorem OrderEvolves_trans {o₁ o₂ o₃ : Order} (h1 : OrderEvolves o₁ o₂)
    (h2 : OrderEvolves o₂ o₃) : OrderEvolves o₁ o₃ := by
  rcases h1 with rfl | h1
  · exact h2
  · rcases h2 with rfl | h2
    · exact Or.inr h1
    · refine Or.inr ⟨h2.1.trans h1.1, h2.2.1.trans h1.2.1, h2.2.2.1.trans h1.2.2.1,
        h2.2.2.2.1.trans h1.2.2.2.1, h2.2.2.2.2.1.trans h1.2.2.2.2.1,
        h2.2.2.2.2.2.1.trans h1.2.2.2.2.2.1, h2.2.2.2.2.2.2.1, ?_, ?_, ?_⟩
      · exact h2.2.2.2.2.2.2.2.1.trans h1.2.2.2.2.2.2.2.1
      · exact h1.2.2.2.2.2.2.2.2.1.trans h2.2.2.2.2.2.2.2.2.1
      · exact h2.2.2.2.2.2.2.2.2.2.trans h1.2.2.2.2.2.2.2.2.2

/-! ## The matching loop: full characterization

One theorem collects everything later proofs need about `matchLoop`:
evolution of the incoming order, the produced trades (quantities, crossing
prices, maker sequence = a prefix of the priority-ordered opposite side),
book and registry well-formedness, the counter balance, the consumed
liquidity, and the loop's exit condition.  The fuel hypothesis
`remaining.toNat ≤ fuel` is maintained because every trade consumes at
least one unit. -/

theorem matchLoop_spec :
    ∀ (fuel : Nat) (otype : OrderType) (o : Order) (reg : Registry) (ob : OrderBook)
      (m : Metrics) (trades : List Trade),
      BookWF reg ob → RegWF reg →
      0 ≤ o.remainingQuantity → o.remainingQuantity.toNat ≤ fuel →
      ∀ o' reg' ob' m' trades',
        matchLoop fuel otype o reg ob m trades = (o', reg', ob', m', trades') →
        (o'.id = o.id ∧ o'.symbol = o.symbol ∧ o'.side = o.side ∧ o'.otype = o.otype ∧
         o'.price = o.price ∧ o'.originalQuantity = o.originalQuantity ∧
         o'.status = o.status ∧ 0 ≤ o'.remainingQuantity ∧
         o'.remainingQuantity ≤ o.remainingQuantity ∧
         o'.filledQuantity = o.filledQuantity +
           (o.remainingQuantity - o'.remainingQuantity)) ∧
        (∃ newTrades, trades' = trades ++ newTrades ∧
          (newTrades.map Trade.quantity).sum =
            o.remainingQuantity - o'.remainingQuantity ∧
          (∀ tr ∈ newTrades, 1 ≤ tr.quantity ∧
            priceCrosses otype o.side o.price tr.price = true) ∧
          (newTrades.map (tradeMakerId o.side)) <+: bookSideIds (oppTree ob o.side)) ∧
        (BookWF reg' ob' ∧ RegWF reg' ∧ ob'.symbol = ob.symbol ∧
         sameTree ob' o.side = sameTree ob o.side ∧
         (∃ consumed, bookSideIds (oppTree ob o.side) =
            consumed ++ bookSideIds (oppTree ob' o.side)) ∧
         (∀ k ∈ (oppTree ob' o.side).map Prod.fst,
            k ∈ (oppTree ob o.side).map Prod.fst)) ∧
        ((∀ id1, id1 ∉ bookSideIds (oppTree ob o.side) →
            assocLoad reg' id1 = assocLoad reg id1) ∧
         (∀ id1, (assocLoad reg' id1).isSome ↔ (assocLoad reg id1).isSome) ∧
         (∀ id1 ov₁ ov₂, assocLoad reg id1 = some ov₁ → assocLoad reg' id1 = some ov₂ →
            OrderEvolves ov₁ ov₂)) ∧
        (m'.ordersReceived = m.ordersReceived ∧ m'.ordersMatched = m.ordersMatched ∧
         m'.ordersCancelled = m.ordersCancelled ∧ m'.tradesExecuted = m.tradesExecuted ∧
         m'.ordersInBook + ((bookSideIds (oppTree ob o.side)).length : Int) =
           m.ordersInBook + ((bookSideIds (oppTree ob' o.side)).length : Int)) ∧
        (sideRemaining reg' (oppTree ob' o.side) =
          sideRemaining reg (oppTree ob o.side) -
            (o.remainingQuantity - o'.remainingQuantity)) ∧
        (o'.remainingQuantity = 0 ∨ oppTree ob' o.side = [] ∨
         (∃ best, getBestOpp ob' reg' o.side = some best ∧
            priceCrosses otype o.side o.price best.price = false)) := by
  intro fuel
  induction fuel with
  | zero =>
    intro otype o reg ob m trades hwf hreg hrem hfuel o' reg' ob' m' trades' hloop
    simp only [matchLoop, Prod.mk.injEq] at hloop
    obtain ⟨rfl, rfl, rfl, rfl, rfl⟩ := hloop
    have hz : o.remainingQuantity = 0 := by omega
    exact ⟨⟨rfl, rfl, rfl, rfl, rfl, rfl, rfl, hrem, le_refl _, by omega⟩,
      ⟨[], by simp, by simp, by simp, by simpa using List.nil_prefix⟩,
      ⟨hwf, hreg, rfl, rfl, ⟨[], by simp⟩, fun k hk => hk⟩,
      ⟨fun id1 _ => rfl, fun id1 => Iff.rfl,
        fun id1 ov₁ ov₂ h1 h2 =>
          Or.inl (by rw [h1] at h2; exact (Option.some_inj.1 h2).symm)⟩,
      ⟨rfl, rfl, rfl, rfl, rfl⟩, by omega, Or.inl hz⟩
  | succ fuel ih =>
    intro otype o reg ob m trades hwf hreg hrem hfuel o' reg' ob' m' trades' hloop
    by_cases hguard : o.remainingQuantity > 0 ∧ oppTree ob o.side ≠ []
    case neg =>
      have hid : matchLoop (fuel + 1) otype o reg ob m trades = (o, reg, ob, m, trades) := by
        simp only [matchLoop]
        rw [if_neg hguard]
      rw [hid] at hloop
      simp only [Prod.mk.injEq] at hloop
      obtain ⟨rfl, rfl, rfl, rfl, rfl⟩ := hloop
      have hexit : o.remainingQuantity = 0 ∨ oppTree ob o.side = [] ∨
          (∃ best, getBestOpp ob reg o.side = some best ∧
            priceCrosses otype o.side o.price best.price = false) := by
        push_neg at hguard
        by_cases h0 : o.remainingQuantity > 0
        · exact Or.inr (Or.inl (hguard h0))
        · exact Or.inl (by omega)
      exact ⟨⟨rfl, rfl, rfl, rfl, rfl, rfl, rfl, hrem, le_refl _, by omega⟩,
        ⟨[], by simp, by simp, by simp, by simpa using List.nil_prefix⟩,
        ⟨hwf, hreg, rfl, rfl, ⟨[], by simp⟩, fun k hk => hk⟩,
        ⟨fun id1 _ => rfl, fun id1 => Iff.rfl,
          fun id1 ov₁ ov₂ h1 h2 =>
            Or.inl (by rw [h1] at h2; exact (Option.some_inj.1 h2).symm)⟩,
        ⟨rfl, rfl, rfl, rfl, rfl⟩, by omega, hexit⟩
    case pos =>
      obtain ⟨hrempos, htreene⟩ := hguard
      obtain ⟨p₀, lvl, trest, htree⟩ :
          ∃ p lvl trest, oppTree ob o.side = (p, lvl) :: trest := by
        rcases h2 : oppTree ob o.side with _ | ⟨⟨p, lvl⟩, t⟩
        · exact absurd h2 htreene
        · exact ⟨p, lvl, t, rfl⟩
      have hlvlne : lvl ≠ [] :=
        (BookWF_oppSideWF hwf o.side (p₀, lvl) (by rw [htree]; simp)).1
      rcases lvl with _ | ⟨id₀, lrest⟩
      · exact absurd rfl hlvlne
      obtain ⟨-, best, hbestload, hbid0, hbside0, hbprice0, hbsym0, hbrem0⟩ :=
        bestOpp_fields hwf htree
      have hbesteq : getBestOpp ob reg o.side = some best := by
        rw [getBestOpp_eq_head htree, hbestload]
      rcases hexec : executeTrade o best reg ob m with ⟨o₁, reg₁, ob₁, m₁, tr⟩
      have hstep : matchLoop (fuel + 1) otype o reg ob m trades =
          (if priceCrosses otype o.side o.price best.price = true
           then matchLoop fuel otype o₁ reg₁ ob₁ m₁ (trades ++ [tr])
           else (o, reg, ob, m, trades)) := by
        simp only [matchLoop, hbesteq, hexec]
        rw [if_pos ⟨hrempos, htreene⟩]
      rw [hstep] at hloop
      by_cases hcross : priceCrosses otype o.side o.price best.price = true
      case neg =>
        rw [if_neg hcross] at hloop
        simp only [Prod.mk.injEq] at hloop
        obtain ⟨rfl, rfl, rfl, rfl, rfl⟩ := hloop
        have hexit : o.remainingQuantity = 0 ∨ oppTree ob o.side = [] ∨
            (∃ b, getBestOpp ob reg o.side = some b ∧
              priceCrosses otype o.side o.price b.price = false) :=
          Or.inr (Or.inr ⟨best, hbesteq, by simpa using hcross⟩)
        exact ⟨⟨rfl, rfl, rfl, rfl, rfl, rfl, rfl, hrem, le_refl _, by omega⟩,
          ⟨[], by simp, by simp, by simp, by simpa using List.nil_prefix⟩,
          ⟨hwf, hreg, rfl, rfl, ⟨[], by simp⟩, fun k hk => hk⟩,
          ⟨fun id1 _ => rfl, fun id1 => Iff.rfl,
            fun id1 ov₁ ov₂ h1 h2 =>
              Or.inl (by rw [h1] at h2; exact (Option.some_inj.1 h2).symm)⟩,
          ⟨rfl, rfl, rfl, rfl, rfl⟩, by omega, hexit⟩
      case pos =>
        rw [if_pos hcross] at hloop
        obtain ⟨hq1, htr, ho₁eq, hbid, hbside, hbprice, hbsym, hbrem1, hregoff, hregat,
          hreg₁, hsomeiff, hdisj⟩ :=
          executeTrade_spec hwf hreg htree hbestload hrempos o₁ reg₁ ob₁ m₁ tr hexec
        have hq_le : min o.remainingQuantity best.remainingQuantity ≤
            o.remainingQuantity := min_le_left _ _
        have hq_le2 : min o.remainingQuantity best.remainingQuantity ≤
            best.remainingQuantity := min_le_right _ _
        have ho₁id : o₁.id = o.id := by rw [ho₁eq]
        have ho₁sym : o₁.symbol = o.symbol := by rw [ho₁eq]
        have ho₁side : o₁.side = o.side := by rw [ho₁eq]
        have ho₁otype : o₁.otype = o.otype := by rw [ho₁eq]
        have ho₁price : o₁.price = o.price := by rw [ho₁eq]
        have ho₁orig : o₁.originalQuantity = o.originalQuantity := by rw [ho₁eq]
        have ho₁status : o₁.status = o.status := by rw [ho₁eq]
        have ho₁rem : o₁.remainingQuantity =
            o.remainingQuantity - min o.remainingQuantity best.remainingQuantity := by
          rw [ho₁eq]
        have ho₁fil : o₁.filledQuantity =
            o.filledQuantity + min o.remainingQuantity best.remainingQuantity := by
          rw [ho₁eq]
        have htrq : tr.quantity = min o.remainingQuantity best.remainingQuantity := by
          rw [htr]
        have htrp : tr.price = best.price := by rw [htr]
        have htrmaker : tradeMakerId o.side tr = id₀ := by
          rw [htr, tradeMakerId_eq, hbid]
        have hrem₁ : 0 ≤ o₁.remainingQuantity := by rw [ho₁rem]; omega
        have hfuel₁ : o₁.remainingQuantity.toNat ≤ fuel := by rw [ho₁rem]; omega
        have hflat : bookSideIds (oppTree ob o.side) =
            id₀ :: (lrest ++ bookSideIds trest) := by
          rw [htree, bookSideIds_cons]
          simp
        have hoppnd : (bookSideIds (oppTree ob o.side)).Nodup :=
          ((bookIds_perm ob o.side).nodup_iff.1 hwf.2.2.2.2.1).of_append_left
        have hid₀tail : id₀ ∉ lrest ++ bookSideIds trest := by
          rw [hflat] at hoppnd
          exact (List.nodup_cons.1 hoppnd).1
        have hsumtail : ((lrest ++ bookSideIds trest).map (restingRemaining reg₁)).sum =
            ((lrest ++ bookSideIds trest).map (restingRemaining reg)).sum :=
          sumRem_congr _ (fun x hx => hregoff x (fun hc => hid₀tail (hc ▸ hx)))
        have hrr : restingRemaining reg id₀ = best.remainingQuantity := by
          unfold restingRemaining
          rw [hbestload]
          rfl
        have hrr₁ : restingRemaining reg₁ id₀ =
            best.remainingQuantity - min o.remainingQuantity best.remainingQuantity := by
          unfold restingRemaining
          rw [hregat]
          rfl
        have hsflat : sideRemaining reg (oppTree ob o.side) =
            best.remainingQuantity +
              ((lrest ++ bookSideIds trest).map (restingRemaining reg)).sum := by
          unfold sideRemaining
          rw [hflat]
          simp [hrr]
        have hstepmono : ∀ id1 ov₁ ov₂, assocLoad reg id1 = some ov₁ →
            assocLoad reg₁ id1 = some ov₂ → OrderEvolves ov₁ ov₂ := by
          intro id1 ov₁ ov₂ h1 h2
          by_cases hne : id1 = id₀
          · subst hne
            rw [hbestload] at h1
            obtain rfl : best = ov₁ := by injection h1
            rw [hregat] at h2
            obtain rfl : _ = ov₂ := by injection h2
            right
            refine ⟨rfl, rfl, rfl, rfl, rfl, rfl, ?_, ?_, ?_, ?_⟩
            · show (0:Int) ≤ best.remainingQuantity -
                min o.remainingQuantity best.remainingQuantity
              omega
            · show best.remainingQuantity -
                min o.remainingQuantity best.remainingQuantity < best.remainingQuantity
              omega
            · show best.filledQuantity ≤ best.filledQuantity +
                min o.remainingQuantity best.remainingQuantity
              omega
            · show best.filledQuantity + min o.remainingQuantity best.remainingQuantity +
                  (best.remainingQuantity - min o.remainingQuantity best.remainingQuantity) =
                best.filledQuantity + best.remainingQuantity
              omega
          · rw [hregoff id1 hne] at h2
            rw [h1] at h2
            exact Or.inl (Option.some_inj.1 h2).symm
        rcases hdisj with ⟨hle, hm₁, hsym₁, hord₁, hsame₁, hopp₁⟩ |
          ⟨hlt, hob₁, hm₁⟩
        · -- the maker was completely filled and removed from the book
          have hqrem : min o.remainingQuantity best.remainingQuantity =
              best.remainingQuantity := min_eq_right hle
          obtain ⟨hwf₁, hflat₁, hkeys₁⟩ :=
            BookWF_remove_resting hwf htree hsym₁ hord₁ hsame₁ hopp₁ hregoff
          obtain ⟨HA, HB, HC, HD, HE, HF, HG⟩ :=
            ih otype o₁ reg₁ ob₁ m₁ (trades ++ [tr]) hwf₁ hreg₁ hrem₁ hfuel₁
              o' reg' ob' m' trades' hloop
          obtain ⟨HA1, HA2, HA3, HA4, HA5, HA6, HA7, HA8, HA9, HA10⟩ := HA
          obtain ⟨nt, HB1, HB2, HB3, HB4⟩ := HB
          obtain ⟨HC1, HC2, HC3, HC4, ⟨consumed, HC5⟩, HC6⟩ := HC
          obtain ⟨HD1, HD2, HD3⟩ := HD
          obtain ⟨HE1, HE2, HE3, HE4, HE5⟩ := HE
          rw [ho₁side] at HB4 HC4 HC5 HC6 HD1 HE5 HF HG
          rw [ho₁price] at HG
          have hlen : (bookSideIds (oppTree ob o.side)).length =
              (bookSideIds (oppTree ob₁ o.side)).length + 1 := by
            rw [hflat, hflat₁]
            simp
          have hmem₁sub : ∀ x, x ∈ bookSideIds (oppTree ob₁ o.side) →
              x ∈ bookSideIds (oppTree ob o.side) := by
            intro x hx
            rw [hflat]
            rw [hflat₁] at hx
            simp only [List.mem_cons]
            exact Or.inr hx
          have hstepF : sideRemaining reg₁ (oppTree ob₁ o.side) =
              sideRemaining reg (oppTree ob o.side) -
                min o.remainingQuantity best.remainingQuantity := by
            unfold sideRemaining
            rw [hflat₁]
            rw [hsumtail]
            unfold sideRemaining at hsflat
            rw [hsflat]
            omega
          refine ⟨⟨HA1.trans ho₁id, HA2.trans ho₁sym, HA3.trans ho₁side,
              HA4.trans ho₁otype, HA5.trans ho₁price, HA6.trans ho₁orig,
              HA7.trans ho₁status, HA8, by omega, by omega⟩,
            ⟨tr :: nt, ?_, ?_, ?_, ?_⟩,
            ⟨HC1, HC2, HC3.trans hsym₁, ?_, ⟨id₀ :: consumed, ?_⟩, ?_⟩,
            ⟨?_, ?_, ?_⟩, ⟨?_, ?_, ?_, ?_, ?_⟩, ?_, ?_⟩
          · rw [HB1]
            simp
          · simp only [List.map_cons, List.sum_cons, htrq]
            omega
          · intro tr' htr'
            rcases List.mem_cons.1 htr' with rfl | htr'
            · exact ⟨by rw [htrq]; exact hq1, by rw [htrp]; exact hcross⟩
            · have := HB3 tr' htr'
              rw [ho₁side, ho₁price] at this
              exact this
          · simp only [List.map_cons, htrmaker]
            rw [hflat]
            refine isPrefix_cons₂ ?_
            rw [hflat₁] at HB4
            exact HB4
          · rw [HC4, hsame₁]
          · rw [hflat, ← hflat₁, HC5]
            simp
          · intro k hk
            have hk₁ := HC6 k hk
            exact hkeys₁ k hk₁
          · intro id1 hid1
            have hne : id1 ≠ id₀ := by
              intro hc
              subst hc
              exact hid1 (by rw [hflat]; simp)
            have hnot₁ : id1 ∉ bookSideIds (oppTree ob₁ o.side) := by
              intro hc
              exact hid1 (hmem₁sub _ hc)
            rw [HD1 id1 hnot₁, hregoff id1 hne]
          · intro id1
            rw [HD2 id1, hsomeiff id1]
          · intro id1 ov₁ ov₂ h1 h2
            have hmid : (assocLoad reg₁ id1).isSome := by
              rw [← HD2 id1, h2]
              rfl
            rcases Option.isSome_iff_exists.1 hmid with ⟨ovm, hovm⟩
            exact OrderEvolves_trans (hstepmono id1 ov₁ ovm h1 hovm)
              (HD3 id1 ovm ov₂ hovm h2)
          · rw [HE1, hm₁]
          · rw [HE2, hm₁]
          · rw [HE3, hm₁]
          · rw [HE4, hm₁]
          · have hm₁oib : m₁.ordersInBook = m.ordersInBook - 1 := by rw [hm₁]
            omega
          · rw [HF, hstepF]
            omega
          · exact HG
        · -- the maker was only partially filled; the incoming order is done
          have hqo : min o.remainingQuantity best.remainingQuantity =
              o.remainingQuantity := min_eq_left hlt.le
          have ho₁rem0 : o₁.remainingQuantity = 0 := by rw [ho₁rem]; omega
          have hwf₁ : BookWF reg₁ ob₁ := by
            rw [hob₁]
            refine BookWF_update_resting hwf hregoff ?_
            intro ov₁ h1
            rw [hbestload] at h1
            obtain rfl : best = ov₁ := by injection h1
            refine ⟨_, hregat, rfl, rfl, rfl, rfl, ?_⟩
            show (1:Int) ≤ best.remainingQuantity -
              min o.remainingQuantity best.remainingQuantity
            omega
          obtain ⟨HA, HB, HC, HD, HE, HF, HG⟩ :=
            ih otype o₁ reg₁ ob₁ m₁ (trades ++ [tr]) hwf₁ hreg₁ hrem₁ hfuel₁
              o' reg' ob' m' trades' hloop
          obtain ⟨HA1, HA2, HA3, HA4, HA5, HA6, HA7, HA8, HA9, HA10⟩ := HA
          obtain ⟨nt, HB1, HB2, HB3, HB4⟩ := HB
          obtain ⟨HC1, HC2, HC3, HC4, ⟨consumed, HC5⟩, HC6⟩ := HC
          obtain ⟨HD1, HD2, HD3⟩ := HD
          obtain ⟨HE1, HE2, HE3, HE4, HE5⟩ := HE
          rw [ho₁side] at HB4 HC4 HC5 HC6 HD1 HE5 HF HG
          rw [ho₁price] at HG
          rw [hob₁] at HC3 HC4 HC5 HC6 HD1 HE5 HF HB4
          have hntnil : nt = [] := by
            have h0 : o'.remainingQuantity = 0 := by omega
            have hsum0 : (nt.map Trade.quantity).sum = 0 := by omega
            have hlen := length_le_sumQuantity nt (fun x hx => (HB3 x hx).1)
            rw [hsum0] at hlen
            have : nt.length = 0 := by omega
            exact List.length_eq_zero.1 this
          subst hntnil
          have hstepF : sideRemaining reg₁ (oppTree ob o.side) =
              sideRemaining reg (oppTree ob o.side) -
                min o.remainingQuantity best.remainingQuantity := by
            unfold sideRemaining
            rw [hflat]
            simp only [List.map_cons, List.sum_cons]
            rw [hrr₁, hsumtail, hrr]
            omega
          refine ⟨⟨HA1.trans ho₁id, HA2.trans ho₁sym, HA3.trans ho₁side,
              HA4.trans ho₁otype, HA5.trans ho₁price, HA6.trans ho₁orig,
              HA7.trans ho₁status, HA8, by omega, by omega⟩,
            ⟨[tr], ?_, ?_, ?_, ?_⟩,
            ⟨HC1, HC2, HC3, ?_, ⟨consumed, ?_⟩, ?_⟩,
            ⟨?_, ?_, ?_⟩, ⟨?_, ?_, ?_, ?_, ?_⟩, ?_, ?_⟩
          · rw [HB1]
            simp
          · simp only [List.map_cons, List.map_nil, List.sum_cons, List.sum_nil, htrq]
            omega
          · intro tr' htr'
            rcases List.mem_cons.1 htr' with rfl | htr'
            · exact ⟨by rw [htrq]; exact hq1, by rw [htrp]; exact hcross⟩
            · cases htr'
          · simp only [List.map_cons, List.map_nil, htrmaker]
            rw [hflat]
            exact ⟨lrest ++ bookSideIds trest, rfl⟩
          · exact HC4
          · exact HC5
          · exact HC6
          · intro id1 hid1
            have hne : id1 ≠ id₀ := by
              intro hc
              subst hc
              exact hid1 (by rw [hflat]; simp)
            rw [HD1 id1 hid1, hregoff id1 hne]
          · intro id1
            rw [HD2 id1, hsomeiff id1]
          · intro id1 ov₁ ov₂ h1 h2
            have hmid : (assocLoad reg₁ id1).isSome := by
              rw [← HD2 id1, h2]
              rfl
            rcases Option.isSome_iff_exists.1 hmid with ⟨ovm, hovm⟩
            exact OrderEvolves_trans (hstepmono id1 ov₁ ovm h1 hovm)
              (HD3 id1 ovm ov₂ hovm h2)
          · rw [HE1, hm₁]
          · rw [HE2, hm₁]
          · rw [HE3, hm₁]
          · rw [HE4, hm₁]
          · have hm₁oib : m₁.ordersInBook = m.ordersInBook := by rw [hm₁]
            omega
          · rw [HF, hstepF]
            omega
          · exact HG

/-! ## Engine-level support lemmas -/

theorem matchLoop_zero (otype : OrderType) (o : Order) (reg : Registry) (ob : OrderBook)
    (m : Metrics) (trades : List Trade) :
    matchLoop 0 otype o reg ob m trades = (o, reg, ob, m, trades) := rfl

theorem mem_iff_load {α : Type} {l : List (String × α)} (hnd : (l.map Prod.fst).Nodup)
    (e : String × α) : e ∈ l ↔ assocLoad l e.1 = some e.2 := by
  induction l with
  | nil => simp [assocLoad]
  | cons e' rest ih =>
    simp only [List.map_cons, List.nodup_cons] at hnd
    by_cases he : e'.1 = e.1
    · constructor
      · intro hm
        rcases List.mem_cons.1 hm with rfl | hm
        · simp [assocLoad]
        · exact absurd (he ▸ List.mem_map_of_mem Prod.fst hm) hnd.1
      · intro hl
        simp only [assocLoad] at hl
        rw [if_pos he] at hl
        rcases e with ⟨k, v⟩
        rcases e' with ⟨k', v'⟩
        simp only at he
        simp only [Option.some_inj] at hl
        obtain rfl := he
        rw [← hl]
        exact List.mem_cons_self _ _
    · constructor
      · intro hm
        rcases List.mem_cons.1 hm with rfl | hm
        · exact absurd rfl he
        · simp only [assocLoad, he, if_neg he]
          exact (ih hnd.2 ).1 hm
      · intro hl
        simp only [assocLoad, he, if_neg he] at hl
        exact List.mem_cons_of_mem _ ((ih hnd.2).2 hl)

theorem assocStore_self {α : Type} {l : List (String × α)} {k : String} {v : α}
    (h : assocLoad l k = some v) : assocStore l k v = l := by
  induction l with
  | nil => simp [assocLoad] at h
  | cons e rest ih =>
    by_cases he : e.1 = k
    · simp only [assocLoad] at h
      rw [if_pos he] at h
      simp only [assocStore]
      rw [if_pos he]
      rcases e with ⟨k', v'⟩
      simp only at he
      simp only [Option.some_inj] at h
      obtain rfl := he
      rw [h]
    · simp only [assocLoad, if_neg he] at h
      simp only [assocStore, if_neg he]
      rw [ih h]

theorem totalResting_books_store (books : List (String × OrderBook)) (sym : String)
    (ob0 ob₂ : OrderBook) (hnd : (books.map Prod.fst).Nodup)
    (h : assocLoad books sym = some ob0) :
    ((assocStore books sym ob₂).map (fun b => ((bookIds b.2).length : Int))).sum =
      (books.map (fun b => ((bookIds b.2).length : Int))).sum
        - (bookIds ob0).length + (bookIds ob₂).length := by
  induction books with
  | nil => simp [assocLoad] at h
  | cons e rest ih =>
    simp only [List.map_cons, List.nodup_cons] at hnd
    by_cases he : e.1 = sym
    · simp only [assocLoad, if_pos he, Option.some_inj] at h
      simp only [assocStore, if_pos he, List.map_cons, List.sum_cons, h]
      omega
    · simp only [assocLoad, if_neg he] at h
      simp only [assocStore, if_neg he, List.map_cons, List.sum_cons]
      rw [ih hnd.2 h]
      omega

theorem bookIds_load_isSome {reg : Registry} {ob : OrderBook} (hwf : BookWF reg ob) :
    ∀ id1 ∈ bookIds ob, (assocLoad reg id1).isSome := by
  intro id1 hid1
  rcases List.mem_append.1 hid1 with h | h
  · obtain ⟨pl, hpl, hin⟩ := mem_bookSideIds.1 h
    obtain ⟨-, ⟨o1, ho1, -⟩⟩ := (hwf.2.2.1 pl hpl).2 id1 hin
    rw [ho1]
    rfl
  · obtain ⟨pl, hpl, hin⟩ := mem_bookSideIds.1 h
    obtain ⟨-, ⟨o1, ho1, -⟩⟩ := (hwf.2.2.2.1 pl hpl).2 id1 hin
    rw [ho1]
    rfl

theorem BookWF_reg_agree {reg reg' : Registry} {ob : OrderBook} (hwf : BookWF reg ob)
    (h : ∀ id1 ∈ bookIds ob, assocLoad reg' id1 = assocLoad reg id1) : BookWF reg' ob := by
  obtain ⟨w1, w2, w3, w4, w5, w6, w7⟩ := hwf
  have hside : ∀ (s : Side) (tree : PriceTree),
      (∀ id1, (∃ pl ∈ tree, id1 ∈ pl.2) → id1 ∈ bookIds ob) →
      sideWF reg ob s tree → sideWF reg' ob s tree := by
    intro s tree hsub hsw pl hpl
    refine ⟨(hsw pl hpl).1, ?_⟩
    intro id1 hid1
    obtain ⟨hsnap, ⟨o₁, ho₁, hrest⟩⟩ := (hsw pl hpl).2 id1 hid1
    exact ⟨hsnap, ⟨o₁, (h id1 (hsub id1 ⟨pl, hpl, hid1⟩)).trans ho₁, hrest⟩⟩
  refine ⟨w1, w2, hside _ _ ?_ w3, hside _ _ ?_ w4, w5, w6, w7⟩
  · intro id1 hid1
    exact List.mem_append_left _ (mem_bookSideIds.2 hid1)
  · intro id1 hid1
    exact List.mem_append_right _ (mem_bookSideIds.2 hid1)

theorem sorted_head_min {cmp : Int → Int → Ordering} {t : PriceTree} {k : Int}
    (hs : treeKeysSorted cmp t) (hk : k ∈ t.map Prod.fst) :
    ∃ k₀, t.head?.map Prod.fst = some k₀ ∧ (k₀ = k ∨ cmp k₀ k = .lt) := by
  rcases t with _ | ⟨⟨k0, v0⟩, rest⟩
  · simp at hk
  · refine ⟨k0, rfl, ?_⟩
    simp only [List.map_cons, List.mem_cons] at hk
    rcases hk with rfl | hk
    · exact Or.inl rfl
    · obtain ⟨⟨kk, vv⟩, hmem, hfst⟩ := List.mem_map.1 hk
      have : cmp k0 kk = .lt := (List.pairwise_cons.1 hs).1 (kk, vv) hmem
      right
      rw [← hfst]
      exact this

/-! ## `AddOrder` preservation -/

theorem BookWF_addOrder {reg : Registry} {ob : OrderBook} {o : Order}
    (hwf : BookWF reg ob)
    (hfresh : o.id ∉ bookIds ob)
    (hregload : assocLoad reg o.id = some o)
    (hrem : 1 ≤ o.remainingQuantity)
    (hsym : o.symbol = ob.symbol) :
    BookWF reg (ob.AddOrder o) ∧
    (ob.AddOrder o).symbol = ob.symbol ∧
    ((bookIds (ob.AddOrder o)).length : Int) = (bookIds ob).length + 1 ∧
    (∀ x, x ∈ bookIds (ob.AddOrder o) ↔ x = o.id ∨ x ∈ bookIds ob) ∧
    (o.side = .Buy → (ob.AddOrder o).asks = ob.asks ∧
      ∀ k', bestBidPrice (ob.AddOrder o) = some k' →
        k' = o.price ∨ bestBidPrice ob = some k') ∧
    (o.side = .Sell → (ob.AddOrder o).bids = ob.bids ∧
      ∀ k', bestAskPrice (ob.AddOrder o) = some k' →
        k' = o.price ∨ bestAskPrice ob = some k') := by
  obtain ⟨w1, w2, w3, w4, w5, w6, w7⟩ := hwf
  have hfreshord : assocLoad ob.orders o.id = none := by
    rw [assocLoad_eq_none]
    intro hc
    exact hfresh (w7 o.id hc)
  have hAdd := AddOrder_eq hfreshord
  have hords : (ob.AddOrder o).orders = ob.orders ++ [(o.id, o)] := by rw [hAdd]
  have hsymb : (ob.AddOrder o).symbol = ob.symbol := by rw [hAdd]
  have hordkeys : ((ob.AddOrder o).orders.map Prod.fst) = ob.orders.map Prod.fst ++ [o.id] := by
    rw [hords]
    simp
  have hordnodup : ((ob.AddOrder o).orders.map Prod.fst).Nodup := by
    rw [hordkeys, List.nodup_append]
    refine ⟨w6, List.nodup_singleton _, ?_⟩
    intro a ha hb
    simp only [List.mem_singleton] at hb
    subst hb
    exact hfresh (w7 _ ha)
  have hlift : ∀ s p id1, id1 ∈ bookIds ob → entryWF reg ob s p id1 →
      entryWF reg (ob.AddOrder o) s p id1 := by
    intro s p id1 hid1 hent
    obtain ⟨⟨osnap, h1, h2, h3, h4⟩, ⟨o₁, g1, g2, g3, g4, g5, g6⟩⟩ := hent
    refine ⟨⟨osnap, ?_, h2, h3, h4⟩, ⟨o₁, g1, g2, g3, g4, by rw [hsymb]; exact g5, g6⟩⟩
    rw [hords, assocLoad_append, h1]
  have hself : entryWF reg (ob.AddOrder o) o.side o.price o.id := by
    refine ⟨⟨o, ?_, rfl, rfl, rfl⟩, ⟨o, hregload, rfl, rfl, rfl, by rw [hsymb]; exact hsym, hrem⟩⟩
    rw [hords, assocLoad_append, hfreshord, assocLoad]
    simp
  cases hside : o.side with
  | Buy =>
    have hbids : (ob.AddOrder o).bids = levelAppend cmpBids ob.bids o.price o.id := by
      rw [hAdd]
      simp [hside]
    have hasks : (ob.AddOrder o).asks = ob.asks := by
      rw [hAdd]
      simp [hside]
    obtain ⟨pre, post, hflatold, hflatnew⟩ :=
      levelAppend_flatten cmpBids_eq_iff ob.bids o.price o.id
    have hperm : (bookIds (ob.AddOrder o)).Perm (o.id :: bookIds ob) := by
      unfold bookIds
      rw [hbids, hasks, hflatnew, hflatold]
      have := @List.perm_middle _ o.id pre (post ++ bookSideIds ob.asks)
      simpa [List.append_assoc] using this
    have hmem : ∀ x, x ∈ bookIds (ob.AddOrder o) ↔ x = o.id ∨ x ∈ bookIds ob := by
      intro x
      rw [hperm.mem_iff]
      simp
    refine ⟨⟨?_, ?_, ?_, ?_, ?_, hordnodup, ?_⟩, hsymb, ?_, hmem, ?_, ?_⟩
    · rw [hbids]
      exact levelAppend_sorted cmpBids_eq_iff cmpBids_gt_flip
        (fun a b c => cmpBids_trans) o.price o.id w1
    · rw [hasks]
      exact w2
    · rw [hbids]
      intro pl hpl
      refine ⟨levelAppend_nonempty cmpBids_eq_iff ob.bids o.price o.id
        (fun pl' hpl' => (w3 pl' hpl').1) pl hpl, ?_⟩
      intro id1 hid1
      rcases levelAppend_entries cmpBids_eq_iff ob.bids o.price o.id pl hpl id1 hid1 with
        ⟨rfl, hpl1⟩ | ⟨pl', hpl', hpl'1, hid1'⟩
      · rw [hpl1, ← hside]
        exact hself
      · have hin : id1 ∈ bookIds ob :=
          List.mem_append_left _ (mem_bookSideIds.2 ⟨pl', hpl', hid1'⟩)
        rw [← hpl'1]
        exact hlift .Buy pl'.1 id1 hin ((w3 pl' hpl').2 id1 hid1')
    · rw [hasks]
      intro pl hpl
      refine ⟨(w4 pl hpl).1, ?_⟩
      intro id1 hid1
      have hin : id1 ∈ bookIds ob :=
        List.mem_append_right _ (mem_bookSideIds.2 ⟨pl, hpl, hid1⟩)
      exact hlift .Sell pl.1 id1 hin ((w4 pl hpl).2 id1 hid1)
    · exact hperm.nodup_iff.2 (List.nodup_cons.2 ⟨hfresh, w5⟩)
    · intro id1 hid1
      rw [hordkeys] at hid1
      rw [hmem]
      rcases List.mem_append.1 hid1 with h | h
      · exact Or.inr (w7 id1 h)
      · simp only [List.mem_singleton] at h
        exact Or.inl h
    · have := hperm.length_eq
      simp only [List.length_cons] at this
      rw [this]
      push_cast
      omega
    · intro _
      refine ⟨hasks, ?_⟩
      intro k' hk'
      unfold bestBidPrice at hk' ⊢
      rw [hbids] at hk'
      exact levelAppend_head_key ob.bids o.price o.id k' hk'
    · intro hc
      cases hc
  | Sell =>
    have hbids : (ob.AddOrder o).bids = ob.bids := by
      rw [hAdd]
      simp [hside]
    have hasks : (ob.AddOrder o).asks = levelAppend cmpAsks ob.asks o.price o.id := by
      rw [hAdd]
      simp [hside]
    obtain ⟨pre, post, hflatold, hflatnew⟩ :=
      levelAppend_flatten cmpAsks_eq_iff ob.asks o.price o.id
    have hperm : (bookIds (ob.AddOrder o)).Perm (o.id :: bookIds ob) := by
      unfold bookIds
      rw [hbids, hasks, hflatnew, hflatold]
      have h1 := @List.perm_middle _ o.id (bookSideIds ob.bids ++ pre) post
      simpa [List.append_assoc] using h1
    have hmem : ∀ x, x ∈ bookIds (ob.AddOrder o) ↔ x = o.id ∨ x ∈ bookIds ob := by
      intro x
      rw [hperm.mem_iff]
      simp
    refine ⟨⟨?_, ?_, ?_, ?_, ?_, hordnodup, ?_⟩, hsymb, ?_, hmem, ?_, ?_⟩
    · rw [hbids]
      exact w1
    · rw [hasks]
      exact levelAppend_sorted cmpAsks_eq_iff cmpAsks_gt_flip
        (fun a b c => cmpAsks_trans) o.price o.id w2
    · rw [hbids]
      intro pl hpl
      refine ⟨(w3 pl hpl).1, ?_⟩
      intro id1 hid1
      have hin : id1 ∈ bookIds ob :=
        List.mem_append_left _ (mem_bookSideIds.2 ⟨pl, hpl, hid1⟩)
      exact hlift .Buy pl.1 id1 hin ((w3 pl hpl).2 id1 hid1)
    · rw [hasks]
      intro pl hpl
      refine ⟨levelAppend_nonempty cmpAsks_eq_iff ob.asks o.price o.id
        (fun pl' hpl' => (w4 pl' hpl').1) pl hpl, ?_⟩
      intro id1 hid1
      rcases levelAppend_entries cmpAsks_eq_iff ob.asks o.price o.id pl hpl id1 hid1 with
        ⟨rfl, hpl1⟩ | ⟨pl', hpl', hpl'1, hid1'⟩
      · rw [hpl1, ← hside]
        exact hself
      · have hin : id1 ∈ bookIds ob :=
          List.mem_append_right _ (mem_bookSideIds.2 ⟨pl', hpl', hid1'⟩)
        rw [← hpl'1]
        exact hlift .Sell pl'.1 id1 hin ((w4 pl' hpl').2 id1 hid1')
    · exact hperm.nodup_iff.2 (List.nodup_cons.2 ⟨hfresh, w5⟩)
    · intro id1 hid1
      rw [hordkeys] at hid1
      rw [hmem]
      rcases List.mem_append.1 hid1 with h | h
      · exact Or.inr (w7 id1 h)
      · simp only [List.mem_singleton] at h
        exact Or.inl h
    · have := hperm.length_eq
      simp only [List.length_cons] at this
      rw [this]
      push_cast
      omega
    · intro hc
      cases hc
    · intro _
      refine ⟨hbids, ?_⟩
      intro k' hk'
      unfold bestAskPrice at hk' ⊢
      rw [hasks] at hk'
      exact levelAppend_head_key ob.asks o.price o.id k' hk'

/-! ## Liquidity scan and depth -/

theorem liquidityScan_exact (reg : Registry) (maxNeeded : Int) :
    ∀ (l : List String) (acc : Int),
      (∀ x ∈ l, 0 ≤ restingRemaining reg x) →
      acc + (l.map (restingRemaining reg)).sum < maxNeeded →
      liquidityScan reg maxNeeded l acc = acc + (l.map (restingRemaining reg)).sum := by
  intro l
  induction l with
  | nil =>
    intro acc _ _
    simp [liquidityScan]
  | cons x rest ih =>
    intro acc hnn hlt
    have hrest : ∀ y ∈ rest, 0 ≤ restingRemaining reg y := fun y hy => hnn y (by simp [hy])
    have hsumnn : 0 ≤ (rest.map (restingRemaining reg)).sum := by
      apply List.sum_nonneg
      intro a ha
      obtain ⟨y, hy, rfl⟩ := List.mem_map.1 ha
      exact hrest y hy
    simp only [List.map_cons, List.sum_cons] at hlt
    simp only [liquidityScan]
    rw [if_neg (by omega)]
    rw [ih (acc + restingRemaining reg x) hrest (by omega)]
    simp only [List.map_cons, List.sum_cons]
    ring

theorem liquidityScan_ge (reg : Registry) (maxNeeded : Int) :
    ∀ (l : List String) (acc : Int),
      maxNeeded ≤ acc + (l.map (restingRemaining reg)).sum →
      maxNeeded ≤ liquidityScan reg maxNeeded l acc := by
  intro l
  induction l with
  | nil =>
    intro acc h
    simpa [liquidityScan] using h
  | cons x rest ih =>
    intro acc h
    simp only [List.map_cons, List.sum_cons] at h
    simp only [liquidityScan]
    by_cases hge : acc + restingRemaining reg x ≥ maxNeeded
    · rw [if_pos hge]
      exact hge
    · rw [if_neg hge]
      exact ih (acc + restingRemaining reg x) (by omega)

theorem depthSide_take (reg : Registry) (limit : Int) :
    ∀ (t : PriceTree) (count : Int),
      depthSide reg limit t count =
      ((if limit > 0 then t.take (limit - count).toNat else t).map
        fun pl => { price := pl.1, quantity := (pl.2.map (restingRemaining reg)).sum }) := by
  intro t
  induction t with
  | nil =>
    intro count
    simp [depthSide]
  | cons e rest ih =>
    intro count
    rcases e with ⟨p, lvl⟩
    by_cases hg : limit > 0 ∧ count ≥ limit
    · simp only [depthSide, if_pos hg]
      rw [if_pos hg.1]
      have h0 : (limit - count).toNat = 0 := by omega
      rw [h0]
      simp
    · simp only [depthSide, if_neg hg]
      rw [ih (count + 1)]
      by_cases hl : limit > 0
      · have hcnt : ¬ count ≥ limit := fun hc => hg ⟨hl, hc⟩
        rw [if_pos hl, if_pos hl]
        have hstep : (limit - count).toNat = (limit - (count + 1)).toNat + 1 := by omega
        rw [hstep]
        simp
      · rw [if_neg hl, if_neg hl]
        simp

theorem depthSide_eq_spec (reg : Registry) (t : PriceTree) (limit : Int) :
    depthSide reg limit t 0 = depthSideSpec reg t limit := by
  rw [depthSide_take]
  unfold depthSideSpec
  simp

/-! ## Further engine-level helpers -/

theorem mem_assocStore_ne {α : Type} {l : List (String × α)} {k : String} {v : α}
    {en : String × α} (hnd : (l.map Prod.fst).Nodup) (h : en ∈ assocStore l k v) :
    en = (k, v) ∨ (en ∈ l ∧ en.1 ≠ k) := by
  induction l with
  | nil =>
    simp [assocStore] at h
    exact Or.inl h
  | cons e rest ih =>
    simp only [List.map_cons, List.nodup_cons] at hnd
    by_cases he : e.1 = k
    · simp only [assocStore, if_pos he] at h
      rcases List.mem_cons.1 h with rfl | h
      · exact Or.inl rfl
      · refine Or.inr ⟨List.mem_cons_of_mem _ h, ?_⟩
        intro hc
        apply hnd.1
        rw [he, ← hc]
        exact List.mem_map_of_mem Prod.fst h
    · simp only [assocStore, if_neg he] at h
      rcases List.mem_cons.1 h with rfl | h
      · exact Or.inr ⟨List.mem_cons_self _ _, he⟩
      · rcases ih hnd.2 h with h1 | ⟨h1, h2⟩
        · exact Or.inl h1
        · exact Or.inr ⟨List.mem_cons_of_mem _ h1, h2⟩

theorem head_key_mem {t : PriceTree} {k : Int} (h : t.head?.map Prod.fst = some k) :
    k ∈ t.map Prod.fst := by
  rcases t with _ | ⟨⟨k0, v0⟩, rest⟩
  · simp at h
  · have hk : k0 = k := by simpa using h
    simp [← hk]

theorem oppIds_sub_bookIds (ob : OrderBook) (side : Side) :
    ∀ x ∈ bookSideIds (oppTree ob side), x ∈ bookIds ob := by
  intro x hx
  rw [(bookIds_perm ob side).mem_iff]
  exact List.mem_append_left _ hx

theorem bookIds_entry_symbol {reg : Registry} {ob : OrderBook} (hwf : BookWF reg ob) :
    ∀ id1 ∈ bookIds ob, ∃ ov, assocLoad reg id1 = some ov ∧ ov.symbol = ob.symbol := by
  intro id1 hid1
  rcases List.mem_append.1 hid1 with h | h
  · obtain ⟨pl, hpl, hin⟩ := mem_bookSideIds.1 h
    obtain ⟨-, ⟨o1, ho1, -, -, -, hsym, -⟩⟩ := (hwf.2.2.1 pl hpl).2 id1 hin
    exact ⟨o1, ho1, hsym⟩
  · obtain ⟨pl, hpl, hin⟩ := mem_bookSideIds.1 h
    obtain ⟨-, ⟨o1, ho1, -, -, -, hsym, -⟩⟩ := (hwf.2.2.2.1 pl hpl).2 id1 hin
    exact ⟨o1, ho1, hsym⟩

theorem oppTree_shape {reg : Registry} {ob : OrderBook} {side : Side}
    (hwf : BookWF reg ob) (hne : oppTree ob side ≠ []) :
    ∃ p₀ id₀ lrest trest, oppTree ob side = (p₀, id₀ :: lrest) :: trest := by
  obtain ⟨⟨p₀, lvl⟩, trest, ht⟩ : ∃ pl trest, oppTree ob side = pl :: trest := by
    rcases h2 : oppTree ob side with _ | ⟨pl, t⟩
    · exact absurd h2 hne
    · exact ⟨pl, t, rfl⟩
  have hlvl : lvl ≠ [] := (BookWF_oppSideWF hwf side (p₀, lvl) (by rw [ht]; simp)).1
  obtain ⟨id₀, lrest, hl⟩ : ∃ id₀ lrest, lvl = id₀ :: lrest := by
    rcases h2 : lvl with _ | ⟨a, b⟩
    · exact absurd h2 hlvl
    · exact ⟨a, b, rfl⟩
  exact ⟨p₀, id₀, lrest, trest, by rw [ht, hl]⟩

theorem bestOpp_price_head {reg : Registry} {ob : OrderBook} {side : Side} {best : Order}
    (hwf : BookWF reg ob) (hne : oppTree ob side ≠ [])
    (hbest : getBestOpp ob reg side = some best) :
    ∃ p₀, (oppTree ob side).head?.map Prod.fst = some p₀ ∧ best.price = p₀ := by
  obtain ⟨p₀, id₀, lrest, trest, hshape⟩ := oppTree_shape hwf hne
  refine ⟨p₀, by rw [hshape]; rfl, ?_⟩
  rw [getBestOpp_eq_head hshape] at hbest
  obtain ⟨-, ⟨o1, ho1, -, -, hprice, -⟩⟩ := bestOpp_fields hwf hshape
  rw [hbest] at ho1
  obtain rfl : best = o1 := by injection ho1
  exact hprice

theorem NotCrossed_after_loop {reg0 : Registry} {ob0 ob₁ : OrderBook} {side : Side}
    (hwf0 : BookWF reg0 ob0)
    (hnc0 : NotCrossed ob0)
    (hsame : sameTree ob₁ side = sameTree ob0 side)
    (hkeys : ∀ k ∈ (oppTree ob₁ side).map Prod.fst, k ∈ (oppTree ob0 side).map Prod.fst) :
    NotCrossed ob₁ := by
  have hs0 := BookWF_oppSorted hwf0 side
  cases side with
  | Buy =>
    have hbids : ob₁.bids = ob0.bids := hsame
    intro bb ba h1 h2
    have hbb0 : bestBidPrice ob0 = some bb := by
      unfold bestBidPrice at h1 ⊢
      rw [← hbids]
      exact h1
    have hba : ba ∈ ob₁.asks.map Prod.fst := head_key_mem h2
    have hba0 : ba ∈ ob0.asks.map Prod.fst := hkeys ba hba
    obtain ⟨k₀, hk₀, hk₀le⟩ := sorted_head_min hs0 hba0
    have h0 : bb < k₀ := hnc0 bb k₀ hbb0 hk₀
    rcases hk₀le with rfl | hlt
    · exact h0
    · have : k₀ < ba := by
        have := hlt
        simp only [oppCmp, if_pos rfl] at this
        exact (cmpAsks_lt_iff _ _).1 this
      omega
  | Sell =>
    have hasks : ob₁.asks = ob0.asks := hsame
    intro bb ba h1 h2
    have hba0 : bestAskPrice ob0 = some ba := by
      unfold bestAskPrice at h2 ⊢
      rw [← hasks]
      exact h2
    have hbb : bb ∈ ob₁.bids.map Prod.fst := head_key_mem h1
    have hbb0 : bb ∈ ob0.bids.map Prod.fst := hkeys bb hbb
    obtain ⟨k₀, hk₀, hk₀le⟩ := sorted_head_min hs0 hbb0
    have h0 : k₀ < ba := hnc0 k₀ ba hk₀ hba0
    rcases hk₀le with rfl | hlt
    · exact h0
    · have : bb < k₀ := by
        have := hlt
        simp only [oppCmp] at this
        exact (cmpBids_lt_iff _ _).1 this
      omega

theorem books_store_wf {books : List (String × OrderBook)} {reg0 regN : Registry}
    {o : Order} {ob0 obN : OrderBook}
    (hnd : (books.map Prod.fst).Nodup)
    (hbk : ∀ b ∈ books, b.2.symbol = b.1 ∧ BookWF reg0 b.2)
    (hncb : ∀ b ∈ books, NotCrossed b.2)
    (hload0 : assocLoad books o.symbol = some ob0)
    (hwf0 : BookWF reg0 ob0)
    (hsym0 : ob0.symbol = o.symbol)
    (hfreshall : ∀ b ∈ books, o.id ∉ bookIds b.2)
    (hregagree : ∀ id1, id1 ≠ o.id → id1 ∉ bookSideIds (oppTree ob0 o.side) →
        assocLoad regN id1 = assocLoad reg0 id1)
    (hwfN : BookWF regN obN) (hncN : NotCrossed obN) (hsymN : obN.symbol = o.symbol) :
    (∀ b ∈ assocStore books o.symbol obN, b.2.symbol = b.1 ∧ BookWF regN b.2) ∧
    (∀ b ∈ assocStore books o.symbol obN, NotCrossed b.2) ∧
    ((assocStore books o.symbol obN).map Prod.fst).Nodup := by
  have hother : ∀ b ∈ books, b.1 ≠ o.symbol → BookWF regN b.2 := by
    intro b hb hbne
    refine BookWF_reg_agree (hbk b hb).2 ?_
    intro i hi
    have hine : i ≠ o.id := fun hc => hfreshall b hb (hc ▸ hi)
    refine hregagree i hine ?_
    intro hiopp
    have hi0 : i ∈ bookIds ob0 := oppIds_sub_bookIds ob0 o.side i hiopp
    obtain ⟨ov, hov, hovsym⟩ := bookIds_entry_symbol hwf0 i hi0
    obtain ⟨ov', hov', hov'sym⟩ := bookIds_entry_symbol (hbk b hb).2 i hi
    rw [hov] at hov'
    obtain rfl : ov = ov' := by injection hov'
    apply hbne
    rw [← (hbk b hb).1, ← hov'sym, hovsym, hsym0]
  refine ⟨?_, ?_, assocStore_nodup _ _ _ hnd⟩
  · intro b hb
    rcases mem_assocStore_ne hnd hb with rfl | ⟨hb1, hb2⟩
    · exact ⟨hsymN, hwfN⟩
    · exact ⟨(hbk b hb1).1, hother b hb1 hb2⟩
  · intro b hb
    rcases mem_assocStore_ne hnd hb with rfl | ⟨hb1, hb2⟩
    · exact hncN
    · exact hncb b hb1

theorem processOrderRest_loop (e : Engine) (o : Order) (ob : OrderBook) :
    (if o.otype = .Limit then processLimitOrder o e.allOrders ob e.metrics
     else processMarketOrder o e.allOrders ob e.metrics) =
    matchLoop o.remainingQuantity.toNat o.otype o e.allOrders ob e.metrics [] := by
  cases ht : o.otype with
  | Limit =>
    rw [if_pos rfl]
    rfl
  | Market =>
    rw [if_neg (by simp)]
    rfl

/-! ## `processOrderRest`: explicit case analysis -/

theorem processOrderRest_cases (e : Engine) (o : Order) (ob : OrderBook) :
    ∀ r e', e.processOrderRest o ob = (r, e') →
    ∃ o₁ reg₁ ob₁ m₁ trades₁ st mF,
      matchLoop o.remainingQuantity.toNat o.otype o e.allOrders ob e.metrics [] =
        (o₁, reg₁, ob₁, m₁, trades₁) ∧
      st = (if 0 < o₁.filledQuantity then
              if o₁.remainingQuantity = 0 then OrderStatus.Filled
              else OrderStatus.PartialFill
            else OrderStatus.Accepted) ∧
      mF.ordersInBook = m₁.ordersInBook ∧
      mF.ordersReceived = m₁.ordersReceived ∧
      mF.ordersCancelled = m₁.ordersCancelled ∧
      mF.tradesExecuted = m₁.tradesExecuted + (trades₁.length : Int) ∧
      ((0 < o₁.remainingQuantity ∧ o₁.otype = OrderType.Market ∧
        r = Except.ok { order := { o₁ with status := st }, trades := trades₁ } ∧
        e' = ((e.setOrderBook ob₁.symbol ob₁).withMetrics mF).withRegistry
               (assocStore reg₁ o₁.id { o₁ with status := st })) ∨
       (0 < o₁.remainingQuantity ∧ ¬ o₁.otype = OrderType.Market ∧
        r = Except.ok { order := { o₁ with status := st }, trades := trades₁ } ∧
        e' = ((e.setOrderBook (ob₁.AddOrder { o₁ with status := st }).symbol
                (ob₁.AddOrder { o₁ with status := st })).withMetrics
                { mF with ordersInBook := mF.ordersInBook + 1 }).withRegistry
               (assocStore reg₁ o₁.id { o₁ with status := st })) ∨
       (¬ 0 < o₁.remainingQuantity ∧
        r = Except.ok { order := { o₁ with status := OrderStatus.Filled },
                        trades := trades₁ } ∧
        e' = ((e.setOrderBook ob₁.symbol ob₁).withMetrics mF).withRegistry
               (assocStore reg₁ o₁.id { o₁ with status := OrderStatus.Filled }))) := by
  intro r e' hpo
  simp only [Engine.processOrderRest, processOrderRest_loop] at hpo
  rcases hstep : matchLoop o.remainingQuantity.toNat o.otype o e.allOrders ob e.metrics []
    with ⟨o₁, reg₁, ob₁, m₁, trades₁⟩
  rw [hstep] at hpo
  simp only [gt_iff_lt] at hpo
  obtain ⟨st, hord, hst⟩ : ∃ st,
      (if 0 < o₁.filledQuantity then
        if o₁.remainingQuantity = 0 then { o₁ with status := OrderStatus.Filled }
        else { o₁ with status := OrderStatus.PartialFill }
      else { o₁ with status := OrderStatus.Accepted }) = { o₁ with status := st } ∧
      st = (if 0 < o₁.filledQuantity then
              if o₁.remainingQuantity = 0 then OrderStatus.Filled
              else OrderStatus.PartialFill
            else OrderStatus.Accepted) := by
    by_cases h1 : 0 < o₁.filledQuantity
    · by_cases h2 : o₁.remainingQuantity = 0
      · exact ⟨OrderStatus.Filled, by rw [if_pos h1, if_pos h2],
          by rw [if_pos h1, if_pos h2]⟩
      · exact ⟨OrderStatus.PartialFill, by rw [if_pos h1, if_neg h2],
          by rw [if_pos h1, if_neg h2]⟩
    · exact ⟨OrderStatus.Accepted, by rw [if_neg h1], by rw [if_neg h1]⟩
  rw [hord] at hpo
  refine ⟨o₁, reg₁, ob₁, m₁, trades₁, st,
    (if 0 < (trades₁.length : Int) then
      { m₁ with tradesExecuted := m₁.tradesExecuted + (trades₁.length : Int),
                ordersMatched := m₁.ordersMatched + (trades₁.length : Int) + 1 }
     else { m₁ with tradesExecuted := m₁.tradesExecuted + (trades₁.length : Int) }),
    rfl, hst, ?_, ?_, ?_, ?_, ?_⟩
  · by_cases htc : 0 < (trades₁.length : Int)
    · rw [if_pos htc]
    · rw [if_neg htc]
  · by_cases htc : 0 < (trades₁.length : Int)
    · rw [if_pos htc]
    · rw [if_neg htc]
  · by_cases htc : 0 < (trades₁.length : Int)
    · rw [if_pos htc]
    · rw [if_neg htc]
  · by_cases htc : 0 < (trades₁.length : Int)
    · rw [if_pos htc]
    · rw [if_neg htc]
  · by_cases hr : 0 < o₁.remainingQuantity
    · rw [if_pos (show (0:Int) < ({ o₁ with status := st } : Order).remainingQuantity
        from hr)] at hpo
      by_cases hmt : o₁.otype = OrderType.Market
      · rw [if_pos (show ({ o₁ with status := st } : Order).otype = OrderType.Market
          from hmt)] at hpo
        simp only [Prod.mk.injEq] at hpo
        obtain ⟨rfl, rfl⟩ := hpo
        exact Or.inl ⟨hr, hmt, rfl, rfl⟩
      · rw [if_neg (show ¬ ({ o₁ with status := st } : Order).otype = OrderType.Market
          from hmt)] at hpo
        simp only [Prod.mk.injEq] at hpo
        obtain ⟨rfl, rfl⟩ := hpo
        exact Or.inr (Or.inl ⟨hr, hmt, rfl, rfl⟩)
    · rw [if_neg (show ¬ (0:Int) < ({ o₁ with status := st } : Order).remainingQuantity
        from hr)] at hpo
      simp only [Prod.mk.injEq] at hpo
      obtain ⟨rfl, rfl⟩ := hpo
      exact Or.inr (Or.inr ⟨hr, rfl, rfl⟩)

/-! ## Small book facts and the result-assembly lemma -/

theorem BookWF_new (reg : Registry) (sym : String) : BookWF reg (NewOrderBook sym) := by
  simp [BookWF, NewOrderBook, treeKeysSorted, sideWF, bookIds, bookSideIds]

theorem NotCrossed_new (sym : String) : NotCrossed (NewOrderBook sym) := by
  intro bb ba h1 _
  simp [bestBidPrice, NewOrderBook] at h1

theorem priceCrosses_limit_false {side : Side} {a b : Int}
    (h : priceCrosses .Limit side a b = false) :
    (side = .Buy → a < b) ∧ (side = .Sell → b < a) := by
  cases side with
  | Buy =>
    simp only [priceCrosses, if_pos rfl] at h
    refine ⟨fun _ => ?_, fun hc => nomatch hc⟩
    simpa using h
  | Sell =>
    simp only [priceCrosses] at h
    rw [if_neg (by simp)] at h
    refine ⟨(fun hc => nomatch hc), fun _ => ?_⟩
    simpa using h

theorem processRest_assemble {e3 : Engine} {o : Order} {ob0 obN : OrderBook}
    {reg₁ : Registry} {v : Order} {mN : Metrics} {e' : Engine}
    (hnd : (e3.orderBooks.map Prod.fst).Nodup)
    (hbk : ∀ b ∈ e3.orderBooks, b.2.symbol = b.1 ∧ BookWF e3.allOrders b.2)
    (hncb : ∀ b ∈ e3.orderBooks, NotCrossed b.2)
    (hload0 : assocLoad e3.orderBooks o.symbol = some ob0)
    (hwf0 : BookWF e3.allOrders ob0)
    (hsym0 : ob0.symbol = o.symbol)
    (hfreshall : ∀ b ∈ e3.orderBooks, o.id ∉ bookIds b.2)
    (hregagree : ∀ id1, id1 ≠ o.id → id1 ∉ bookSideIds (oppTree ob0 o.side) →
        assocLoad (assocStore reg₁ o.id v) id1 = assocLoad e3.allOrders id1)
    (hwfN : BookWF (assocStore reg₁ o.id v) obN)
    (hncN : NotCrossed obN)
    (hsymN : obN.symbol = o.symbol)
    (hRegN : RegWF (assocStore reg₁ o.id v))
    (hcnt : e3.metrics.ordersInBook = totalResting e3)
    (hoib : mN.ordersInBook + ((bookIds ob0).length : Int) =
        e3.metrics.ordersInBook + ((bookIds obN).length : Int))
    (hOB : e'.orderBooks = assocStore e3.orderBooks o.symbol obN)
    (hRE : e'.allOrders = assocStore reg₁ o.id v)
    (hME : e'.metrics = mN) :
    (e'.orderBooks.map Prod.fst).Nodup ∧
    (∀ b ∈ e'.orderBooks, b.2.symbol = b.1 ∧ BookWF e'.allOrders b.2) ∧
    (∀ b ∈ e'.orderBooks, NotCrossed b.2) ∧
    RegWF e'.allOrders ∧
    e'.metrics.ordersInBook = totalResting e' := by
  obtain ⟨hw1, hw2, hw3⟩ :=
    books_store_wf hnd hbk hncb hload0 hwf0 hsym0 hfreshall hregagree hwfN hncN hsymN
  have htr : totalResting e' =
      totalResting e3 - ((bookIds ob0).length : Int) + ((bookIds obN).length : Int) := by
    unfold totalResting
    rw [hOB]
    exact totalResting_books_store _ _ _ _ hnd hload0
  refine ⟨?_, ?_, ?_, ?_, ?_⟩
  · rw [hOB]
    exact hw3
  · rw [hOB, hRE]
    exact hw1
  · rw [hOB]
    exact hw2
  · rw [hRE]
    exact hRegN
  · rw [hME, htr]
    omega

/-! ## `processOrderRest`: invariant preservation -/

theorem processOrderRest_step {e3 : Engine} {o : Order} {ob0 : OrderBook}
    (hnd : (e3.orderBooks.map Prod.fst).Nodup)
    (hbk : ∀ b ∈ e3.orderBooks, b.2.symbol = b.1 ∧ BookWF e3.allOrders b.2)
    (hncb : ∀ b ∈ e3.orderBooks, NotCrossed b.2)
    (hreg : RegWF e3.allOrders)
    (hwf0 : BookWF e3.allOrders ob0)
    (hnc0 : NotCrossed ob0)
    (hsym0 : ob0.symbol = o.symbol)
    (hload0 : assocLoad e3.orderBooks o.symbol = some ob0)
    (hcnt : e3.metrics.ordersInBook = totalResting e3)
    (hfreshall : ∀ b ∈ e3.orderBooks, o.id ∉ bookIds b.2) :
    ∀ r e', e3.processOrderRest o ob0 = (r, e') →
      (e'.orderBooks.map Prod.fst).Nodup ∧
      (∀ b ∈ e'.orderBooks, b.2.symbol = b.1 ∧ BookWF e'.allOrders b.2) ∧
      (∀ b ∈ e'.orderBooks, NotCrossed b.2) ∧
      RegWF e'.allOrders ∧
      e'.metrics.ordersInBook = totalResting e' ∧
      (∀ id1 ov₁ ov₂, assocLoad e3.allOrders id1 = some ov₁ →
        assocLoad e'.allOrders id1 = some ov₂ → id1 ≠ o.id → OrderEvolves ov₁ ov₂) ∧
      (∀ id1, (assocLoad e'.allOrders id1).isSome →
        (assocLoad e3.allOrders id1).isSome ∨ id1 = o.id) ∧
      (QuantWF e3.allOrders →
        o.filledQuantity + o.remainingQuantity = o.originalQuantity →
        0 ≤ o.remainingQuantity → 0 ≤ o.filledQuantity →
        QuantWF e'.allOrders) := by
  intro r e' hpo
  obtain ⟨o₁, reg₁, ob₁, m₁, trades₁, st, mF, hstep, hst, hmF1, hmF2, hmF3, hmF4, hdisj⟩ :=
    processOrderRest_cases e3 o ob0 r e' hpo
  obtain ⟨⟨hid₁, hsym₁, hside₁, hot₁, hpr₁, horig₁, hremle, hremnn, hfill₁⟩,
      ⟨hwf₁, hreg₁, hbsym₁, hsame₁, ⟨consumed, hcons⟩, hkeys₁⟩,
      ⟨hag₁, hsome₁, hevo₁⟩, hbal, hexit⟩ :
      (o₁.id = o.id ∧ o₁.symbol = o.symbol ∧ o₁.side = o.side ∧ o₁.otype = o.otype ∧
       o₁.price = o.price ∧ o₁.originalQuantity = o.originalQuantity ∧
       o₁.remainingQuantity ≤ o.remainingQuantity ∧
       (0 ≤ o.remainingQuantity → 0 ≤ o₁.remainingQuantity) ∧
       o₁.filledQuantity = o.filledQuantity +
         (o.remainingQuantity - o₁.remainingQuantity)) ∧
      (BookWF reg₁ ob₁ ∧ RegWF reg₁ ∧ ob₁.symbol = ob0.symbol ∧
       sameTree ob₁ o.side = sameTree ob0 o.side ∧
       (∃ consumed, bookSideIds (oppTree ob0 o.side) =
          consumed ++ bookSideIds (oppTree ob₁ o.side)) ∧
       (∀ k ∈ (oppTree ob₁ o.side).map Prod.fst,
          k ∈ (oppTree ob0 o.side).map Prod.fst)) ∧
      ((∀ id1, id1 ∉ bookSideIds (oppTree ob0 o.side) →
          assocLoad reg₁ id1 = assocLoad e3.allOrders id1) ∧
       (∀ id1, (assocLoad reg₁ id1).isSome ↔ (assocLoad e3.allOrders id1).isSome) ∧
       (∀ id1 ov₁ ov₂, assocLoad e3.allOrders id1 = some ov₁ →
          assocLoad reg₁ id1 = some ov₂ → OrderEvolves ov₁ ov₂)) ∧
      (m₁.ordersInBook + ((bookSideIds (oppTree ob0 o.side)).length : Int) =
        e3.metrics.ordersInBook + ((bookSideIds (oppTree ob₁ o.side)).length : Int)) ∧
      (0 < o₁.remainingQuantity →
        oppTree ob₁ o.side = [] ∨
        ∃ best, getBestOpp ob₁ reg₁ o.side = some best ∧
          priceCrosses o.otype o.side o.price best.price = false) := by
    by_cases hrem0 : 0 ≤ o.remainingQuantity
    · obtain ⟨⟨a1, a2, a3, a4, a5, a6, -, a8, a9, a10⟩, -, hC, hD, ⟨-, -, -, -, e5⟩, -, hG⟩ :=
        matchLoop_spec o.remainingQuantity.toNat o.otype o e3.allOrders ob0 e3.metrics []
          hwf0 hreg hrem0 (le_refl _) o₁ reg₁ ob₁ m₁ trades₁ hstep
      refine ⟨⟨a1, a2, a3, a4, a5, a6, a9, fun _ => a8, a10⟩, hC, hD, e5, ?_⟩
      intro hpos
      rcases hG with h | h | h
      · omega
      · exact Or.inl h
      · exact Or.inr h
    · have hz : o.remainingQuantity.toNat = 0 := by omega
      rw [hz, matchLoop_zero] at hstep
      simp only [Prod.mk.injEq] at hstep
      obtain ⟨h1, h2, h3, h4, h5⟩ := hstep
      subst h1
      subst h2
      subst h3
      subst h4
      subst h5
      refine ⟨⟨rfl, rfl, rfl, rfl, rfl, rfl, le_refl _, fun h => h, by omega⟩,
        ⟨hwf0, hreg, rfl, rfl, ⟨[], by simp⟩, fun k hk => hk⟩,
        ⟨fun _ _ => rfl, fun _ => Iff.rfl,
          fun id1 ov₁ ov₂ ha hb => Or.inl (by rw [ha] at hb; exact (Option.some_inj.1 hb).symm)⟩,
        by omega, ?_⟩
      intro hpos
      omega
  -- shared facts
  have hsymkey : ob₁.symbol = o.symbol := hbsym₁.trans hsym0
  have hfresh0 : o.id ∉ bookIds ob0 := hfreshall _ (assocLoad_mem hload0)
  have hobsub : ∀ x ∈ bookIds ob₁, x ∈ bookIds ob0 := by
    intro x hx
    rw [(bookIds_perm ob₁ o.side).mem_iff] at hx
    rw [(bookIds_perm ob0 o.side).mem_iff]
    rcases List.mem_append.1 hx with h | h
    · refine List.mem_append_left _ ?_
      rw [hcons]
      exact List.mem_append_right _ h
    · refine List.mem_append_right _ ?_
      rw [hsame₁] at h
      exact h
  have hfresh₁ : o.id ∉ bookIds ob₁ := fun hc => hfresh0 (hobsub _ hc)
  have hnc₁ : NotCrossed ob₁ := NotCrossed_after_loop hwf0 hnc0 hsame₁ hkeys₁
  have hlen01 : ((bookIds ob0).length : Int) + ((bookSideIds (oppTree ob₁ o.side)).length : Int)
      = ((bookIds ob₁).length : Int) + ((bookSideIds (oppTree ob0 o.side)).length : Int) := by
    have p0 := (bookIds_perm ob0 o.side).length_eq
    have p1 := (bookIds_perm ob₁ o.side).length_eq
    rw [List.length_append] at p0 p1
    rw [hsame₁] at p1
    have hc : (bookSideIds (oppTree ob0 o.side)).length
        = consumed.length + (bookSideIds (oppTree ob₁ o.side)).length := by
      rw [hcons, List.length_append]
    omega
  have hagN : ∀ (v : Order) id1, id1 ≠ o.id → id1 ∉ bookSideIds (oppTree ob0 o.side) →
      assocLoad (assocStore reg₁ o.id v) id1 = assocLoad e3.allOrders id1 := by
    intro v id1 hne hnopp
    rw [assocLoad_store_ne _ _ _ _ hne]
    exact hag₁ id1 hnopp
  have hwfN₁ : ∀ (v : Order), BookWF (assocStore reg₁ o.id v) ob₁ := by
    intro v
    refine BookWF_reg_agree hwf₁ ?_
    intro i hi
    exact assocLoad_store_ne _ _ _ _ (fun hc => hfresh₁ (hc ▸ hi))
  have hRegN : ∀ (v : Order), v.id = o.id → RegWF (assocStore reg₁ o.id v) := by
    intro v hv
    constructor
    · intro en hen
      rcases mem_assocStore hen with h | h
      · exact hreg₁.1 en h
      · rw [h]
        exact hv
    · exact assocStore_nodup _ _ _ hreg₁.2
  have hmono : ∀ (v : Order) id1 ov₁ ov₂,
      assocLoad e3.allOrders id1 = some ov₁ →
      assocLoad (assocStore reg₁ o.id v) id1 = some ov₂ → id1 ≠ o.id →
      OrderEvolves ov₁ ov₂ := by
    intro v id1 ov₁ ov₂ h1 h2 hne
    rw [assocLoad_store_ne _ _ _ _ hne] at h2
    exact hevo₁ id1 ov₁ ov₂ h1 h2
  have hsomeN : ∀ (v : Order) id1, (assocLoad (assocStore reg₁ o.id v) id1).isSome →
      (assocLoad e3.allOrders id1).isSome ∨ id1 = o.id := by
    intro v id1 h
    by_cases hne : id1 = o.id
    · exact Or.inr hne
    · rw [assocLoad_store_ne _ _ _ _ hne] at h
      exact Or.inl ((hsome₁ id1).1 h)
  have hquantN : ∀ (v : Order), v.filledQuantity = o₁.filledQuantity →
      v.remainingQuantity = o₁.remainingQuantity →
      v.originalQuantity = o₁.originalQuantity →
      QuantWF e3.allOrders →
      o.filledQuantity + o.remainingQuantity = o.originalQuantity →
      0 ≤ o.remainingQuantity → 0 ≤ o.filledQuantity →
      QuantWF (assocStore reg₁ o.id v) := by
    intro v hvf hvr hvo hq hsh hr0 hf0
    intro en hen
    rcases mem_assocStore hen with h | h
    · have hload : assocLoad reg₁ en.1 = some en.2 := (mem_iff_load hreg₁.2 en).1 h
      have hsome : (assocLoad e3.allOrders en.1).isSome :=
        (hsome₁ en.1).1 (by rw [hload]; rfl)
      obtain ⟨ov₁, hov₁⟩ := Option.isSome_iff_exists.1 hsome
      have hv₁ := hq (en.1, ov₁) (assocLoad_mem hov₁)
      have hv₁' : ov₁.filledQuantity + ov₁.remainingQuantity = ov₁.originalQuantity ∧
          0 ≤ ov₁.remainingQuantity ∧ 0 ≤ ov₁.filledQuantity := hv₁
      rcases hevo₁ en.1 ov₁ en.2 hov₁ hload with heq | hev
      · rw [heq]
        exact hv₁'
      · obtain ⟨-, -, -, -, -, horig, hr, hrlt, hfle, hsum⟩ := hev
        refine ⟨?_, hr, ?_⟩
        · rw [horig]
          omega
        · omega
    · have h2 : en.2 = v := by rw [h]
      rw [h2, hvf, hvr, hvo]
      have h3 : en.2.originalQuantity = v.originalQuantity := by rw [h2]
      refine ⟨?_, ?_, ?_⟩
      · omega
      · omega
      · omega
  -- the three terminal shapes share this finisher when the book written back is ob₁
  have hfinish : ∀ (v : Order) mN, v.id = o.id →
      v.filledQuantity = o₁.filledQuantity →
      v.remainingQuantity = o₁.remainingQuantity →
      v.originalQuantity = o₁.originalQuantity →
      mN.ordersInBook = m₁.ordersInBook →
      e'.orderBooks = assocStore e3.orderBooks o.symbol ob₁ →
      e'.allOrders = assocStore reg₁ o.id v →
      e'.metrics = mN →
      (e'.orderBooks.map Prod.fst).Nodup ∧
      (∀ b ∈ e'.orderBooks, b.2.symbol = b.1 ∧ BookWF e'.allOrders b.2) ∧
      (∀ b ∈ e'.orderBooks, NotCrossed b.2) ∧
      RegWF e'.allOrders ∧
      e'.metrics.ordersInBook = totalResting e' ∧
      (∀ id1 ov₁ ov₂, assocLoad e3.allOrders id1 = some ov₁ →
        assocLoad e'.allOrders id1 = some ov₂ → id1 ≠ o.id → OrderEvolves ov₁ ov₂) ∧
      (∀ id1, (assocLoad e'.allOrders id1).isSome →
        (assocLoad e3.allOrders id1).isSome ∨ id1 = o.id) ∧
      (QuantWF e3.allOrders →
        o.filledQuantity + o.remainingQuantity = o.originalQuantity →
        0 ≤ o.remainingQuantity → 0 ≤ o.filledQuantity →
        QuantWF e'.allOrders) := by
    intro v mN hvid hvf hvr hvo hmNoib hOB hRE hME
    obtain ⟨k1, k2, k3, k4, k5⟩ := processRest_assemble hnd hbk hncb hload0 hwf0 hsym0
      hfreshall (hagN v) (hwfN₁ v) hnc₁ hsymkey (hRegN v hvid) hcnt
      (by rw [hmNoib]; omega) hOB hRE hME
    refine ⟨k1, k2, k3, k4, k5, ?_, ?_, ?_⟩
    · intro id1 ov₁ ov₂ h1 h2 hne
      rw [hRE] at h2
      exact hmono v id1 ov₁ ov₂ h1 h2 hne
    · intro id1 h
      rw [hRE] at h
      exact hsomeN v id1 h
    · intro hq hsh hr0 hf0
      rw [hRE]
      exact hquantN v hvf hvr hvo hq hsh hr0 hf0
  rcases hdisj with ⟨hr1, hmt, hrfl, hefl⟩ | ⟨hr1, hmt, hrfl, hefl⟩ | ⟨hr1, hrfl, hefl⟩
  · -- market residue: write back ob₁, store the incoming with its final status
    refine hfinish { o₁ with status := st } mF hid₁ rfl rfl rfl hmF1 ?_ ?_ ?_
    · rw [hefl, hsymkey]
      rfl
    · rw [hefl, hid₁]
      rfl
    · rw [hefl]
      rfl
  · -- limit residue: rest the incoming order in the book
    have hvid : ({ o₁ with status := st } : Order).id = o.id := hid₁
    have hfreshN : ({ o₁ with status := st } : Order).id ∉ bookIds ob₁ :=
      fun hc => hfresh₁ (hvid ▸ hc)
    have hregloadN : assocLoad (assocStore reg₁ o.id { o₁ with status := st })
        ({ o₁ with status := st } : Order).id = some { o₁ with status := st } := by
      rw [hvid]
      exact assocLoad_store_self _ _ _
    have hremN : 1 ≤ ({ o₁ with status := st } : Order).remainingQuantity := by
      show 1 ≤ o₁.remainingQuantity
      omega
    have hsymN' : ({ o₁ with status := st } : Order).symbol = ob₁.symbol := by
      show o₁.symbol = ob₁.symbol
      rw [hsym₁, hsymkey]
    obtain ⟨hwf₂, hsym₂, hlen₂, hmem₂, hbuy₂, hsell₂⟩ :=
      BookWF_addOrder (hwfN₁ { o₁ with status := st }) hfreshN hregloadN hremN hsymN'
    have hlim : o.otype = OrderType.Limit := by
      rw [← hot₁]
      cases h2 : o₁.otype with
      | Market => exact absurd h2 hmt
      | Limit => rfl
    have hncN2 : NotCrossed (ob₁.AddOrder { o₁ with status := st }) := by
      have hbound := hexit hr1
      cases hsd : o.side with
      | Buy =>
        have hvside : ({ o₁ with status := st } : Order).side = Side.Buy := by
          show o₁.side = Side.Buy
          rw [hside₁, hsd]
        obtain ⟨hasks₂, hbb₂⟩ := hbuy₂ hvside
        intro bb ba h1 h2
        unfold bestAskPrice at h2
        rw [hasks₂] at h2
        have hne₁ : oppTree ob₁ o.side ≠ [] := by
          rw [hsd]
          show ob₁.asks ≠ []
          intro hc
          rw [hc] at h2
          simp at h2
        rcases hbound with hemp | ⟨best, hbest, hcross⟩
        · exact absurd hemp hne₁
        · obtain ⟨p₀, hp₀, hbp⟩ := bestOpp_price_head hwf₁ hne₁ hbest
          have hp₀' : ob₁.asks.head?.map Prod.fst = some p₀ := by
            have he : oppTree ob₁ o.side = ob₁.asks := by rw [hsd]; rfl
            rw [he] at hp₀
            exact hp₀
          rw [hp₀'] at h2
          have hpba : p₀ = ba := Option.some_inj.1 h2
          rw [hlim, hsd] at hcross
          have hcross' : o.price < best.price := (priceCrosses_limit_false hcross).1 rfl
          rcases hbb₂ bb h1 with hbbo | hbb₁
          · have hbb' : bb = o.price := by
              rw [hbbo]
              show o₁.price = o.price
              exact hpr₁
            omega
          · have hba₁ : bestAskPrice ob₁ = some ba := by
              unfold bestAskPrice
              rw [hp₀', hpba]
            have := hnc₁ bb ba hbb₁ hba₁
            exact this
      | Sell =>
        have hvside : ({ o₁ with status := st } : Order).side = Side.Sell := by
          show o₁.side = Side.Sell
          rw [hside₁, hsd]
        obtain ⟨hbids₂, hba₂⟩ := hsell₂ hvside
        intro bb ba h1 h2
        unfold bestBidPrice at h1
        rw [hbids₂] at h1
        have hne₁ : oppTree ob₁ o.side ≠ [] := by
          rw [hsd]
          show ob₁.bids ≠ []
          intro hc
          rw [hc] at h1
          simp at h1
        rcases hbound with hemp | ⟨best, hbest, hcross⟩
        · exact absurd hemp hne₁
        · obtain ⟨p₀, hp₀, hbp⟩ := bestOpp_price_head hwf₁ hne₁ hbest
          have hp₀' : ob₁.bids.head?.map Prod.fst = some p₀ := by
            have he : oppTree ob₁ o.side = ob₁.bids := by rw [hsd]; rfl
            rw [he] at hp₀
            exact hp₀
          rw [hp₀'] at h1
          have hpbb : p₀ = bb := Option.some_inj.1 h1
          rw [hlim, hsd] at hcross
          have hcross' : best.price < o.price := (priceCrosses_limit_false hcross).2 rfl
          rcases hba₂ ba h2 with hbao | hba₁
          · have hba' : ba = o.price := by
              rw [hbao]
              show o₁.price = o.price
              exact hpr₁
            omega
          · have hbb₁ : bestBidPrice ob₁ = some bb := by
              unfold bestBidPrice
              rw [hp₀', hpbb]
            exact hnc₁ bb ba hbb₁ hba₁
    have hsymN2 : (ob₁.AddOrder { o₁ with status := st }).symbol = o.symbol := by
      rw [hsym₂, hsymkey]
    have hOB : e'.orderBooks =
        assocStore e3.orderBooks o.symbol (ob₁.AddOrder { o₁ with status := st }) := by
      rw [hefl, hsym₂, hsymkey]
      rfl
    have hRE : e'.allOrders = assocStore reg₁ o.id { o₁ with status := st } := by
      rw [hefl, hid₁]
      rfl
    have hME : e'.metrics = { mF with ordersInBook := mF.ordersInBook + 1 } := by
      rw [hefl]
      rfl
    obtain ⟨k1, k2, k3, k4, k5⟩ := processRest_assemble hnd hbk hncb hload0 hwf0 hsym0
      hfreshall (hagN { o₁ with status := st }) hwf₂ hncN2 hsymN2
      (hRegN { o₁ with status := st } hvid) hcnt
      (by
        have hm : ({ mF with ordersInBook := mF.ordersInBook + 1 } : Metrics).ordersInBook
            = mF.ordersInBook + 1 := rfl
        rw [hm, hmF1, hlen₂]
        omega) hOB hRE hME
    refine ⟨k1, k2, k3, k4, k5, ?_, ?_, ?_⟩
    · intro id1 ov₁ ov₂ h1 h2 hne
      rw [hRE] at h2
      exact hmono _ id1 ov₁ ov₂ h1 h2 hne
    · intro id1 h
      rw [hRE] at h
      exact hsomeN _ id1 h
    · intro hq hsh hr0 hf0
      rw [hRE]
      exact hquantN _ rfl rfl rfl hq hsh hr0 hf0
  · -- fully filled (or non-positive residue): write back ob₁, store with Filled status
    refine hfinish { o₁ with status := OrderStatus.Filled } mF hid₁ rfl rfl rfl hmF1 ?_ ?_ ?_
    · rw [hefl, hsymkey]
      rfl
    · rw [hefl, hid₁]
      rfl
    · rw [hefl]
      rfl

/-! ## `getOrderBook` and `ProcessOrder`: invariant preservation -/

theorem getOrderBook_spec {e : Engine} {sym : String}
    (hnd : (e.orderBooks.map Prod.fst).Nodup)
    (hbk : ∀ b ∈ e.orderBooks, b.2.symbol = b.1 ∧ BookWF e.allOrders b.2) :
    ∀ ob e', e.getOrderBook sym = (ob, e') →
      e'.allOrders = e.allOrders ∧
      e'.metrics = e.metrics ∧
      ob.symbol = sym ∧
      BookWF e.allOrders ob ∧
      assocLoad e'.orderBooks sym = some ob ∧
      (e'.orderBooks.map Prod.fst).Nodup ∧
      (∀ b ∈ e'.orderBooks, b.2.symbol = b.1 ∧ BookWF e.allOrders b.2) ∧
      (∀ b ∈ e'.orderBooks, b ∈ e.orderBooks ∨ b = (sym, NewOrderBook sym)) ∧
      totalResting e' = totalResting e ∧
      (∀ b ∈ e.orderBooks, b ∈ e'.orderBooks) := by
  intro ob e' hgb
  unfold Engine.getOrderBook at hgb
  cases hl : assocLoad e.orderBooks sym with
  | some ob0 =>
    rw [hl] at hgb
    simp only [Prod.mk.injEq] at hgb
    obtain ⟨rfl, rfl⟩ := hgb
    have hmem := assocLoad_mem hl
    exact ⟨rfl, rfl, (hbk _ hmem).1, (hbk _ hmem).2, hl, hnd, hbk,
      fun b hb => Or.inl hb, rfl, fun b hb => hb⟩
  | none =>
    rw [hl] at hgb
    simp only [Prod.mk.injEq] at hgb
    obtain ⟨rfl, rfl⟩ := hgb
    have hnotin : sym ∉ e.orderBooks.map Prod.fst := (assocLoad_eq_none _ _).1 hl
    refine ⟨rfl, rfl, rfl, BookWF_new _ _, ?_, ?_, ?_, ?_, ?_,
      fun b hb => List.mem_append_left _ hb⟩
    · show assocLoad (e.orderBooks ++ [(sym, NewOrderBook sym)]) sym = _
      rw [assocLoad_append, hl]
      simp [assocLoad]
    · show ((e.orderBooks ++ [(sym, NewOrderBook sym)]).map Prod.fst).Nodup
      rw [List.map_append, List.nodup_append]
      refine ⟨hnd, by simp, ?_⟩
      intro a ha hb
      simp only [List.map_cons, List.map_nil, List.mem_singleton] at hb
      subst hb
      exact hnotin ha
    · intro b hb
      rcases List.mem_append.1 hb with h | h
      · exact hbk b h
      · simp only [List.mem_singleton] at h
        subst h
        exact ⟨rfl, BookWF_new _ _⟩
    · intro b hb
      rcases List.mem_append.1 hb with h | h
      · exact Or.inl h
      · simp only [List.mem_singleton] at h
        exact Or.inr h
    · show totalResting { e with orderBooks := e.orderBooks ++ [(sym, NewOrderBook sym)] } = _
      unfold totalResting
      simp [NewOrderBook, bookIds, bookSideIds]

theorem ProcessOrder_step {e : Engine} {o : Order}
    (hs : StructWF e)
    (hnc : NotCrossedAll e)
    (hcnt : e.metrics.ordersInBook = totalResting e)
    (hfresh : assocLoad e.allOrders o.id = none) :
    ∀ r e', e.ProcessOrder o = (r, e') →
      StructWF e' ∧ NotCrossedAll e' ∧
      e'.metrics.ordersInBook = totalResting e' ∧
      (∀ id1 ov₁ ov₂, assocLoad e.allOrders id1 = some ov₁ →
        assocLoad e'.allOrders id1 = some ov₂ → OrderEvolves ov₁ ov₂) ∧
      (∀ id1, (assocLoad e'.allOrders id1).isSome →
        (assocLoad e.allOrders id1).isSome ∨ id1 = o.id) ∧
      (QuantWF e.allOrders → o.remainingQuantity = o.originalQuantity →
        o.filledQuantity = 0 → QuantWF e'.allOrders) := by
  intro r e' hpo
  obtain ⟨hnd, hbk, hreg⟩ := hs
  simp only [Engine.ProcessOrder] at hpo
  cases hv : o.Validate with
  | some err =>
    simp only [hv] at hpo
    obtain ⟨rfl, rfl⟩ := hpo
    refine ⟨⟨hnd, hbk, hreg⟩, hnc, hcnt, ?_, ?_, fun hq _ _ => hq⟩
    · intro id1 ov₁ ov₂ h1 h2
      have h2' : assocLoad e.allOrders id1 = some ov₂ := h2
      rw [h1] at h2'
      exact Or.inl (Option.some_inj.1 h2').symm
    · intro id1 h
      exact Or.inl h
  | none =>
    simp only [hv] at hpo
    have horig : 0 < o.originalQuantity := by
      unfold Order.Validate at hv
      by_cases h1 : o.otype = OrderType.Limit ∧ o.price ≤ 0
      · rw [if_pos h1] at hv
        cases hv
      · rw [if_neg h1] at hv
        by_cases h2 : o.originalQuantity ≤ 0
        · rw [if_pos h2] at hv
          cases hv
        · omega
    have hregagree0 : ∀ id1, id1 ≠ o.id →
        assocLoad (assocStore e.allOrders o.id o) id1 = assocLoad e.allOrders id1 :=
      fun id1 hne => assocLoad_store_ne _ _ _ _ hne
    have hfreshbook : ∀ b ∈ e.orderBooks, o.id ∉ bookIds b.2 := by
      intro b hb hc
      have := bookIds_load_isSome (hbk b hb).2 o.id hc
      rw [hfresh] at this
      cases this
    have hbk0 : ∀ b ∈ e.orderBooks, b.2.symbol = b.1 ∧
        BookWF (assocStore e.allOrders o.id o) b.2 := by
      intro b hb
      refine ⟨(hbk b hb).1, BookWF_reg_agree (hbk b hb).2 ?_⟩
      intro i hi
      exact hregagree0 i (fun hc => hfreshbook b hb (hc ▸ hi))
    have hreg0 : RegWF (assocStore e.allOrders o.id o) := by
      constructor
      · intro en hen
        rcases mem_assocStore hen with h | h
        · exact hreg.1 en h
        · rw [h]
      · exact assocStore_nodup _ _ _ hreg.2
    have hquant0 : QuantWF e.allOrders → o.remainingQuantity = o.originalQuantity →
        o.filledQuantity = 0 → QuantWF (assocStore e.allOrders o.id o) := by
      intro hq hsh hf0
      intro en hen
      rcases mem_assocStore hen with h | h
      · exact hq en h
      · have h2 : en.2 = o := by rw [h]
        rw [h2]
        omega
    rcases hgb : Engine.getOrderBook
        ((e.withMetrics { e.metrics with
            ordersReceived := e.metrics.ordersReceived + 1 }).withRegistry
          (assocStore (e.withMetrics { e.metrics with
            ordersReceived := e.metrics.ordersReceived + 1 }).allOrders o.id o))
        o.symbol with ⟨ob0, e3⟩
    obtain ⟨hg1, hg2, hg3, hg4, hg5, hg6, hg7, hg8, hg9, -⟩ :=
      @getOrderBook_spec ((e.withMetrics { e.metrics with
            ordersReceived := e.metrics.ordersReceived + 1 }).withRegistry
          (assocStore (e.withMetrics { e.metrics with
            ordersReceived := e.metrics.ordersReceived + 1 }).allOrders o.id o))
        o.symbol hnd hbk0 ob0 e3 hgb
    simp only [hgb] at hpo
    have he3reg : e3.allOrders = assocStore e.allOrders o.id o := hg1
    have hfreshall3 : ∀ b ∈ e3.orderBooks, o.id ∉ bookIds b.2 := by
      intro b hb
      rcases hg8 b hb with h | h
      · exact hfreshbook b h
      · rw [h]
        simp [NewOrderBook, bookIds, bookSideIds]
    have hncb3 : ∀ b ∈ e3.orderBooks, NotCrossed b.2 := by
      intro b hb
      rcases hg8 b hb with h | h
      · exact hnc b h
      · rw [h]
        exact NotCrossed_new _
    have hbk3 : ∀ b ∈ e3.orderBooks, b.2.symbol = b.1 ∧ BookWF e3.allOrders b.2 := by
      intro b hb
      rw [he3reg]
      exact hg7 b hb
    have hreg3 : RegWF e3.allOrders := by
      rw [he3reg]
      exact hreg0
    have hwf03 : BookWF e3.allOrders ob0 := by
      rw [he3reg]
      exact hg4
    have hnc03 : NotCrossed ob0 := by
      rcases hg8 _ (assocLoad_mem hg5) with h | h
      · exact hnc _ h
      · have h2 : ob0 = NewOrderBook o.symbol := congrArg Prod.snd h
        rw [h2]
        exact NotCrossed_new _
    have hcnt3 : e3.metrics.ordersInBook = totalResting e3 := by
      rw [hg2, hg9]
      exact hcnt
    have hmain : e3.processOrderRest o ob0 = (r, e') →
        StructWF e' ∧ NotCrossedAll e' ∧
        e'.metrics.ordersInBook = totalResting e' ∧
        (∀ id1 ov₁ ov₂, assocLoad e.allOrders id1 = some ov₁ →
          assocLoad e'.allOrders id1 = some ov₂ → OrderEvolves ov₁ ov₂) ∧
        (∀ id1, (assocLoad e'.allOrders id1).isSome →
          (assocLoad e.allOrders id1).isSome ∨ id1 = o.id) ∧
        (QuantWF e.allOrders → o.remainingQuantity = o.originalQuantity →
          o.filledQuantity = 0 → QuantWF e'.allOrders) := by
      intro hrest
      obtain ⟨k1, k2, k3, k4, k5, k6, k7, k8⟩ := processOrderRest_step hg6 hbk3 hncb3
        hreg3 hwf03 hnc03 hg3 hg5 hcnt3 hfreshall3 r e' hrest
      refine ⟨⟨k1, k2, k4⟩, k3, k5, ?_, ?_, ?_⟩
      · intro id1 ov₁ ov₂ h1 h2
        by_cases hne : id1 = o.id
        · rw [hne, hfresh] at h1
          cases h1
        · refine k6 id1 ov₁ ov₂ ?_ h2 hne
          rw [he3reg, hregagree0 id1 hne]
          exact h1
      · intro id1 h
        rcases k7 id1 h with h1 | h1
        · by_cases hne : id1 = o.id
          · exact Or.inr hne
          · rw [he3reg, hregagree0 id1 hne] at h1
            exact Or.inl h1
        · exact Or.inr h1
      · intro hq hsh hf0
        refine k8 ?_ (by omega) (by omega) (by omega)
        rw [he3reg]
        exact hquant0 hq hsh hf0
    by_cases hmt : o.otype = OrderType.Market
    · rw [if_pos hmt] at hpo
      by_cases hliq : ob0.CalculateLiquidity e3.allOrders o.side o.originalQuantity <
          o.originalQuantity
      · rw [if_pos hliq] at hpo
        obtain ⟨rfl, rfl⟩ := hpo
        have hregDload : ∀ id1, id1 ≠ o.id →
            assocLoad (assocDelete e3.allOrders o.id) id1 = assocLoad e.allOrders id1 := by
          intro id1 hne
          rw [assocLoad_delete_ne _ _ _ hne, he3reg, hregagree0 id1 hne]
        refine ⟨⟨hg6, ?_, ?_⟩, hncb3, hcnt3, ?_, ?_, ?_⟩
        · intro b hb
          refine ⟨(hbk3 b hb).1, BookWF_reg_agree (hbk3 b hb).2 ?_⟩
          intro i hi
          have hne : i ≠ o.id := fun hc => hfreshall3 b hb (hc ▸ hi)
          show assocLoad (assocDelete e3.allOrders o.id) i = _
          rw [assocLoad_delete_ne _ _ _ hne]
        · constructor
          · intro en hen
            exact hreg3.1 en (mem_assocDelete hen)
          · exact assocDelete_nodup _ _ hreg3.2
        · intro id1 ov₁ ov₂ h1 h2
          by_cases hne : id1 = o.id
          · rw [hne, hfresh] at h1
            cases h1
          · have h2' : assocLoad (assocDelete e3.allOrders o.id) id1 = some ov₂ := h2
            rw [hregDload id1 hne, h1] at h2'
            exact Or.inl (Option.some_inj.1 h2').symm
        · intro id1 h
          by_cases hne : id1 = o.id
          · exact Or.inr hne
          · have h' : (assocLoad (assocDelete e3.allOrders o.id) id1).isSome := h
            rw [hregDload id1 hne] at h'
            exact Or.inl h'
        · intro hq hsh hf0
          intro en hen
          have hen' : en ∈ e3.allOrders := mem_assocDelete hen
          rw [he3reg] at hen'
          exact hquant0 hq hsh hf0 en hen'
      · rw [if_neg hliq] at hpo
        exact hmain hpo
    · rw [if_neg hmt] at hpo
      exact hmain hpo

/-! ## Removing an arbitrary resting order (`CancelOrder`) -/

theorem NotCrossed_subset {reg : Registry} {ob ob2 : OrderBook}
    (hwf : BookWF reg ob) (hnc : NotCrossed ob)
    (hb : ∀ k ∈ ob2.bids.map Prod.fst, k ∈ ob.bids.map Prod.fst)
    (ha : ∀ k ∈ ob2.asks.map Prod.fst, k ∈ ob.asks.map Prod.fst) :
    NotCrossed ob2 := by
  intro bb ba h1 h2
  have hbb := hb bb (head_key_mem h1)
  have hba := ha ba (head_key_mem h2)
  obtain ⟨kb, hkb, hkble⟩ := sorted_head_min hwf.1 hbb
  obtain ⟨ka, hka, hkale⟩ := sorted_head_min hwf.2.1 hba
  have hk : kb < ka := hnc kb ka hkb hka
  have h1' : bb ≤ kb := by
    rcases hkble with rfl | h
    · exact le_refl _
    · exact le_of_lt ((cmpBids_lt_iff _ _).1 h)
  have h2' : ka ≤ ba := by
    rcases hkale with rfl | h
    · exact le_refl _
    · exact le_of_lt ((cmpAsks_lt_iff _ _).1 h)
  omega

theorem BookWF_remove_any {reg : Registry} {ob : OrderBook} {cid : String} {osnap : Order}
    (hwf : BookWF reg ob)
    (hin : assocLoad ob.orders cid = some osnap) :
    ∃ ob2, ob.RemoveOrder cid = (some osnap, ob2) ∧
      BookWF reg ob2 ∧
      ob2.symbol = ob.symbol ∧
      ((bookIds ob2).length : Int) = ((bookIds ob).length : Int) - 1 ∧
      (∀ x ∈ bookIds ob2, x ∈ bookIds ob) ∧
      cid ∉ bookIds ob2 ∧
      (∀ k ∈ ob2.bids.map Prod.fst, k ∈ ob.bids.map Prod.fst) ∧
      (∀ k ∈ ob2.asks.map Prod.fst, k ∈ ob.asks.map Prod.fst) := by
  obtain ⟨w1, w2, w3, w4, w5, w6, w7⟩ := hwf
  have hcidkeys : cid ∈ ob.orders.map Prod.fst :=
    (assocLoad_isSome ob.orders cid).1 (by rw [hin]; rfl)
  have hcidbook : cid ∈ bookIds ob := w7 cid hcidkeys
  have hdisj : List.Disjoint (bookSideIds ob.bids) (bookSideIds ob.asks) :=
    List.disjoint_of_nodup_append w5
  rcases List.mem_append.1 hcidbook with hbmem | hamem
  · -- resting on the bid side
    obtain ⟨pl, hpl, hid⟩ := mem_bookSideIds.1 hbmem
    obtain ⟨⟨osnap', hos', hosid', hosside', hosprice'⟩, -⟩ := (w3 pl hpl).2 cid hid
    rw [hin] at hos'
    obtain rfl : osnap = osnap' := Option.some_inj.1 hos'
    have hside : osnap.side = Side.Buy := hosside'
    have hget : treeGet cmpBids ob.bids osnap.price = some pl.2 := by
      rw [hosprice']
      exact treeGet_of_mem_sorted cmpBids_eq_iff cmpBids_gt_flip hpl w1
    have hndb : (bookSideIds ob.bids).Nodup := w5.of_append_left
    obtain ⟨hes, ⟨pre, post, hdecomp, hres⟩, hene, hentries, hkeys⟩ :=
      levelErase_spec cmpBids_eq_iff hget hid w1 hndb (fun pl' hpl' => (w3 pl' hpl').1)
    have hcidpre : cid ∉ pre ∧ cid ∉ post := by
      have := hdecomp ▸ hndb
      constructor
      · intro hc
        exact (List.disjoint_of_nodup_append this) hc (by simp)
      · intro hc
        exact (List.nodup_cons.1 this.of_append_right).1 hc
    have htrans : ∀ (s : Side) (p : Int) id1, id1 ≠ cid → entryWF reg ob s p id1 →
        entryWF reg { ob with
          orders := assocDelete ob.orders cid
          bids := levelErase cmpBids ob.bids osnap.price cid
          asks := ob.asks } s p id1 := by
      intro s p id1 hne hent
      obtain ⟨⟨os, h1, h2, h3, h4⟩, ⟨o₁, g1, g2, g3, g4, g5, g6⟩⟩ := hent
      refine ⟨⟨os, ?_, h2, h3, h4⟩, ⟨o₁, g1, g2, g3, g4, g5, g6⟩⟩
      show assocLoad (assocDelete ob.orders cid) id1 = some os
      rw [assocLoad_delete_ne _ _ _ hne]
      exact h1
    refine ⟨{ ob with
        orders := assocDelete ob.orders cid
        bids := levelErase cmpBids ob.bids osnap.price cid
        asks := ob.asks },
      by rw [RemoveOrder_eq hin]; simp [hside], ⟨hes, w2, ?_, ?_, ?_, ?_, ?_⟩,
      rfl, ?_, ?_, ?_, ?_, fun k hk => hk⟩
    · intro pl2 hpl2
      refine ⟨hene pl2 hpl2, ?_⟩
      intro id1 hid1
      obtain ⟨pl', hpl', hpl'1, hid1'⟩ := hentries pl2 hpl2 id1 hid1
      have hne : id1 ≠ cid := by
        intro hc
        subst hc
        have h1 : id1 ∈ bookSideIds (levelErase cmpBids ob.bids osnap.price id1) :=
          mem_bookSideIds.2 ⟨pl2, hpl2, hid1⟩
        rw [hres] at h1
        rcases List.mem_append.1 h1 with h | h
        · exact hcidpre.1 h
        · exact hcidpre.2 h
      have hold := (w3 pl' hpl').2 id1 hid1'
      rw [hpl'1] at hold
      exact htrans _ _ id1 hne hold
    · intro pl2 hpl2
      refine ⟨(w4 pl2 hpl2).1, ?_⟩
      intro id1 hid1
      have hne : id1 ≠ cid := by
        intro hc
        subst hc
        exact hdisj hbmem (mem_bookSideIds.2 ⟨pl2, hpl2, hid1⟩)
      exact htrans _ _ id1 hne ((w4 pl2 hpl2).2 id1 hid1)
    · show (bookSideIds (levelErase cmpBids ob.bids osnap.price cid) ++
          bookSideIds ob.asks).Nodup
      rw [hres]
      refine List.Nodup.sublist ?_ (by
        have w5' : (bookSideIds ob.bids ++ bookSideIds ob.asks).Nodup := w5
        rw [hdecomp] at w5'
        exact w5')
      refine List.Sublist.append ?_ (List.Sublist.refl _)
      exact List.Sublist.append (List.Sublist.refl _) ((List.Sublist.refl _).cons _)
    · show ((assocDelete ob.orders cid).map Prod.fst).Nodup
      exact assocDelete_nodup _ _ w6
    · intro id1 hid1
      have hid1' : id1 ∈ (assocDelete ob.orders cid).map Prod.fst := hid1
      rw [assocDelete_map_fst] at hid1'
      have hne : id1 ≠ cid := fun hc =>
        ((List.Nodup.mem_erase_iff w6).1 hid1').1 (hc ▸ rfl)
      have hold : id1 ∈ bookIds ob := w7 id1 (List.mem_of_mem_erase hid1')
      show id1 ∈ bookSideIds (levelErase cmpBids ob.bids osnap.price cid) ++
        bookSideIds ob.asks
      rcases List.mem_append.1 hold with h | h
      · refine List.mem_append_left _ ?_
        rw [hres]
        rw [hdecomp] at h
        rcases List.mem_append.1 h with h' | h'
        · exact List.mem_append_left _ h'
        · rcases List.mem_cons.1 h' with h'' | h''
          · exact absurd h'' hne
          · exact List.mem_append_right _ h''
      · exact List.mem_append_right _ h
    · show ((bookSideIds (levelErase cmpBids ob.bids osnap.price cid) ++
          bookSideIds ob.asks).length : Int) = _
      rw [hres]
      show _ = ((bookSideIds ob.bids ++ bookSideIds ob.asks).length : Int) - 1
      rw [hdecomp]
      simp only [List.length_append, List.length_cons]
      push_cast
      omega
    · intro x hx
      have hx' : x ∈ bookSideIds (levelErase cmpBids ob.bids osnap.price cid) ++
          bookSideIds ob.asks := hx
      show x ∈ bookSideIds ob.bids ++ bookSideIds ob.asks
      rcases List.mem_append.1 hx' with h | h
      · refine List.mem_append_left _ ?_
        rw [hres] at h
        rw [hdecomp]
        rcases List.mem_append.1 h with h' | h'
        · exact List.mem_append_left _ h'
        · exact List.mem_append_right _ (List.mem_cons_of_mem _ h')
      · exact List.mem_append_right _ h
    · intro hc
      have hc' : cid ∈ bookSideIds (levelErase cmpBids ob.bids osnap.price cid) ++
          bookSideIds ob.asks := hc
      rcases List.mem_append.1 hc' with h | h
      · rw [hres] at h
        rcases List.mem_append.1 h with h' | h'
        · exact hcidpre.1 h'
        · exact hcidpre.2 h'
      · exact hdisj hbmem h
    · exact hkeys
  · -- resting on the ask side
    obtain ⟨pl, hpl, hid⟩ := mem_bookSideIds.1 hamem
    obtain ⟨⟨osnap', hos', hosid', hosside', hosprice'⟩, -⟩ := (w4 pl hpl).2 cid hid
    rw [hin] at hos'
    obtain rfl : osnap = osnap' := Option.some_inj.1 hos'
    have hside : osnap.side = Side.Sell := hosside'
    have hget : treeGet cmpAsks ob.asks osnap.price = some pl.2 := by
      rw [hosprice']
      exact treeGet_of_mem_sorted cmpAsks_eq_iff cmpAsks_gt_flip hpl w2
    have hnda : (bookSideIds ob.asks).Nodup := w5.of_append_right
    obtain ⟨hes, ⟨pre, post, hdecomp, hres⟩, hene, hentries, hkeys⟩ :=
      levelErase_spec cmpAsks_eq_iff hget hid w2 hnda (fun pl' hpl' => (w4 pl' hpl').1)
    have hcidpre : cid ∉ pre ∧ cid ∉ post := by
      have := hdecomp ▸ hnda
      constructor
      · intro hc
        exact (List.disjoint_of_nodup_append this) hc (by simp)
      · intro hc
        exact (List.nodup_cons.1 this.of_append_right).1 hc
    have htrans : ∀ (s : Side) (p : Int) id1, id1 ≠ cid → entryWF reg ob s p id1 →
        entryWF reg { ob with
          orders := assocDelete ob.orders cid
          bids := ob.bids
          asks := levelErase cmpAsks ob.asks osnap.price cid } s p id1 := by
      intro s p id1 hne hent
      obtain ⟨⟨os, h1, h2, h3, h4⟩, ⟨o₁, g1, g2, g3, g4, g5, g6⟩⟩ := hent
      refine ⟨⟨os, ?_, h2, h3, h4⟩, ⟨o₁, g1, g2, g3, g4, g5, g6⟩⟩
      show assocLoad (assocDelete ob.orders cid) id1 = some os
      rw [assocLoad_delete_ne _ _ _ hne]
      exact h1
    have hsidene : osnap.side = Side.Buy → False := by
      rw [hside]
      intro hc
      cases hc
    refine ⟨{ ob with
        orders := assocDelete ob.orders cid
        bids := ob.bids
        asks := levelErase cmpAsks ob.asks osnap.price cid },
      by rw [RemoveOrder_eq hin]; simp [hside], ⟨w1, hes, ?_, ?_, ?_, ?_, ?_⟩,
      rfl, ?_, ?_, ?_, fun k hk => hk, ?_⟩
    · intro pl2 hpl2
      refine ⟨(w3 pl2 hpl2).1, ?_⟩
      intro id1 hid1
      have hne : id1 ≠ cid := by
        intro hc
        subst hc
        exact hdisj (mem_bookSideIds.2 ⟨pl2, hpl2, hid1⟩) hamem
      exact htrans _ _ id1 hne ((w3 pl2 hpl2).2 id1 hid1)
    · intro pl2 hpl2
      refine ⟨hene pl2 hpl2, ?_⟩
      intro id1 hid1
      obtain ⟨pl', hpl', hpl'1, hid1'⟩ := hentries pl2 hpl2 id1 hid1
      have hne : id1 ≠ cid := by
        intro hc
        subst hc
        have h1 : id1 ∈ bookSideIds (levelErase cmpAsks ob.asks osnap.price id1) :=
          mem_bookSideIds.2 ⟨pl2, hpl2, hid1⟩
        rw [hres] at h1
        rcases List.mem_append.1 h1 with h | h
        · exact hcidpre.1 h
        · exact hcidpre.2 h
      have hold := (w4 pl' hpl').2 id1 hid1'
      rw [hpl'1] at hold
      exact htrans _ _ id1 hne hold
    · show (bookSideIds ob.bids ++
          bookSideIds (levelErase cmpAsks ob.asks osnap.price cid)).Nodup
      rw [hres]
      refine List.Nodup.sublist ?_ (by
        have w5' : (bookSideIds ob.bids ++ bookSideIds ob.asks).Nodup := w5
        rw [hdecomp] at w5'
        exact w5')
      refine List.Sublist.append (List.Sublist.refl _) ?_
      exact List.Sublist.append (List.Sublist.refl _) ((List.Sublist.refl _).cons _)
    · show ((assocDelete ob.orders cid).map Prod.fst).Nodup
      exact assocDelete_nodup _ _ w6
    · intro id1 hid1
      have hid1' : id1 ∈ (assocDelete ob.orders cid).map Prod.fst := hid1
      rw [assocDelete_map_fst] at hid1'
      have hne : id1 ≠ cid := fun hc =>
        ((List.Nodup.mem_erase_iff w6).1 hid1').1 (hc ▸ rfl)
      have hold : id1 ∈ bookIds ob := w7 id1 (List.mem_of_mem_erase hid1')
      show id1 ∈ bookSideIds ob.bids ++
        bookSideIds (levelErase cmpAsks ob.asks osnap.price cid)
      rcases List.mem_append.1 hold with h | h
      · exact List.mem_append_left _ h
      · refine List.mem_append_right _ ?_
        rw [hres]
        rw [hdecomp] at h
        rcases List.mem_append.1 h with h' | h'
        · exact List.mem_append_left _ h'
        · rcases List.mem_cons.1 h' with h'' | h''
          · exact absurd h'' hne
          · exact List.mem_append_right _ h''
    · show ((bookSideIds ob.bids ++
          bookSideIds (levelErase cmpAsks ob.asks osnap.price cid)).length : Int) = _
      rw [hres]
      show _ = ((bookSideIds ob.bids ++ bookSideIds ob.asks).length : Int) - 1
      rw [hdecomp]
      simp only [List.length_append, List.length_cons]
      push_cast
      omega
    · intro x hx
      have hx' : x ∈ bookSideIds ob.bids ++
          bookSideIds (levelErase cmpAsks ob.asks osnap.price cid) := hx
      show x ∈ bookSideIds ob.bids ++ bookSideIds ob.asks
      rcases List.mem_append.1 hx' with h | h
      · exact List.mem_append_left _ h
      · refine List.mem_append_right _ ?_
        rw [hres] at h
        rw [hdecomp]
        rcases List.mem_append.1 h with h' | h'
        · exact List.mem_append_left _ h'
        · exact List.mem_append_right _ (List.mem_cons_of_mem _ h')
    · intro hc
      have hc' : cid ∈ bookSideIds ob.bids ++
          bookSideIds (levelErase cmpAsks ob.asks osnap.price cid) := hc
      rcases List.mem_append.1 hc' with h | h
      · exact hdisj h hamem
      · rw [hres] at h
        rcases List.mem_append.1 h with h' | h'
        · exact hcidpre.1 h'
        · exact hcidpre.2 h'
    · exact hkeys

/-! ## `CancelOrder`: invariant preservation -/

theorem bookIds_snapshot {reg : Registry} {ob : OrderBook} (hwf : BookWF reg ob) :
    ∀ id1 ∈ bookIds ob, (assocLoad ob.orders id1).isSome := by
  intro id1 hid1
  rcases List.mem_append.1 hid1 with h | h
  · obtain ⟨pl, hpl, hin⟩ := mem_bookSideIds.1 h
    obtain ⟨⟨os, hos, -⟩, -⟩ := (hwf.2.2.1 pl hpl).2 id1 hin
    rw [hos]
    rfl
  · obtain ⟨pl, hpl, hin⟩ := mem_bookSideIds.1 h
    obtain ⟨⟨os, hos, -⟩, -⟩ := (hwf.2.2.2.1 pl hpl).2 id1 hin
    rw [hos]
    rfl

theorem bookIds_entry_rem {reg : Registry} {ob : OrderBook} (hwf : BookWF reg ob) :
    ∀ id1 ∈ bookIds ob, ∃ ov, assocLoad reg id1 = some ov ∧ 1 ≤ ov.remainingQuantity := by
  intro id1 hid1
  rcases List.mem_append.1 hid1 with h | h
  · obtain ⟨pl, hpl, hin⟩ := mem_bookSideIds.1 h
    obtain ⟨-, ⟨o1, ho1, -, -, -, -, hrem⟩⟩ := (hwf.2.2.1 pl hpl).2 id1 hin
    exact ⟨o1, ho1, hrem⟩
  · obtain ⟨pl, hpl, hin⟩ := mem_bookSideIds.1 h
    obtain ⟨-, ⟨o1, ho1, -, -, -, -, hrem⟩⟩ := (hwf.2.2.2.1 pl hpl).2 id1 hin
    exact ⟨o1, ho1, hrem⟩

theorem CancelOrder_step {e : Engine} {cid : String}
    (hs : StructWF e) (hnc : NotCrossedAll e)
    (hcnt : e.metrics.ordersInBook = totalResting e) :
    ∀ r e', e.CancelOrder cid = (r, e') →
      StructWF e' ∧ NotCrossedAll e' ∧ e'.metrics.ordersInBook = totalResting e' ∧
      (∀ id1 ov₁ ov₂, assocLoad e.allOrders id1 = some ov₁ →
        assocLoad e'.allOrders id1 = some ov₂ →
        ov₂.id = ov₁.id ∧ ov₂.symbol = ov₁.symbol ∧ ov₂.side = ov₁.side ∧
        ov₂.otype = ov₁.otype ∧ ov₂.price = ov₁.price ∧
        ov₂.originalQuantity = ov₁.originalQuantity ∧
        ov₂.remainingQuantity = ov₁.remainingQuantity ∧
        ov₂.filledQuantity = ov₁.filledQuantity) ∧
      (∀ id1, (assocLoad e'.allOrders id1).isSome ↔ (assocLoad e.allOrders id1).isSome) ∧
      (QuantWF e.allOrders → QuantWF e'.allOrders) := by
  intro r e' hco
  obtain ⟨hnd, hbk, hreg⟩ := hs
  have hidmono : ∀ (ov₁ ov₂ : Order), ov₂ = ov₁ →
      ov₂.id = ov₁.id ∧ ov₂.symbol = ov₁.symbol ∧ ov₂.side = ov₁.side ∧
      ov₂.otype = ov₁.otype ∧ ov₂.price = ov₁.price ∧
      ov₂.originalQuantity = ov₁.originalQuantity ∧
      ov₂.remainingQuantity = ov₁.remainingQuantity ∧
      ov₂.filledQuantity = ov₁.filledQuantity := by
    intro ov₁ ov₂ h
    subst h
    exact ⟨rfl, rfl, rfl, rfl, rfl, rfl, rfl, rfl⟩
  have htrivial : e' = e →
      StructWF e' ∧ NotCrossedAll e' ∧ e'.metrics.ordersInBook = totalResting e' ∧
      (∀ id1 ov₁ ov₂, assocLoad e.allOrders id1 = some ov₁ →
        assocLoad e'.allOrders id1 = some ov₂ →
        ov₂.id = ov₁.id ∧ ov₂.symbol = ov₁.symbol ∧ ov₂.side = ov₁.side ∧
        ov₂.otype = ov₁.otype ∧ ov₂.price = ov₁.price ∧
        ov₂.originalQuantity = ov₁.originalQuantity ∧
        ov₂.remainingQuantity = ov₁.remainingQuantity ∧
        ov₂.filledQuantity = ov₁.filledQuantity) ∧
      (∀ id1, (assocLoad e'.allOrders id1).isSome ↔ (assocLoad e.allOrders id1).isSome) ∧
      (QuantWF e.allOrders → QuantWF e'.allOrders) := by
    intro h
    subst h
    refine ⟨⟨hnd, hbk, hreg⟩, hnc, hcnt, ?_, fun _ => Iff.rfl, fun hq => hq⟩
    intro id1 ov₁ ov₂ h1 h2
    rw [h1] at h2
    exact hidmono ov₁ ov₂ (Option.some_inj.1 h2).symm
  simp only [Engine.CancelOrder] at hco
  cases hload : assocLoad e.allOrders cid with
  | none =>
    simp only [hload] at hco
    obtain ⟨rfl, rfl⟩ := hco
    exact htrivial rfl
  | some ord =>
    simp only [hload] at hco
    have hordid : ord.id = cid := hreg.1 (cid, ord) (assocLoad_mem hload)
    by_cases hfil : ord.status = OrderStatus.Filled
    · rw [if_pos hfil] at hco
      obtain ⟨rfl, rfl⟩ := hco
      exact htrivial rfl
    · rw [if_neg hfil] at hco
      by_cases hcst : ord.status = OrderStatus.Cancelled
      · rw [if_pos hcst] at hco
        obtain ⟨rfl, rfl⟩ := hco
        exact htrivial rfl
      · rw [if_neg hcst] at hco
        rcases hgb : e.getOrderBook ord.symbol with ⟨ob0, e3⟩
        obtain ⟨hg1, hg2, hg3, hg4, hg5, hg6, hg7, hg8, hg9, -⟩ :=
          @getOrderBook_spec e ord.symbol hnd hbk ob0 e3 hgb
        simp only [hgb] at hco
        rw [if_neg hfil] at hco
        have hncb3 : ∀ b ∈ e3.orderBooks, NotCrossed b.2 := by
          intro b hb
          rcases hg8 b hb with h | h
          · exact hnc b h
          · rw [h]
            exact NotCrossed_new _
        have hnc03 : NotCrossed ob0 := by
          rcases hg8 _ (assocLoad_mem hg5) with h | h
          · exact hnc _ h
          · have h2 : ob0 = NewOrderBook ord.symbol := congrArg Prod.snd h
            rw [h2]
            exact NotCrossed_new _
        have hcnt3 : e3.metrics.ordersInBook = totalResting e3 := by
          rw [hg2, hg9]
          exact hcnt
        -- facts about the post-write registry, shared between the two removal outcomes
        have hRE0 : ∀ id1, id1 ≠ cid →
            assocLoad (assocStore e3.allOrders cid { ord with
              status := OrderStatus.Cancelled }) id1 = assocLoad e.allOrders id1 := by
          intro id1 hne
          rw [assocLoad_store_ne _ _ _ _ hne, hg1]
        have hREself : assocLoad (assocStore e3.allOrders cid { ord with
            status := OrderStatus.Cancelled }) cid =
            some { ord with status := OrderStatus.Cancelled } :=
          assocLoad_store_self _ _ _
        have hregN : RegWF (assocStore e3.allOrders cid { ord with
            status := OrderStatus.Cancelled }) := by
          constructor
          · intro en hen
            rcases mem_assocStore hen with h | h
            · rw [hg1] at h
              exact hreg.1 en h
            · rw [h]
              exact hordid
          · rw [hg1]
            exact assocStore_nodup _ _ _ hreg.2
        have hmonoN : ∀ id1 ov₁ ov₂, assocLoad e.allOrders id1 = some ov₁ →
            assocLoad (assocStore e3.allOrders cid { ord with
              status := OrderStatus.Cancelled }) id1 = some ov₂ →
            ov₂.id = ov₁.id ∧ ov₂.symbol = ov₁.symbol ∧ ov₂.side = ov₁.side ∧
            ov₂.otype = ov₁.otype ∧ ov₂.price = ov₁.price ∧
            ov₂.originalQuantity = ov₁.originalQuantity ∧
            ov₂.remainingQuantity = ov₁.remainingQuantity ∧
            ov₂.filledQuantity = ov₁.filledQuantity := by
          intro id1 ov₁ ov₂ h1 h2
          by_cases hne : id1 = cid
          · subst hne
            rw [hload] at h1
            obtain rfl : ord = ov₁ := Option.some_inj.1 h1
            rw [hREself] at h2
            obtain rfl : { ord with status := OrderStatus.Cancelled } = ov₂ :=
              Option.some_inj.1 h2
            exact ⟨rfl, rfl, rfl, rfl, rfl, rfl, rfl, rfl⟩
          · rw [hRE0 id1 hne, h1] at h2
            exact hidmono ov₁ ov₂ (Option.some_inj.1 h2).symm
        have hsomeN : ∀ id1, (assocLoad (assocStore e3.allOrders cid { ord with
            status := OrderStatus.Cancelled }) id1).isSome ↔
            (assocLoad e.allOrders id1).isSome := by
          intro id1
          by_cases hne : id1 = cid
          · subst hne
            rw [hREself, hload]
            simp
          · rw [hRE0 id1 hne]
        have hquantN : QuantWF e.allOrders → QuantWF (assocStore e3.allOrders cid
            { ord with status := OrderStatus.Cancelled }) := by
          intro hq en hen
          rcases mem_assocStore hen with h | h
          · rw [hg1] at h
            exact hq en h
          · have h2 : en.2 = { ord with status := OrderStatus.Cancelled } := by rw [h]
            have hqo := hq (cid, ord) (assocLoad_mem hload)
            rw [h2]
            exact hqo
        have hbooksN : ∀ b ∈ e3.orderBooks, BookWF (assocStore e3.allOrders cid
            { ord with status := OrderStatus.Cancelled }) b.2 →
            True := fun _ _ _ => trivial
        cases hin : assocLoad ob0.orders cid with
        | none =>
          have hrm : ob0.RemoveOrder cid = (none, ob0) := by
            unfold OrderBook.RemoveOrder
            rw [hin]
          simp only [hrm] at hco
          rw [Prod.mk.injEq] at hco
          obtain ⟨rfl, he'⟩ := hco
          have hfreshb : ∀ b ∈ e3.orderBooks, cid ∉ bookIds b.2 := by
            intro b hb hc
            obtain ⟨ov, hov, hovsym⟩ := bookIds_entry_symbol (hg7 b hb).2 cid hc
            rw [hload] at hov
            obtain rfl : ord = ov := Option.some_inj.1 hov
            have hb1 : b.1 = ord.symbol := by
              rw [← (hg7 b hb).1, ← hovsym]
            have hbload := (mem_iff_load hg6 b).1 hb
            rw [hb1, hg5] at hbload
            obtain rfl : ob0 = b.2 := Option.some_inj.1 hbload
            have hsnap := bookIds_snapshot hg4 cid hc
            rw [hin] at hsnap
            cases hsnap
          have hOB : e'.orderBooks = e3.orderBooks := by
            rw [← he']
            show assocStore e3.orderBooks ob0.symbol ob0 = _
            rw [hg3]
            exact assocStore_self hg5
          have hRE : e'.allOrders = assocStore e3.allOrders cid
              { ord with status := OrderStatus.Cancelled } := by
            rw [← he']
            rfl
          refine ⟨⟨?_, ?_, ?_⟩, ?_, ?_, ?_, ?_, ?_⟩
          · rw [hOB]
            exact hg6
          · rw [hOB]
            intro b hb
            refine ⟨(hg7 b hb).1, ?_⟩
            rw [hRE]
            refine BookWF_reg_agree (hg7 b hb).2 ?_
            intro i hi
            have hne : i ≠ cid := fun hc => hfreshb b hb (hc ▸ hi)
            rw [hRE0 i hne]
          · rw [hRE]
            exact hregN
          · intro b hb
            rw [hOB] at hb
            exact hncb3 b hb
          · have htr : totalResting e' = totalResting e3 := by
              unfold totalResting
              rw [hOB]
            have hmo : e'.metrics.ordersInBook = e3.metrics.ordersInBook := by
              rw [← he']
              rfl
            rw [htr, hmo]
            exact hcnt3
          · intro id1 ov₁ ov₂ h1 h2
            rw [hRE] at h2
            exact hmonoN id1 ov₁ ov₂ h1 h2
          · intro id1
            rw [hRE]
            exact hsomeN id1
          · intro hq
            rw [hRE]
            exact hquantN hq
        | some osnap =>
          obtain ⟨ob2, hrm, hwf2, hsym2, hlen2, hmem2, -, hkb2, hka2⟩ :=
            BookWF_remove_any hg4 hin
          simp only [hrm] at hco
          rw [Prod.mk.injEq] at hco
          obtain ⟨rfl, he'⟩ := hco
          have hcidrest : cid ∈ bookIds ob0 :=
            hg4.2.2.2.2.2.2 cid ((assocLoad_isSome ob0.orders cid).1 (by rw [hin]; rfl))
          have hordrem : 1 ≤ ord.remainingQuantity := by
            obtain ⟨ov, hov, hrem⟩ := bookIds_entry_rem hg4 cid hcidrest
            rw [hload] at hov
            obtain rfl : ord = ov := Option.some_inj.1 hov
            exact hrem
          have hat : ∀ o₁, assocLoad e.allOrders cid = some o₁ →
              ∃ o₂, assocLoad (assocStore e3.allOrders cid { ord with
                status := OrderStatus.Cancelled }) cid = some o₂ ∧
                o₂.id = o₁.id ∧ o₂.side = o₁.side ∧ o₂.price = o₁.price ∧
                o₂.symbol = o₁.symbol ∧ 1 ≤ o₂.remainingQuantity := by
            intro o₁ ho₁
            rw [hload] at ho₁
            obtain rfl : ord = o₁ := Option.some_inj.1 ho₁
            exact ⟨{ ord with status := OrderStatus.Cancelled }, hREself,
              rfl, rfl, rfl, rfl, hordrem⟩
          have hupd : ∀ (ob' : OrderBook), BookWF e.allOrders ob' →
              BookWF (assocStore e3.allOrders cid { ord with
                status := OrderStatus.Cancelled }) ob' := by
            intro ob' hwf'
            exact BookWF_update_resting hwf' (fun id1 hne => hRE0 id1 hne) hat
          have hOB : e'.orderBooks = assocStore e3.orderBooks ord.symbol ob2 := by
            rw [← he']
            show assocStore e3.orderBooks ob2.symbol ob2 = _
            rw [hsym2, hg3]
          have hRE : e'.allOrders = assocStore e3.allOrders cid
              { ord with status := OrderStatus.Cancelled } := by
            rw [← he']
            rfl
          refine ⟨⟨?_, ?_, ?_⟩, ?_, ?_, ?_, ?_, ?_⟩
          · rw [hOB]
            exact assocStore_nodup _ _ _ hg6
          · rw [hOB]
            intro b hb
            rcases mem_assocStore_ne hg6 hb with rfl | ⟨hb1, -⟩
            · exact ⟨hsym2.trans hg3, by rw [hRE]; exact hupd ob2 hwf2⟩
            · exact ⟨(hg7 b hb1).1, by rw [hRE]; exact hupd b.2 (hg7 b hb1).2⟩
          · rw [hRE]
            exact hregN
          · intro b hb
            rw [hOB] at hb
            rcases mem_assocStore_ne hg6 hb with rfl | ⟨hb1, -⟩
            · exact NotCrossed_subset hg4 hnc03 hkb2 hka2
            · exact hncb3 b hb1
          · have htr : totalResting e' = totalResting e3
                - ((bookIds ob0).length : Int) + ((bookIds ob2).length : Int) := by
              unfold totalResting
              rw [hOB]
              exact totalResting_books_store _ _ _ _ hg6 hg5
            have hmoib : e'.metrics.ordersInBook = e3.metrics.ordersInBook - 1 := by
              rw [← he']
              rfl
            rw [hmoib, htr, hlen2]
            omega
          · intro id1 ov₁ ov₂ h1 h2
            rw [hRE] at h2
            exact hmonoN id1 ov₁ ov₂ h1 h2
          · intro id1
            rw [hRE]
            exact hsomeN id1
          · intro hq
            rw [hRE]
            exact hquantN hq

/-! ## Traces: the engine invariants hold along every distinct-id run -/

theorem OrderEvolves_quant {o₁ o₂ : Order} (h : OrderEvolves o₁ o₂) :
    o₂.originalQuantity = o₁.originalQuantity ∧
    o₂.remainingQuantity ≤ o₁.remainingQuantity ∧
    o₁.filledQuantity ≤ o₂.filledQuantity := by
  rcases h with rfl | h
  · exact ⟨rfl, le_refl _, le_refl _⟩
  · exact ⟨h.2.2.2.2.2.1, le_of_lt h.2.2.2.2.2.2.2.1, h.2.2.2.2.2.2.2.2.1⟩

theorem submittedIds_submit (o : Order) (rest : List Op) :
    submittedIds (Op.submit o :: rest) = o.id :: submittedIds rest := by
  simp [submittedIds, opSubmitId]

theorem submittedIds_cancel (cid : String) (rest : List Op) :
    submittedIds (Op.cancel cid :: rest) = submittedIds rest := by
  simp [submittedIds, opSubmitId]

theorem foldl_inv :
    ∀ (ops : List Op) (e : Engine),
      StructWF e → NotCrossedAll e → e.metrics.ordersInBook = totalResting e →
      (submittedIds ops).Nodup →
      (∀ oid ∈ submittedIds ops, assocLoad e.allOrders oid = none) →
      StructWF (ops.foldl applyOp e) ∧ NotCrossedAll (ops.foldl applyOp e) ∧
      (ops.foldl applyOp e).metrics.ordersInBook = totalResting (ops.foldl applyOp e) ∧
      (∀ id1, (assocLoad (ops.foldl applyOp e).allOrders id1).isSome →
        (assocLoad e.allOrders id1).isSome ∨ id1 ∈ submittedIds ops) ∧
      (∀ id1 ov₁ ov₂, assocLoad e.allOrders id1 = some ov₁ →
        assocLoad (ops.foldl applyOp e).allOrders id1 = some ov₂ →
        ov₂.originalQuantity = ov₁.originalQuantity ∧
        ov₂.remainingQuantity ≤ ov₁.remainingQuantity ∧
        ov₁.filledQuantity ≤ ov₂.filledQuantity) ∧
      ((∀ op ∈ ops, opShapeOK op) → QuantWF e.allOrders →
        QuantWF (ops.foldl applyOp e).allOrders) := by
  intro ops
  induction ops with
  | nil =>
    intro e h1 h2 h3 _ _
    refine ⟨h1, h2, h3, fun id1 h => Or.inl h, ?_, fun _ hq => hq⟩
    intro id1 ov₁ ov₂ ha hb
    have hb' : assocLoad e.allOrders id1 = some ov₂ := hb
    rw [ha] at hb'
    obtain rfl : ov₁ = ov₂ := Option.some_inj.1 hb'
    exact ⟨rfl, le_refl _, le_refl _⟩
  | cons op rest ih =>
    intro e h1 h2 h3 hnd hfr
    cases op with
    | submit o =>
      rw [submittedIds_submit] at hnd hfr
      have hfresh : assocLoad e.allOrders o.id = none := hfr o.id (by simp)
      rcases hpo : e.ProcessOrder o with ⟨r, e1⟩
      have happly : List.foldl applyOp e (Op.submit o :: rest) = List.foldl applyOp e1 rest := by
        simp only [List.foldl_cons]
        have h : applyOp e (Op.submit o) = e1 := by
          show (e.ProcessOrder o).2 = e1
          rw [hpo]
        rw [h]
      rw [happly]
      obtain ⟨k1, k2, k3, k4, k5, k6⟩ := ProcessOrder_step h1 h2 h3 hfresh r e1 hpo
      have hfr1 : ∀ oid ∈ submittedIds rest, assocLoad e1.allOrders oid = none := by
        intro oid hoid
        rcases hl : assocLoad e1.allOrders oid with _ | v
        · rfl
        · exfalso
          have hsome : (assocLoad e1.allOrders oid).isSome := by rw [hl]; rfl
          rcases k5 oid hsome with h | h
          · have h0 := hfr oid (List.mem_cons_of_mem _ hoid)
            rw [h0] at h
            cases h
          · exact (List.nodup_cons.1 hnd).1 (h ▸ hoid)
      obtain ⟨j1, j2, j3, j4, j5, j6⟩ := ih e1 k1 k2 k3 (List.nodup_cons.1 hnd).2 hfr1
      rw [submittedIds_submit]
      refine ⟨j1, j2, j3, ?_, ?_, ?_⟩
      · intro id1 hs
        rcases j4 id1 hs with h | h
        · rcases k5 id1 h with h' | h'
          · exact Or.inl h'
          · exact Or.inr (by rw [h']; exact List.mem_cons_self _ _)
        · exact Or.inr (List.mem_cons_of_mem _ h)
      · intro id1 ov₁ ov₂ ha hb
        have hsome1 : (assocLoad e1.allOrders id1).isSome := by
          have hsomef : (assocLoad (rest.foldl applyOp e1).allOrders id1).isSome := by
            rw [hb]
            rfl
          rcases j4 id1 hsomef with h | h
          · exact h
          · exfalso
            have h0 := hfr id1 (List.mem_cons_of_mem _ h)
            rw [h0] at ha
            cases ha
        obtain ⟨ovm, hovm⟩ := Option.isSome_iff_exists.1 hsome1
        obtain ⟨t1a, t1b, t1c⟩ := OrderEvolves_quant (k4 id1 ov₁ ovm ha hovm)
        obtain ⟨t2a, t2b, t2c⟩ := j5 id1 ovm ov₂ hovm hb
        exact ⟨t2a.trans t1a, t2b.trans t1b, t1c.trans t2c⟩
      · intro hshape hq
        obtain ⟨hsh1, hsh2⟩ : o.remainingQuantity = o.originalQuantity ∧
            o.filledQuantity = 0 := hshape _ (List.mem_cons_self _ _)
        exact j6 (fun op hop => hshape op (List.mem_cons_of_mem _ hop)) (k6 hq hsh1 hsh2)
    | cancel cid =>
      rw [submittedIds_cancel] at hnd hfr
      rcases hco : e.CancelOrder cid with ⟨r, e1⟩
      have happly : List.foldl applyOp e (Op.cancel cid :: rest) =
          List.foldl applyOp e1 rest := by
        simp only [List.foldl_cons]
        have h : applyOp e (Op.cancel cid) = e1 := by
          show (e.CancelOrder cid).2 = e1
          rw [hco]
        rw [h]
      rw [happly]
      obtain ⟨k1, k2, k3, k4, k5, k6⟩ := CancelOrder_step ⟨h1.1, h1.2.1, h1.2.2⟩ h2 h3 r e1 hco
      have hfr1 : ∀ oid ∈ submittedIds rest, assocLoad e1.allOrders oid = none := by
        intro oid hoid
        rcases hl : assocLoad e1.allOrders oid with _ | v
        · rfl
        · exfalso
          have hsome : (assocLoad e1.allOrders oid).isSome := by rw [hl]; rfl
          have h0 := hfr oid hoid
          have := (k5 oid).1 hsome
          rw [h0] at this
          cases this
      obtain ⟨j1, j2, j3, j4, j5, j6⟩ := ih e1 k1 k2 k3 hnd hfr1
      rw [submittedIds_cancel]
      refine ⟨j1, j2, j3, ?_, ?_, ?_⟩
      · intro id1 hs
        rcases j4 id1 hs with h | h
        · exact Or.inl ((k5 id1).1 h)
        · exact Or.inr h
      · intro id1 ov₁ ov₂ ha hb
        have hsome1 : (assocLoad e1.allOrders id1).isSome := by
          have hsomef : (assocLoad (rest.foldl applyOp e1).allOrders id1).isSome := by
            rw [hb]
            rfl
          rcases j4 id1 hsomef with h | h
          · exact h
          · exfalso
            have h0 := hfr1 id1 h
            have h0' := hfr id1 h
            rw [h0'] at ha
            cases ha
        obtain ⟨ovm, hovm⟩ := Option.isSome_iff_exists.1 hsome1
        obtain ⟨-, -, -, -, -, t1a, t1b, t1c⟩ := k4 id1 ov₁ ovm ha hovm
        obtain ⟨t2a, t2b, t2c⟩ := j5 id1 ovm ov₂ hovm hb
        refine ⟨t2a.trans t1a, ?_, ?_⟩
        · rw [t1b] at t2b
          exact t2b
        · rw [← t1c]
          exact t2c
      · intro hshape hq
        exact j6 (fun op hop => hshape op (List.mem_cons_of_mem _ hop)) (k6 hq)

theorem runOps_inv (ops : List Op) (hnd : (submittedIds ops).Nodup) :
    StructWF (runOps ops) ∧ NotCrossedAll (runOps ops) ∧
    (runOps ops).metrics.ordersInBook = totalResting (runOps ops) ∧
    (∀ id1, (assocLoad (runOps ops).allOrders id1).isSome → id1 ∈ submittedIds ops) ∧
    ((∀ op ∈ ops, opShapeOK op) → QuantWF (runOps ops).allOrders) := by
  obtain ⟨j1, j2, j3, j4, -, j6⟩ := foldl_inv ops NewEngine (by decide) (by decide)
    (by decide) hnd (fun oid _ => rfl)
  refine ⟨j1, j2, j3, ?_, fun hshape => j6 hshape (by decide)⟩
  intro id1 hs
  rcases j4 id1 hs with h | h
  · exact absurd h (by simp [NewEngine, assocLoad])
  · exact h

/-! ## Round-trip support -/

theorem assocDelete_append_self {α : Type} (l : List (String × α)) (k : String) (v : α)
    (h : k ∉ l.map Prod.fst) : assocDelete (l ++ [(k, v)]) k = l := by
  induction l with
  | nil => simp [assocDelete]
  | cons e rest ih =>
    simp only [List.map_cons, List.mem_cons, not_or] at h
    have he : e.1 ≠ k := fun hc => h.1 hc.symm
    simp only [List.cons_append, assocDelete, if_neg he, List.append_eq]
    rw [ih h.2]

theorem levelErase_append_roundtrip {cmp : Int → Int → Ordering}
    (heq : ∀ a b : Int, cmp a b = .eq ↔ a = b)
    {t : PriceTree} {p : Int} {id0 : String}
    (hfresh : id0 ∉ bookSideIds t)
    (hne : ∀ pl ∈ t, pl.2 ≠ []) :
    levelErase cmp (levelAppend cmp t p id0) p id0 = t := by
  cases hg : treeGet cmp t p with
  | none =>
    have hla : levelAppend cmp t p id0 = treePut cmp t p [id0] := by
      unfold levelAppend
      rw [hg]
    have h1 : ([id0] : PriceLevel).eraseP (fun i => i == id0) = [] := by simp
    simp only [levelErase, hla, treeGet_put_self heq, h1, List.isEmpty_nil, if_pos]
    exact treeRemove_put_of_get_none heq [id0] hg
  | some lvl =>
    have hla : levelAppend cmp t p id0 = treePut cmp t p (lvl ++ [id0]) := by
      unfold levelAppend
      rw [hg]
    obtain ⟨t₁, t₂, ht, -⟩ := treeGet_split heq hg
    have hlvlne : lvl ≠ [] := hne (p, lvl) (by rw [ht]; simp)
    have hid0lvl : id0 ∉ lvl := by
      intro hc
      exact hfresh (mem_bookSideIds.2 ⟨(p, lvl), by rw [ht]; simp, hc⟩)
    have herase : (lvl ++ [id0]).eraseP (fun i => i == id0) = lvl := by
      rw [eraseP_append_no_match _ lvl _ ?_]
      · simp
      · intro b hb
        simp only [Bool.not_eq_true, beq_eq_false_iff_ne, ne_eq]
        intro hbeq
        exact hid0lvl (hbeq ▸ hb)
    have hempty : lvl.isEmpty = false := by
      rcases lvl with _ | _
      · exact absurd rfl hlvlne
      · rfl
    simp only [levelErase, hla, treeGet_put_self heq, herase, hempty, Bool.false_eq_true,
      if_false]
    rw [treePut_put heq, treePut_of_get_some heq hg]

/-! ## The claims -/

/-- C2: every trade produced by one matching step against the resting best
order carries the maker's resting price, quantity `min` of the two remaining
quantities, the BUY-side id as buyer and the SELL-side id as seller; both
sides' filled quantities grow and remaining quantities shrink by the trade
quantity (the maker through its registry entry). -/
theorem C2_trade_fields {o best : Order} {reg : Registry} {ob : OrderBook} {m : Metrics}
    {p₀ : Int} {id₀ : String} {lrest : PriceLevel} {trest : PriceTree}
    (hwf : BookWF reg ob) (hreg : RegWF reg)
    (hshape : oppTree ob o.side = (p₀, id₀ :: lrest) :: trest)
    (hbest : assocLoad reg id₀ = some best)
    (ho : 0 < o.remainingQuantity) :
    ∀ o' reg' ob' m' tr, executeTrade o best reg ob m = (o', reg', ob', m', tr) →
      tr.price = best.price ∧
      tr.quantity = min o.remainingQuantity best.remainingQuantity ∧
      best.side = oppSide o.side ∧
      (o.side = Side.Buy → tr.buyerOrderID = o.id ∧ tr.sellerOrderID = best.id) ∧
      (o.side = Side.Sell → tr.buyerOrderID = best.id ∧ tr.sellerOrderID = o.id) ∧
      o'.filledQuantity = o.filledQuantity + tr.quantity ∧
      o'.remainingQuantity = o.remainingQuantity - tr.quantity ∧
      ∃ best', assocLoad reg' id₀ = some best' ∧
        best'.filledQuantity = best.filledQuantity + tr.quantity ∧
        best'.remainingQuantity = best.remainingQuantity - tr.quantity := by
  intro o' reg' ob' m' tr hexec
  obtain ⟨hq1, htr, ho', hbid, hbside, hbprice, hbsym, hbrem, hagree, hstore, hregwf,
    hsome, hcase⟩ := executeTrade_spec hwf hreg hshape hbest ho o' reg' ob' m' tr hexec
  obtain rfl := htr
  obtain rfl := ho'
  refine ⟨rfl, rfl, hbside, ?_, ?_, rfl, rfl, ?_⟩
  · intro hs
    constructor
    · show getBuyerOrderID o best = o.id
      simp [getBuyerOrderID, hs]
    · show getSellerOrderID o best = best.id
      have : best.side = Side.Sell := by rw [hbside, hs]; rfl
      simp [getSellerOrderID, hs]
  · intro hs
    constructor
    · show getBuyerOrderID o best = best.id
      simp [getBuyerOrderID, hs]
    · show getSellerOrderID o best = o.id
      simp [getSellerOrderID, hs]
  · exact ⟨_, hstore, rfl, rfl⟩

/-- C3: one submit consumes resting orders exactly in priority order: the
makers of the produced trades form a prefix of the opposite side flattened
best-price-first and FIFO within each level; every executed trade crosses
the incoming price; a LIMIT order that stops with remaining quantity does so
only on an empty opposite side or because the best price no longer crosses
(BUY stops below the best ask, SELL above the best bid), while a MARKET
order only stops with remaining quantity on an empty opposite side. -/
theorem C3_price_time_priority {o : Order} {reg : Registry} {ob : OrderBook} {m : Metrics}
    (hwf : BookWF reg ob) (hreg : RegWF reg) (hrem : 0 ≤ o.remainingQuantity) :
    ∀ o' reg' ob' m' trades',
      (if o.otype = OrderType.Limit then processLimitOrder o reg ob m
       else processMarketOrder o reg ob m) = (o', reg', ob', m', trades') →
      ((trades'.map (tradeMakerId o.side)) <+: bookSideIds (oppTree ob o.side)) ∧
      (∀ tr ∈ trades', priceCrosses o.otype o.side o.price tr.price = true) ∧
      (o.otype = OrderType.Limit → 0 < o'.remainingQuantity →
        oppTree ob' o.side = [] ∨
        ∃ best, getBestOpp ob' reg' o.side = some best ∧
          (o.side = Side.Buy → o.price < best.price) ∧
          (o.side = Side.Sell → best.price < o.price)) ∧
      (o.otype = OrderType.Market → 0 < o'.remainingQuantity →
        oppTree ob' o.side = []) := by
  intro o' reg' ob' m' trades' hstep
  cases hot : o.otype with
  | Limit =>
    rw [if_pos hot] at hstep
    unfold processLimitOrder at hstep
    obtain ⟨⟨-, -, -, -, -, -, -, -, -, -⟩, ⟨newTrades, htr, -, hcross, hpre⟩, -, -, -, -, hG⟩ :=
      matchLoop_spec o.remainingQuantity.toNat OrderType.Limit o reg ob m []
        hwf hreg hrem (le_refl _) o' reg' ob' m' trades' hstep
    obtain rfl : trades' = newTrades := by simpa using htr
    refine ⟨hpre, fun tr htr' => (hcross tr htr').2, ?_, ?_⟩
    · intro _ hpos
      rcases hG with h | h | ⟨best, hbest, hcr⟩
      · omega
      · exact Or.inl h
      · refine Or.inr ⟨best, hbest, ?_, ?_⟩
        · exact fun hs => (priceCrosses_limit_false hcr).1 hs
        · exact fun hs => (priceCrosses_limit_false hcr).2 hs
    · intro hc
      cases hc
  | Market =>
    have hne : ¬ o.otype = OrderType.Limit := by
      rw [hot]
      intro hc
      cases hc
    rw [if_neg hne] at hstep
    unfold processMarketOrder at hstep
    obtain ⟨⟨-, -, -, -, -, -, -, -, -, -⟩, ⟨newTrades, htr, -, hcross, hpre⟩, -, -, -, -, hG⟩ :=
      matchLoop_spec o.remainingQuantity.toNat OrderType.Market o reg ob m []
        hwf hreg hrem (le_refl _) o' reg' ob' m' trades' hstep
    obtain rfl : trades' = newTrades := by simpa using htr
    refine ⟨hpre, fun tr htr' => (hcross tr htr').2, ?_, ?_⟩
    · intro hc
      cases hc
    · intro _ hpos
      rcases hG with h | h | ⟨best, hbest, hcr⟩
      · omega
      · exact h
      · simp [priceCrosses] at hcr

/-- C8: the depth query returns, per side, exactly one `(price, quantity)`
entry per non-empty price level in best-first order (bids descending, asks
ascending by price), where the quantity is the summed remaining quantity of
the level's resting orders, truncated to the first `limit` levels when
`limit > 0` and complete otherwise. -/
theorem C8_depth {e : Engine} {sym : String} {limit : Int} (hs : StructWF e) :
    ∀ ob eb, e.getOrderBook sym = (ob, eb) →
      (e.GetOrderBookDepth sym limit).1.symbol = sym ∧
      (e.GetOrderBookDepth sym limit).1.bids = depthSideSpec e.allOrders ob.bids limit ∧
      (e.GetOrderBookDepth sym limit).1.asks = depthSideSpec e.allOrders ob.asks limit ∧
      (((e.GetOrderBookDepth sym limit).1.bids.map PriceLevelData.price).Pairwise
        fun a b => b < a) ∧
      (((e.GetOrderBookDepth sym limit).1.asks.map PriceLevelData.price).Pairwise
        fun a b => a < b) := by
  intro ob eb hgb
  obtain ⟨hg1, -, hg3, hg4, -⟩ := @getOrderBook_spec e sym hs.1 hs.2.1 ob eb hgb
  have hd : (e.GetOrderBookDepth sym limit).1 = ob.GetDepth eb.allOrders limit := by
    unfold Engine.GetOrderBookDepth
    rw [hgb]
  have hreg : eb.allOrders = e.allOrders := hg1
  have hbids : (ob.GetDepth eb.allOrders limit).bids =
      depthSideSpec e.allOrders ob.bids limit := by
    show depthSide eb.allOrders limit ob.bids 0 = _
    rw [hreg, depthSide_eq_spec]
  have hasks : (ob.GetDepth eb.allOrders limit).asks =
      depthSideSpec e.allOrders ob.asks limit := by
    show depthSide eb.allOrders limit ob.asks 0 = _
    rw [hreg, depthSide_eq_spec]
  have hsortspec : ∀ (t : PriceTree) (cmp : Int → Int → Ordering), treeKeysSorted cmp t →
      ((depthSideSpec e.allOrders t limit).map PriceLevelData.price).Pairwise
        fun a b => cmp a b = .lt := by
    intro t cmp hsorted
    unfold depthSideSpec
    rw [List.map_map]
    have hsub : (if limit > 0 then t.take limit.toNat else t).Sublist t := by
      by_cases hl : limit > 0
      · rw [if_pos hl]
        exact List.take_sublist _ _
      · rw [if_neg hl]
    have hp : (if limit > 0 then t.take limit.toNat else t).Pairwise
        (fun a b => cmp a.1 b.1 = .lt) := List.Pairwise.sublist hsub hsorted
    exact List.Pairwise.map _ (fun a b h => h) hp
  refine ⟨by rw [hd]; exact hg3, by rw [hd]; exact hbids, by rw [hd]; exact hasks, ?_, ?_⟩
  · rw [hd, hbids]
    have := hsortspec ob.bids cmpBids hg4.1
    refine List.Pairwise.imp ?_ this
    intro a b h
    exact (cmpBids_lt_iff _ _).1 h
  · rw [hd, hasks]
    have := hsortspec ob.asks cmpAsks hg4.2.1
    refine List.Pairwise.imp ?_ this
    intro a b h
    exact (cmpAsks_lt_iff _ _).1 h

/-- C9: adding an order whose id is absent from a well-shaped book and then
removing that id returns the order and restores the book exactly — the same
price levels with the same FIFO sequences, the same `Orders` index, and any
level created by the add is deleted again. -/
theorem C9_add_remove_roundtrip {ob : OrderBook} {o : Order}
    (hshape : BookShapeWF ob)
    (hfresh : o.id ∉ bookIds ob)
    (hidx : assocLoad ob.orders o.id = none) :
    (ob.AddOrder o).RemoveOrder o.id = (some o, ob) := by
  have hAdd := AddOrder_eq hidx
  have hload' : assocLoad (ob.AddOrder o).orders o.id = some o := by
    rw [hAdd]
    show assocLoad (ob.orders ++ [(o.id, o)]) o.id = some o
    rw [assocLoad_append, hidx]
    simp [assocLoad]
  have hidxkeys : o.id ∉ ob.orders.map Prod.fst := (assocLoad_eq_none _ _).1 hidx
  have hdel : assocDelete (ob.orders ++ [(o.id, o)]) o.id = ob.orders :=
    assocDelete_append_self _ _ _ hidxkeys
  rw [RemoveOrder_eq hload']
  cases hside : o.side with
  | Buy =>
    have hbids : (ob.AddOrder o).bids = levelAppend cmpBids ob.bids o.price o.id := by
      rw [hAdd]
      simp [hside]
    have hasks : (ob.AddOrder o).asks = ob.asks := by
      rw [hAdd]
      simp [hside]
    have hords : (ob.AddOrder o).orders = ob.orders ++ [(o.id, o)] := by rw [hAdd]
    have hsymb : (ob.AddOrder o).symbol = ob.symbol := by rw [hAdd]
    have hfreshb : o.id ∉ bookSideIds ob.bids :=
      fun hc => hfresh (List.mem_append_left _ hc)
    have hrt : levelErase cmpBids (ob.AddOrder o).bids o.price o.id = ob.bids := by
      rw [hbids]
      exact levelErase_append_roundtrip cmpBids_eq_iff hfreshb hshape.2.2.1
    rw [if_pos rfl, if_pos rfl, hrt, hasks, hords, hdel, hsymb]
  | Sell =>
    have hbids : (ob.AddOrder o).bids = ob.bids := by
      rw [hAdd]
      simp [hside]
    have hasks : (ob.AddOrder o).asks = levelAppend cmpAsks ob.asks o.price o.id := by
      rw [hAdd]
      simp [hside]
    have hords : (ob.AddOrder o).orders = ob.orders ++ [(o.id, o)] := by rw [hAdd]
    have hsymb : (ob.AddOrder o).symbol = ob.symbol := by rw [hAdd]
    have hfresha : o.id ∉ bookSideIds ob.asks :=
      fun hc => hfresh (List.mem_append_right _ hc)
    have hrt : levelErase cmpAsks (ob.AddOrder o).asks o.price o.id = ob.asks := by
      rw [hasks]
      exact levelErase_append_roundtrip cmpAsks_eq_iff hfresha hshape.2.2.2
    rw [if_neg (fun hc => nomatch hc), if_neg (fun hc => nomatch hc), hrt, hbids,
      hords, hdel, hsymb]

/-! ## Validation facts -/

theorem Validate_none_pos {o : Order} (hv : o.Validate = none) :
    0 < o.originalQuantity := by
  unfold Order.Validate at hv
  by_cases h1 : o.otype = OrderType.Limit ∧ o.price ≤ 0
  · rw [if_pos h1] at hv
    cases hv
  · rw [if_neg h1] at hv
    by_cases h2 : o.originalQuantity ≤ 0
    · rw [if_pos h2] at hv
      cases hv
    · omega

theorem getOrderBook_fst {e eng : Engine} {sym : String}
    (hbooks : eng.orderBooks = e.orderBooks) :
    (eng.getOrderBook sym).1 = (e.getOrderBook sym).1 := by
  unfold Engine.getOrderBook
  rw [hbooks]
  cases assocLoad e.orderBooks sym <;> rfl

/-- C1: market submits are all-or-none.  A MARKET order fails with
`InsufficientLiquidity` carrying the available opposite-side liquidity and
the requested quantity exactly when that liquidity is strictly below the
order's original quantity; a successful MARKET submit returns the order
fully filled (remaining 0, status FILLED) with trade quantities summing to
the original quantity. -/
theorem C1_market_all_or_none {e : Engine} {o : Order}
    (hs : StructWF e)
    (hfresh : assocLoad e.allOrders o.id = none)
    (hmt : o.otype = OrderType.Market)
    (hv : o.Validate = none)
    (hshape : o.remainingQuantity = o.originalQuantity) :
    ∀ r e', e.ProcessOrder o = (r, e') →
      (availableLiquidity e o < o.originalQuantity ↔
        r = Except.error (EngineError.InsufficientLiquidity
          (availableLiquidity e o) o.originalQuantity)) ∧
      (∀ res, r = Except.ok res →
        res.order.remainingQuantity = 0 ∧ res.order.status = OrderStatus.Filled ∧
        (res.trades.map Trade.quantity).sum = o.originalQuantity) := by
  intro r e' hpo
  obtain ⟨hnd, hbk, hreg⟩ := hs
  have horig : 0 < o.originalQuantity := Validate_none_pos hv
  simp only [Engine.ProcessOrder] at hpo
  simp only [hv] at hpo
  rcases hgb : Engine.getOrderBook
      ((e.withMetrics { e.metrics with
          ordersReceived := e.metrics.ordersReceived + 1 }).withRegistry
        (assocStore (e.withMetrics { e.metrics with
          ordersReceived := e.metrics.ordersReceived + 1 }).allOrders o.id o))
      o.symbol with ⟨ob0, e3⟩
  have hbk0 : ∀ b ∈ e.orderBooks, b.2.symbol = b.1 ∧
      BookWF (assocStore e.allOrders o.id o) b.2 := by
    intro b hb
    refine ⟨(hbk b hb).1, BookWF_reg_agree (hbk b hb).2 ?_⟩
    intro i hi
    refine assocLoad_store_ne _ _ _ _ ?_
    intro hc
    have := bookIds_load_isSome (hbk b hb).2 i hi
    rw [hc, hfresh] at this
    cases this
  obtain ⟨hg1, hg2, hg3, hg4, hg5, hg6, hg7, hg8, hg9, -⟩ :=
    @getOrderBook_spec ((e.withMetrics { e.metrics with
        ordersReceived := e.metrics.ordersReceived + 1 }).withRegistry
      (assocStore (e.withMetrics { e.metrics with
        ordersReceived := e.metrics.ordersReceived + 1 }).allOrders o.id o))
      o.symbol hnd hbk0 ob0 e3 hgb
  simp only [hgb] at hpo
  rw [if_pos hmt] at hpo
  have he3reg : e3.allOrders = assocStore e.allOrders o.id o := hg1
  have hwf0e : BookWF e.allOrders ob0 := by
    rcases hg8 _ (assocLoad_mem hg5) with h | h
    · exact (hbk _ h).2
    · have h2 : ob0 = NewOrderBook o.symbol := congrArg Prod.snd h
      rw [h2]
      exact BookWF_new _ _
  have hfst : (e.getOrderBook o.symbol).1 = ob0 := by
    have h1 : (e.getOrderBook o.symbol).1 =
        (Engine.getOrderBook ((e.withMetrics { e.metrics with
            ordersReceived := e.metrics.ordersReceived + 1 }).withRegistry
          (assocStore (e.withMetrics { e.metrics with
            ordersReceived := e.metrics.ordersReceived + 1 }).allOrders o.id o))
          o.symbol).1 :=
      (@getOrderBook_fst e ((e.withMetrics { e.metrics with
          ordersReceived := e.metrics.ordersReceived + 1 }).withRegistry
        (assocStore (e.withMetrics { e.metrics with
          ordersReceived := e.metrics.ordersReceived + 1 }).allOrders o.id o))
        o.symbol rfl).symm
    rw [h1, hgb]
  have havail : availableLiquidity e o =
      sideRemaining e.allOrders (oppTree ob0 o.side) := by
    unfold availableLiquidity
    rw [hfst]
  have hagree : ∀ x ∈ bookSideIds (oppTree ob0 o.side),
      assocLoad e3.allOrders x = assocLoad e.allOrders x := by
    intro x hx
    rw [he3reg]
    refine assocLoad_store_ne _ _ _ _ ?_
    intro hc
    have := bookIds_load_isSome hwf0e x (oppIds_sub_bookIds ob0 o.side x hx)
    rw [hc, hfresh] at this
    cases this
  have hnn : ∀ x ∈ bookSideIds (oppTree ob0 o.side),
      0 ≤ restingRemaining e3.allOrders x := by
    intro x hx
    obtain ⟨ov, hov, hrem⟩ := bookIds_entry_rem hwf0e x (oppIds_sub_bookIds ob0 o.side x hx)
    unfold restingRemaining
    rw [hagree x hx, hov]
    simp
    omega
  have hsum : ((bookSideIds (oppTree ob0 o.side)).map
      (restingRemaining e3.allOrders)).sum = availableLiquidity e o := by
    rw [havail]
    exact sumRem_congr _ (fun x hx => hagree x hx)
  have hcl : ob0.CalculateLiquidity e3.allOrders o.side o.originalQuantity =
      liquidityScan e3.allOrders o.originalQuantity
        (bookSideIds (oppTree ob0 o.side)) 0 := rfl
  by_cases hliq : ob0.CalculateLiquidity e3.allOrders o.side o.originalQuantity <
      o.originalQuantity
  · rw [if_pos hliq] at hpo
    rw [Prod.mk.injEq] at hpo
    obtain ⟨hr, -⟩ := hpo
    have hSlt : availableLiquidity e o < o.originalQuantity := by
      by_contra hc
      push_neg at hc
      have := liquidityScan_ge e3.allOrders o.originalQuantity
        (bookSideIds (oppTree ob0 o.side)) 0 (by rw [hsum]; omega)
      rw [← hcl] at this
      omega
    have hCLS : ob0.CalculateLiquidity e3.allOrders o.side o.originalQuantity =
        availableLiquidity e o := by
      rw [hcl, liquidityScan_exact e3.allOrders o.originalQuantity _ 0 hnn
        (by rw [hsum]; omega)]
      rw [hsum]
      omega
    rw [hCLS] at hr
    refine ⟨Iff.intro (fun _ => hr.symm) (fun _ => hSlt), ?_⟩
    intro res hres
    rw [← hr] at hres
    cases hres
  · rw [if_neg hliq] at hpo
    have hSge : o.originalQuantity ≤ availableLiquidity e o := by
      by_contra hc
      push_neg at hc
      have := liquidityScan_exact e3.allOrders o.originalQuantity
        (bookSideIds (oppTree ob0 o.side)) 0 hnn (by rw [hsum]; omega)
      rw [← hcl] at this
      rw [hsum] at this
      omega
    obtain ⟨o₁, reg₁, ob₁, m₁, trades₁, st, mF, hstep, hst, -, -, -, -, hdisj⟩ :=
      processOrderRest_cases e3 o ob0 r e' hpo
    have hrem0 : 0 ≤ o.remainingQuantity := by omega
    have hwf03 : BookWF e3.allOrders ob0 := by
      rw [he3reg]
      exact hg4
    have hreg3 : RegWF e3.allOrders := by
      rw [he3reg]
      constructor
      · intro en hen
        rcases mem_assocStore hen with h | h
        · exact hreg.1 en h
        · rw [h]
      · exact assocStore_nodup _ _ _ hreg.2
    obtain ⟨⟨-, -, -, hot₁, -, horig₁, -, hrem₁nn, -⟩,
        ⟨newTrades, htr, hsumtr, -, -⟩, -, -, -, hF, hG⟩ :=
      matchLoop_spec o.remainingQuantity.toNat o.otype o e3.allOrders ob0 e3.metrics []
        hwf03 hreg3 hrem0 (le_refl _) o₁ reg₁ ob₁ m₁ trades₁ hstep
    obtain rfl : trades₁ = newTrades := by simpa using htr
    have hrem₁0 : o₁.remainingQuantity = 0 := by
      by_contra hc
      have hpos : 0 < o₁.remainingQuantity := by
        rcases lt_or_eq_of_le hrem₁nn with h | h
        · exact h
        · exact absurd h.symm hc
      rcases hG with h | h | ⟨best, -, hcr⟩
      · exact hc h
      · have hzero : sideRemaining reg₁ (oppTree ob₁ o.side) = 0 := by
          rw [h]
          rfl
        have hS3 : sideRemaining e3.allOrders (oppTree ob0 o.side) =
            availableLiquidity e o := by
          unfold sideRemaining
          exact hsum
        rw [hzero, hS3] at hF
        omega
      · rw [hmt] at hcr
        simp [priceCrosses] at hcr
    constructor
    · refine Iff.intro (fun hlt => absurd hlt (by omega)) ?_
      intro hr
      rcases hdisj with ⟨h, -, hrfl, -⟩ | ⟨h, hmt₁, -, -⟩ | ⟨-, hrfl, -⟩
      · omega
      · rw [hot₁, hmt] at hmt₁
        exact absurd rfl hmt₁
      · rw [hrfl] at hr
        cases hr
    · intro res hres
      rcases hdisj with ⟨h, -, -, -⟩ | ⟨h, hmt₁, -, -⟩ | ⟨-, hrfl, -⟩
      · omega
      · rw [hot₁, hmt] at hmt₁
        exact absurd rfl hmt₁
      · rw [hrfl] at hres
        obtain rfl := Except.ok.inj hres
        refine ⟨hrem₁0, rfl, ?_⟩
        show (trades₁.map Trade.quantity).sum = o.originalQuantity
        omega

/-- C6: the cancel protocol.  Cancelling an id absent from the global
registry fails with NOT_FOUND and changes nothing; cancelling a FILLED
order fails with ALREADY_FILLED and changes nothing; cancelling an
already-CANCELLED order returns that order unchanged with no state change;
otherwise the cancel succeeds, returns the order with status CANCELLED,
records that status in the registry, and afterwards the cancelled id rests
in no book. -/
theorem C6_cancel_protocol {e : Engine} {cid : String} (hs : StructWF e) :
    ∀ r e', e.CancelOrder cid = (r, e') →
      (assocLoad e.allOrders cid = none →
        r = Except.error EngineError.NotFound ∧ e' = e) ∧
      (∀ ord, assocLoad e.allOrders cid = some ord →
        (ord.status = OrderStatus.Filled →
          r = Except.error EngineError.AlreadyFilled ∧ e' = e) ∧
        (ord.status = OrderStatus.Cancelled →
          r = Except.ok ord ∧ e' = e) ∧
        (¬ ord.status = OrderStatus.Filled → ¬ ord.status = OrderStatus.Cancelled →
          r = Except.ok { ord with status := OrderStatus.Cancelled } ∧
          assocLoad e'.allOrders cid =
            some { ord with status := OrderStatus.Cancelled } ∧
          ∀ b ∈ e'.orderBooks, cid ∉ bookIds b.2)) := by
  intro r e' hco
  obtain ⟨hnd, hbk, hreg⟩ := hs
  simp only [Engine.CancelOrder] at hco
  cases hload : assocLoad e.allOrders cid with
  | none =>
    simp only [hload] at hco
    rw [Prod.mk.injEq] at hco
    obtain ⟨hr, he'⟩ := hco
    refine ⟨fun _ => ⟨hr.symm, he'.symm⟩, ?_⟩
    intro ord hord
    cases hord
  | some ord =>
    simp only [hload] at hco
    refine ⟨(fun hnone => by cases hnone), ?_⟩
    intro ord' hord
    obtain rfl : ord = ord' := Option.some_inj.1 hord
    by_cases hfil : ord.status = OrderStatus.Filled
    · rw [if_pos hfil] at hco
      rw [Prod.mk.injEq] at hco
      obtain ⟨hr, he'⟩ := hco
      refine ⟨fun _ => ⟨hr.symm, he'.symm⟩, ?_, fun hnf _ => absurd hfil hnf⟩
      intro hcst
      rw [hfil] at hcst
      cases hcst
    · rw [if_neg hfil] at hco
      by_cases hcst : ord.status = OrderStatus.Cancelled
      · rw [if_pos hcst] at hco
        rw [Prod.mk.injEq] at hco
        obtain ⟨hr, he'⟩ := hco
        exact ⟨fun hx => absurd hx hfil, fun _ => ⟨hr.symm, he'.symm⟩,
          fun _ hx => absurd hcst hx⟩
      · rw [if_neg hcst] at hco
        rcases hgb : e.getOrderBook ord.symbol with ⟨ob0, e3⟩
        obtain ⟨hg1, hg2, hg3, hg4, hg5, hg6, hg7, hg8, hg9, -⟩ :=
          @getOrderBook_spec e ord.symbol hnd hbk ob0 e3 hgb
        simp only [hgb] at hco
        rw [if_neg hfil] at hco
        refine ⟨fun hx => absurd hx hfil, fun hx => absurd hx hcst, fun _ _ => ?_⟩
        cases hin : assocLoad ob0.orders cid with
        | none =>
          have hrm : ob0.RemoveOrder cid = (none, ob0) := by
            unfold OrderBook.RemoveOrder
            rw [hin]
          simp only [hrm] at hco
          rw [Prod.mk.injEq] at hco
          obtain ⟨hr, he'⟩ := hco
          have hfreshb : ∀ b ∈ e3.orderBooks, cid ∉ bookIds b.2 := by
            intro b hb hc
            obtain ⟨ov, hov, hovsym⟩ := bookIds_entry_symbol (hg7 b hb).2 cid hc
            rw [hload] at hov
            obtain rfl : ord = ov := Option.some_inj.1 hov
            have hb1 : b.1 = ord.symbol := by
              rw [← (hg7 b hb).1, ← hovsym]
            have hbload := (mem_iff_load hg6 b).1 hb
            rw [hb1, hg5] at hbload
            obtain rfl : ob0 = b.2 := Option.some_inj.1 hbload
            have hsnap := bookIds_snapshot hg4 cid hc
            rw [hin] at hsnap
            cases hsnap
          have hOB : e'.orderBooks = e3.orderBooks := by
            rw [← he']
            show assocStore e3.orderBooks ob0.symbol ob0 = _
            rw [hg3]
            exact assocStore_self hg5
          have hRE : e'.allOrders = assocStore e3.allOrders cid
              { ord with status := OrderStatus.Cancelled } := by
            rw [← he']
            rfl
          refine ⟨hr.symm, ?_, ?_⟩
          · rw [hRE]
            exact assocLoad_store_self _ _ _
          · rw [hOB]
            exact hfreshb
        | some osnap =>
          obtain ⟨ob2, hrm, hwf2, hsym2, hlen2, hmem2, hnotin2, hkb2, hka2⟩ :=
            BookWF_remove_any hg4 hin
          simp only [hrm] at hco
          rw [Prod.mk.injEq] at hco
          obtain ⟨hr, he'⟩ := hco
          have hOB : e'.orderBooks = assocStore e3.orderBooks ord.symbol ob2 := by
            rw [← he']
            show assocStore e3.orderBooks ob2.symbol ob2 = _
            rw [hsym2, hg3]
          have hRE : e'.allOrders = assocStore e3.allOrders cid
              { ord with status := OrderStatus.Cancelled } := by
            rw [← he']
            rfl
          refine ⟨hr.symm, ?_, ?_⟩
          · rw [hRE]
            exact assocLoad_store_self _ _ _
          · rw [hOB]
            intro b hb
            rcases mem_assocStore_ne hg6 hb with rfl | ⟨hb1, hbne⟩
            · exact hnotin2
            · intro hc
              obtain ⟨ov, hov, hovsym⟩ := bookIds_entry_symbol (hg7 b hb1).2 cid hc
              rw [hload] at hov
              obtain rfl : ord = ov := Option.some_inj.1 hov
              exact hbne (((hg7 b hb1).1).symm.trans hovsym.symm)

/-- C7: validation and error atomicity.  A submit fails with INVALID_PRICE
exactly when the order is a LIMIT order with price at most 0 (this check
runs first), and with INVALID_QUANTITY exactly when the price check passes
but the original quantity is at most 0; and whenever a submit returns any
error, every existing order book is preserved unchanged (at most an empty
book for the order's symbol is lazily added) and the rejected order's id
is absent from the global registry afterwards. -/
theorem C7_validation_atomicity {e : Engine} {o : Order}
    (hs : StructWF e) (hfresh : assocLoad e.allOrders o.id = none) :
    ∀ r e', e.ProcessOrder o = (r, e') →
      (r = Except.error EngineError.InvalidPrice ↔
        o.otype = OrderType.Limit ∧ o.price ≤ 0) ∧
      (r = Except.error EngineError.InvalidQuantity ↔
        ¬(o.otype = OrderType.Limit ∧ o.price ≤ 0) ∧ o.originalQuantity ≤ 0) ∧
      (∀ err, r = Except.error err →
        (∀ b ∈ e.orderBooks, b ∈ e'.orderBooks) ∧
        (∀ b ∈ e'.orderBooks,
          b ∈ e.orderBooks ∨ b = (o.symbol, NewOrderBook o.symbol)) ∧
        assocLoad e'.allOrders o.id = none) := by
  intro r e' hpo
  obtain ⟨hnd, hbk, hreg⟩ := hs
  simp only [Engine.ProcessOrder] at hpo
  by_cases h1 : o.otype = OrderType.Limit ∧ o.price ≤ 0
  · have hv : o.Validate = some EngineError.InvalidPrice := by
      unfold Order.Validate
      rw [if_pos h1]
    simp only [hv] at hpo
    rw [Prod.mk.injEq] at hpo
    obtain ⟨hr, he'⟩ := hpo
    refine ⟨⟨fun _ => h1, fun _ => hr.symm⟩, ⟨?_, ?_⟩, ?_⟩
    · intro hx
      have hc := hr.trans hx
      exact absurd hc (by simp)
    · intro hcond
      exact absurd h1 hcond.1
    · intro err herr
      refine ⟨?_, ?_, ?_⟩
      · intro b hb
        rw [← he']
        exact hb
      · intro b hb
        rw [← he'] at hb
        exact Or.inl hb
      · rw [← he']
        exact hfresh
  · by_cases h2 : o.originalQuantity ≤ 0
    · have hv : o.Validate = some EngineError.InvalidQuantity := by
        unfold Order.Validate
        rw [if_neg h1, if_pos h2]
      simp only [hv] at hpo
      rw [Prod.mk.injEq] at hpo
      obtain ⟨hr, he'⟩ := hpo
      refine ⟨⟨?_, fun hcond => absurd hcond h1⟩, ⟨fun _ => ⟨h1, h2⟩, fun _ => hr.symm⟩, ?_⟩
      · intro hx
        have hc := hr.trans hx
        exact absurd hc (by simp)
      · intro err herr
        refine ⟨?_, ?_, ?_⟩
        · intro b hb
          rw [← he']
          exact hb
        · intro b hb
          rw [← he'] at hb
          exact Or.inl hb
        · rw [← he']
          exact hfresh
    · have hv : o.Validate = none := by
        unfold Order.Validate
        rw [if_neg h1, if_neg h2]
      simp only [hv] at hpo
      have hbk0 : ∀ b ∈ e.orderBooks, b.2.symbol = b.1 ∧
          BookWF (assocStore e.allOrders o.id o) b.2 := by
        intro b hb
        refine ⟨(hbk b hb).1, BookWF_reg_agree (hbk b hb).2 ?_⟩
        intro i hi
        refine assocLoad_store_ne _ _ _ _ ?_
        intro hc
        have := bookIds_load_isSome (hbk b hb).2 i hi
        rw [hc, hfresh] at this
        cases this
      rcases hgb : Engine.getOrderBook
          ((e.withMetrics { e.metrics with
              ordersReceived := e.metrics.ordersReceived + 1 }).withRegistry
            (assocStore (e.withMetrics { e.metrics with
              ordersReceived := e.metrics.ordersReceived + 1 }).allOrders o.id o))
          o.symbol with ⟨ob0, e3⟩
      obtain ⟨hg1, hg2, hg3, hg4, hg5, hg6, hg7, hg8, hg9, hg10⟩ :=
        @getOrderBook_spec ((e.withMetrics { e.metrics with
            ordersReceived := e.metrics.ordersReceived + 1 }).withRegistry
          (assocStore (e.withMetrics { e.metrics with
            ordersReceived := e.metrics.ordersReceived + 1 }).allOrders o.id o))
          o.symbol hnd hbk0 ob0 e3 hgb
      simp only [hgb] at hpo
      have he3reg : e3.allOrders = assocStore e.allOrders o.id o := hg1
      have main : e3.processOrderRest o ob0 = (r, e') →
          (r = Except.error EngineError.InvalidPrice ↔
            o.otype = OrderType.Limit ∧ o.price ≤ 0) ∧
          (r = Except.error EngineError.InvalidQuantity ↔
            ¬(o.otype = OrderType.Limit ∧ o.price ≤ 0) ∧ o.originalQuantity ≤ 0) ∧
          (∀ err, r = Except.error err →
            (∀ b ∈ e.orderBooks, b ∈ e'.orderBooks) ∧
            (∀ b ∈ e'.orderBooks,
              b ∈ e.orderBooks ∨ b = (o.symbol, NewOrderBook o.symbol)) ∧
            assocLoad e'.allOrders o.id = none) := by
        intro hrest
        obtain ⟨o₁, reg₁, ob₁, m₁, trades₁, st, mF, hstep, hst, -, -, -, -, hdisj⟩ :=
          processOrderRest_cases e3 o ob0 r e' hrest
        have hok : ∃ res, r = Except.ok res := by
          rcases hdisj with ⟨-, -, h, -⟩ | ⟨-, -, h, -⟩ | ⟨-, h, -⟩ <;> exact ⟨_, h⟩
        obtain ⟨res, hrok⟩ := hok
        refine ⟨⟨?_, fun hcond => absurd hcond h1⟩,
          ⟨?_, fun hcond => absurd hcond.2 h2⟩, ?_⟩
        · intro hx
          rw [hrok] at hx
          cases hx
        · intro hx
          rw [hrok] at hx
          cases hx
        · intro err herr
          rw [hrok] at herr
          cases herr
      by_cases hmt : o.otype = OrderType.Market
      · rw [if_pos hmt] at hpo
        by_cases hliq : ob0.CalculateLiquidity e3.allOrders o.side o.originalQuantity <
            o.originalQuantity
        · rw [if_pos hliq] at hpo
          rw [Prod.mk.injEq] at hpo
          obtain ⟨hr, he'⟩ := hpo
          refine ⟨⟨?_, fun hcond => absurd hcond h1⟩,
            ⟨?_, fun hcond => absurd hcond.2 h2⟩, ?_⟩
          · intro hx
            have hc := hr.trans hx
            exact absurd hc (by simp)
          · intro hx
            have hc := hr.trans hx
            exact absurd hc (by simp)
          · intro err herr
            refine ⟨?_, ?_, ?_⟩
            · intro b hb
              rw [← he']
              exact hg10 b hb
            · intro b hb
              rw [← he'] at hb
              exact hg8 b hb
            · rw [← he']
              show assocLoad (assocDelete e3.allOrders o.id) o.id = none
              rw [he3reg]
              exact assocLoad_delete_self _ _ (assocStore_nodup _ _ _ hreg.2)
        · rw [if_neg hliq] at hpo
          exact main hpo
      · rw [if_neg hmt] at hpo
        exact main hpo

theorem submittedIds_append (l l' : List Op) :
    submittedIds (l ++ l') = submittedIds l ++ submittedIds l' := by
  simp [submittedIds]

/-- C4: no crossed book at rest.  Along every run of submit and cancel
operations with distinct submitted ids, starting from the fresh engine,
every book satisfies: whenever both a best bid and a best ask exist, the
best bid price is strictly below the best ask price. -/
theorem C4_no_crossed_book (ops : List Op) (hnd : (submittedIds ops).Nodup) :
    ∀ b ∈ (runOps ops).orderBooks, ∀ bb ba,
      bestBidPrice b.2 = some bb → bestAskPrice b.2 = some ba → bb < ba := by
  obtain ⟨-, hncall, -, -, -⟩ := runOps_inv ops hnd
  intro b hb
  exact hncall b hb

/-- C5: quantity accounting.  After any run of operations with distinct
submitted ids in which every submission carries the fresh fill state
`NewOrder` produces, every registry entry satisfies
filled + remaining = original and 0 ≤ remaining ≤ original; and extending
the run (keeping the ids distinct) never changes an order's original
quantity, never increases its remaining quantity, and never decreases its
filled quantity. -/
theorem C5_quantity_accounting (ops : List Op) (hnd : (submittedIds ops).Nodup)
    (hshape : ∀ op ∈ ops, opShapeOK op) :
    (∀ id1 ov, assocLoad (runOps ops).allOrders id1 = some ov →
      ov.filledQuantity + ov.remainingQuantity = ov.originalQuantity ∧
      0 ≤ ov.remainingQuantity ∧ ov.remainingQuantity ≤ ov.originalQuantity ∧
      0 ≤ ov.filledQuantity) ∧
    (∀ more, (submittedIds (ops ++ more)).Nodup →
      ∀ id1 ov₁ ov₂, assocLoad (runOps ops).allOrders id1 = some ov₁ →
        assocLoad (runOps (ops ++ more)).allOrders id1 = some ov₂ →
        ov₂.originalQuantity = ov₁.originalQuantity ∧
        ov₂.remainingQuantity ≤ ov₁.remainingQuantity ∧
        ov₁.filledQuantity ≤ ov₂.filledQuantity) := by
  obtain ⟨j1, j2, j3, j4, j5⟩ := runOps_inv ops hnd
  have hq : QuantWF (runOps ops).allOrders := j5 hshape
  constructor
  · intro id1 ov hload
    obtain ⟨hsum, hrem, hfil⟩ := hq (id1, ov) (assocLoad_mem hload)
    have hsum' : ov.filledQuantity + ov.remainingQuantity = ov.originalQuantity := hsum
    have hrem' : 0 ≤ ov.remainingQuantity := hrem
    have hfil' : 0 ≤ ov.filledQuantity := hfil
    exact ⟨hsum', hrem', by omega, hfil'⟩
  · intro more hnd2
    rw [submittedIds_append] at hnd2
    obtain ⟨-, hndm, hdisj⟩ := List.nodup_append.1 hnd2
    have hfr : ∀ oid ∈ submittedIds more,
        assocLoad (runOps ops).allOrders oid = none := by
      intro oid hoid
      rcases hl : assocLoad (runOps ops).allOrders oid with _ | v
      · rfl
      · exact absurd hoid (hdisj (j4 oid (by rw [hl]; rfl)))
    obtain ⟨-, -, -, -, k5, -⟩ := foldl_inv more (runOps ops) j1 j2 j3 hndm hfr
    have hrun : runOps (ops ++ more) = more.foldl applyOp (runOps ops) := by
      unfold runOps
      rw [List.foldl_append]
    intro id1 ov₁ ov₂ h1 h2
    rw [hrun] at h2
    exact k5 id1 ov₁ ov₂ h1 h2

/-- C10: the orders_in_book counter.  Along every run with distinct
submitted ids the counter equals the number of orders resting across all
books; and without the distinct-id hypothesis the correspondence breaks,
witnessed by submitting the same limit order id twice (the second
AddOrder is a no-op on the index while the counter still increments). -/
theorem C10_orders_in_book_counter :
    (∀ ops : List Op, (submittedIds ops).Nodup →
      (runOps ops).metrics.ordersInBook = totalResting (runOps ops)) ∧
    ¬ ((runOps [Op.submit (NewOrder "a" "X" Side.Buy OrderType.Limit 100 10),
          Op.submit (NewOrder "a" "X" Side.Buy OrderType.Limit 100 10)]).metrics.ordersInBook =
        totalResting (runOps [Op.submit (NewOrder "a" "X" Side.Buy OrderType.Limit 100 10),
          Op.submit (NewOrder "a" "X" Side.Buy OrderType.Limit 100 10)])) := by
  constructor
  · intro ops hnd
    exact (runOps_inv ops hnd).2.2.1
  · decide

/-! ## Concrete instantiations of the claim theorems -/

theorem C1_market_all_or_none_witness :
    StructWF NewEngine ∧
    (NewOrder "m" "X" Side.Buy OrderType.Market 0 5).Validate = none ∧
    (NewEngine.ProcessOrder (NewOrder "m" "X" Side.Buy OrderType.Market 0 5)).1 =
      Except.error (EngineError.InsufficientLiquidity 0 5) := by
  refine ⟨by decide, by decide, ?_⟩
  have h := @C1_market_all_or_none NewEngine
    (NewOrder "m" "X" Side.Buy OrderType.Market 0 5)
    (by decide) rfl rfl (by decide) rfl
    ((NewEngine.ProcessOrder (NewOrder "m" "X" Side.Buy OrderType.Market 0 5)).1)
    ((NewEngine.ProcessOrder (NewOrder "m" "X" Side.Buy OrderType.Market 0 5)).2) rfl
  exact h.1.mp (by decide)

theorem C2_trade_fields_witness :
    BookWF [("r", NewOrder "r" "X" Side.Sell OrderType.Limit 100 5)]
      ((NewOrderBook "X").AddOrder (NewOrder "r" "X" Side.Sell OrderType.Limit 100 5)) ∧
    0 < (NewOrder "a" "X" Side.Buy OrderType.Limit 100 10).remainingQuantity ∧
    (executeTrade (NewOrder "a" "X" Side.Buy OrderType.Limit 100 10)
        (NewOrder "r" "X" Side.Sell OrderType.Limit 100 5)
        [("r", NewOrder "r" "X" Side.Sell OrderType.Limit 100 5)]
        ((NewOrderBook "X").AddOrder (NewOrder "r" "X" Side.Sell OrderType.Limit 100 5))
        NewMetrics).2.2.2.2.price = 100 ∧
    (executeTrade (NewOrder "a" "X" Side.Buy OrderType.Limit 100 10)
        (NewOrder "r" "X" Side.Sell OrderType.Limit 100 5)
        [("r", NewOrder "r" "X" Side.Sell OrderType.Limit 100 5)]
        ((NewOrderBook "X").AddOrder (NewOrder "r" "X" Side.Sell OrderType.Limit 100 5))
        NewMetrics).2.2.2.2.quantity = 5 := by
  have h := @C2_trade_fields (NewOrder "a" "X" Side.Buy OrderType.Limit 100 10)
    (NewOrder "r" "X" Side.Sell OrderType.Limit 100 5)
    [("r", NewOrder "r" "X" Side.Sell OrderType.Limit 100 5)]
    ((NewOrderBook "X").AddOrder (NewOrder "r" "X" Side.Sell OrderType.Limit 100 5))
    NewMetrics 100 "r" [] []
    (by decide) (by decide) (by decide) rfl (by decide)
    ((executeTrade (NewOrder "a" "X" Side.Buy OrderType.Limit 100 10)
        (NewOrder "r" "X" Side.Sell OrderType.Limit 100 5)
        [("r", NewOrder "r" "X" Side.Sell OrderType.Limit 100 5)]
        ((NewOrderBook "X").AddOrder (NewOrder "r" "X" Side.Sell OrderType.Limit 100 5))
        NewMetrics).1)
    ((executeTrade (NewOrder "a" "X" Side.Buy OrderType.Limit 100 10)
        (NewOrder "r" "X" Side.Sell OrderType.Limit 100 5)
        [("r", NewOrder "r" "X" Side.Sell OrderType.Limit 100 5)]
        ((NewOrderBook "X").AddOrder (NewOrder "r" "X" Side.Sell OrderType.Limit 100 5))
        NewMetrics).2.1)
    ((executeTrade (NewOrder "a" "X" Side.Buy OrderType.Limit 100 10)
        (NewOrder "r" "X" Side.Sell OrderType.Limit 100 5)
        [("r", NewOrder "r" "X" Side.Sell OrderType.Limit 100 5)]
        ((NewOrderBook "X").AddOrder (NewOrder "r" "X" Side.Sell OrderType.Limit 100 5))
        NewMetrics).2.2.1)
    ((executeTrade (NewOrder "a" "X" Side.Buy OrderType.Limit 100 10)
        (NewOrder "r" "X" Side.Sell OrderType.Limit 100 5)
        [("r", NewOrder "r" "X" Side.Sell OrderType.Limit 100 5)]
        ((NewOrderBook "X").AddOrder (NewOrder "r" "X" Side.Sell OrderType.Limit 100 5))
        NewMetrics).2.2.2.1)
    ((executeTrade (NewOrder "a" "X" Side.Buy OrderType.Limit 100 10)
        (NewOrder "r" "X" Side.Sell OrderType.Limit 100 5)
        [("r", NewOrder "r" "X" Side.Sell OrderType.Limit 100 5)]
        ((NewOrderBook "X").AddOrder (NewOrder "r" "X" Side.Sell OrderType.Limit 100 5))
        NewMetrics).2.2.2.2) rfl
  exact ⟨by decide, by decide, h.1, h.2.1⟩

theorem C3_price_time_priority_witness :
    BookWF [("r", NewOrder "r" "X" Side.Sell OrderType.Limit 100 5)]
      ((NewOrderBook "X").AddOrder (NewOrder "r" "X" Side.Sell OrderType.Limit 100 5)) ∧
    ((processLimitOrder (NewOrder "a" "X" Side.Buy OrderType.Limit 100 10)
        [("r", NewOrder "r" "X" Side.Sell OrderType.Limit 100 5)]
        ((NewOrderBook "X").AddOrder (NewOrder "r" "X" Side.Sell OrderType.Limit 100 5))
        NewMetrics).2.2.2.2.map (tradeMakerId Side.Buy)) <+: ["r"] := by
  have h := @C3_price_time_priority (NewOrder "a" "X" Side.Buy OrderType.Limit 100 10)
    [("r", NewOrder "r" "X" Side.Sell OrderType.Limit 100 5)]
    ((NewOrderBook "X").AddOrder (NewOrder "r" "X" Side.Sell OrderType.Limit 100 5))
    NewMetrics (by decide) (by decide) (by decide)
    ((processLimitOrder (NewOrder "a" "X" Side.Buy OrderType.Limit 100 10)
        [("r", NewOrder "r" "X" Side.Sell OrderType.Limit 100 5)]
        ((NewOrderBook "X").AddOrder (NewOrder "r" "X" Side.Sell OrderType.Limit 100 5))
        NewMetrics).1)
    ((processLimitOrder (NewOrder "a" "X" Side.Buy OrderType.Limit 100 10)
        [("r", NewOrder "r" "X" Side.Sell OrderType.Limit 100 5)]
        ((NewOrderBook "X").AddOrder (NewOrder "r" "X" Side.Sell OrderType.Limit 100 5))
        NewMetrics).2.1)
    ((processLimitOrder (NewOrder "a" "X" Side.Buy OrderType.Limit 100 10)
        [("r", NewOrder "r" "X" Side.Sell OrderType.Limit 100 5)]
        ((NewOrderBook "X").AddOrder (NewOrder "r" "X" Side.Sell OrderType.Limit 100 5))
        NewMetrics).2.2.1)
    ((processLimitOrder (NewOrder "a" "X" Side.Buy OrderType.Limit 100 10)
        [("r", NewOrder "r" "X" Side.Sell OrderType.Limit 100 5)]
        ((NewOrderBook "X").AddOrder (NewOrder "r" "X" Side.Sell OrderType.Limit 100 5))
        NewMetrics).2.2.2.1)
    ((processLimitOrder (NewOrder "a" "X" Side.Buy OrderType.Limit 100 10)
        [("r", NewOrder "r" "X" Side.Sell OrderType.Limit 100 5)]
        ((NewOrderBook "X").AddOrder (NewOrder "r" "X" Side.Sell OrderType.Limit 100 5))
        NewMetrics).2.2.2.2) rfl
  exact ⟨by decide, h.1⟩

theorem C4_no_crossed_book_witness :
    (submittedIds [Op.submit (NewOrder "a" "X" Side.Buy OrderType.Limit 100 10),
        Op.submit (NewOrder "s" "X" Side.Sell OrderType.Limit 200 10)]).Nodup ∧
    ∀ b ∈ (runOps [Op.submit (NewOrder "a" "X" Side.Buy OrderType.Limit 100 10),
        Op.submit (NewOrder "s" "X" Side.Sell OrderType.Limit 200 10)]).orderBooks,
      ∀ bb ba, bestBidPrice b.2 = some bb → bestAskPrice b.2 = some ba → bb < ba :=
  ⟨by decide, C4_no_crossed_book _ (by decide)⟩

theorem C5_quantity_accounting_witness :
    (submittedIds [Op.submit (NewOrder "a" "X" Side.Buy OrderType.Limit 100 10),
        Op.submit (NewOrder "s" "X" Side.Sell OrderType.Limit 100 5)]).Nodup ∧
    (∀ op ∈ [Op.submit (NewOrder "a" "X" Side.Buy OrderType.Limit 100 10),
        Op.submit (NewOrder "s" "X" Side.Sell OrderType.Limit 100 5)], opShapeOK op) ∧
    ((∀ id1 ov, assocLoad (runOps [Op.submit (NewOrder "a" "X" Side.Buy OrderType.Limit 100 10),
          Op.submit (NewOrder "s" "X" Side.Sell OrderType.Limit 100 5)]).allOrders id1 =
            some ov →
        ov.filledQuantity + ov.remainingQuantity = ov.originalQuantity ∧
        0 ≤ ov.remainingQuantity ∧ ov.remainingQuantity ≤ ov.originalQuantity ∧
        0 ≤ ov.filledQuantity) ∧
      (∀ more, (submittedIds ([Op.submit (NewOrder "a" "X" Side.Buy OrderType.Limit 100 10),
          Op.submit (NewOrder "s" "X" Side.Sell OrderType.Limit 100 5)] ++ more)).Nodup →
        ∀ id1 ov₁ ov₂,
          assocLoad (runOps [Op.submit (NewOrder "a" "X" Side.Buy OrderType.Limit 100 10),
            Op.submit (NewOrder "s" "X" Side.Sell OrderType.Limit 100 5)]).allOrders id1 =
              some ov₁ →
          assocLoad (runOps ([Op.submit (NewOrder "a" "X" Side.Buy OrderType.Limit 100 10),
            Op.submit (NewOrder "s" "X" Side.Sell OrderType.Limit 100 5)] ++
              more)).allOrders id1 = some ov₂ →
          ov₂.originalQuantity = ov₁.originalQuantity ∧
          ov₂.remainingQuantity ≤ ov₁.remainingQuantity ∧
          ov₁.filledQuantity ≤ ov₂.filledQuantity)) :=
  ⟨by decide, by decide, C5_quantity_accounting _ (by decide) (by decide)⟩

theorem C6_cancel_protocol_witness :
    StructWF NewEngine ∧
    (NewEngine.CancelOrder "z").1 = Except.error EngineError.NotFound := by
  refine ⟨by decide, ?_⟩
  have h := @C6_cancel_protocol NewEngine "z" (by decide)
    ((NewEngine.CancelOrder "z").1) ((NewEngine.CancelOrder "z").2) rfl
  exact (h.1 rfl).1

theorem C7_validation_atomicity_witness :
    StructWF NewEngine ∧
    (NewEngine.ProcessOrder (NewOrder "b" "X" Side.Buy OrderType.Limit 0 10)).1 =
      Except.error EngineError.InvalidPrice := by
  refine ⟨by decide, ?_⟩
  have h := @C7_validation_atomicity NewEngine
    (NewOrder "b" "X" Side.Buy OrderType.Limit 0 10) (by decide) rfl
    ((NewEngine.ProcessOrder (NewOrder "b" "X" Side.Buy OrderType.Limit 0 10)).1)
    ((NewEngine.ProcessOrder (NewOrder "b" "X" Side.Buy OrderType.Limit 0 10)).2) rfl
  exact h.1.mpr ⟨rfl, by decide⟩

theorem C8_depth_witness :
    StructWF (runOps [Op.submit (NewOrder "a" "X" Side.Buy OrderType.Limit 100 10)]) ∧
    ((runOps [Op.submit (NewOrder "a" "X" Side.Buy OrderType.Limit 100 10)]).GetOrderBookDepth
        "X" 0).1.bids =
      depthSideSpec
        (runOps [Op.submit (NewOrder "a" "X" Side.Buy OrderType.Limit 100 10)]).allOrders
        ((runOps [Op.submit (NewOrder "a" "X" Side.Buy OrderType.Limit 100 10)]).getOrderBook
          "X").1.bids 0 := by
  refine ⟨by decide, ?_⟩
  have h := @C8_depth (runOps [Op.submit (NewOrder "a" "X" Side.Buy OrderType.Limit 100 10)])
    "X" 0 (by decide)
    (((runOps [Op.submit (NewOrder "a" "X" Side.Buy OrderType.Limit 100 10)]).getOrderBook
      "X").1)
    (((runOps [Op.submit (NewOrder "a" "X" Side.Buy OrderType.Limit 100 10)]).getOrderBook
      "X").2) rfl
  exact h.2.1

theorem C9_add_remove_roundtrip_witness :
    BookShapeWF (NewOrderBook "X") ∧
    ((NewOrderBook "X").AddOrder
        (NewOrder "a" "X" Side.Buy OrderType.Limit 100 10)).RemoveOrder "a" =
      (some (NewOrder "a" "X" Side.Buy OrderType.Limit 100 10), NewOrderBook "X") := by
  refine ⟨by decide, ?_⟩
  exact @C9_add_remove_roundtrip (NewOrderBook "X")
    (NewOrder "a" "X" Side.Buy OrderType.Limit 100 10) (by decide) (by decide) rfl

theorem C10_orders_in_book_counter_witness :
    (submittedIds [Op.submit (NewOrder "a" "X" Side.Buy OrderType.Limit 100 10)]).Nodup ∧
    (runOps [Op.submit
        (NewOrder "a" "X" Side.Buy OrderType.Limit 100 10)]).metrics.ordersInBook =
      totalResting (runOps [Op.submit (NewOrder "a" "X" Side.Buy OrderType.Limit 100 10)]) :=
  ⟨by decide, C10_orders_in_book_counter.1 _ (by decide)⟩

end Matching
